import Mathlib

/-!
# Bitwuzla floating-point glue (`src/bzlafp.cpp`): embedding and properties

The file embeds the wrapper classes of `bzlafp.cpp` (`BzlaFPSortInfo`,
`BzlaFPSymProp`, `BzlaFPSymBV<is_signed>`, `BzlaFPSymRM`, the contract hooks
of `BzlaFPSymTraits`) as state-passing functions over a model of the host
expression graph, and the Word Blaster,
whose lowering routine is declared but not defined in the source, as the
specification describes it.

* A host node is identified with the term it stands for (the host graph
  deduplicates structurally equal terms), its value under an assignment of
  the input nodes is `BzlaNode.eval`.
* The host context `Bzla` carries one reference count per node and per sort.
  The static `s_bzla` pointers of the wrapper classes are all set to the one
  host context by the `BzlaFPWordBlaster` constructor; here that context is
  the explicit state of `Run`, so `assert(s_bzla)` holds by construction, and
  handles are never null, so `assert(d_node)` holds as well.
* `Build` records the two compile-time switches the source depends on:
  whether `assert` is active (`NDEBUG` absent) and whether `BZLA_USE_SYMFPU`
  is defined.
* A wrapper that a member returns by value reaches the caller as it was
  constructed (no extra copy is made for the return), and a temporary is
  destroyed at the end of the expression that made it.
* Widths (`bwt`) are `uint32_t`; the subtractions on them wrap modulo `2^32`
  (`sub32`).
* The members of `BzlaFPSymBV<is_signed>` are function templates, instantiated
  one by one where they are used.  A member whose body is rejected when it is
  instantiated has no instance; a call of it has the outcome `illFormed`.
-/

namespace Bzlafp

/-! ## Host model: sorts, nodes, bit-vector semantics -/

/-- Modelled from the spec: a sort of the host's sort universe, either a
bit-vector sort of a given width or a floating-point sort (exponent width,
significand width).  `BzlaSortId` values are identified with the sort. -/
inductive BzlaSort
  | bv (width : Nat)
  | fp (ewidth swidth : Nat)
  deriving DecidableEq, Repr

/-- Unary bit-vector node kinds of the host (`bzla_exp_bv_not`, `_neg`,
`_inc`, `_dec`). -/
inductive BvUnop
  | not | neg | inc | dec
  deriving DecidableEq, Repr

/-- Binary node kinds of the host (`bzla_exp_bv_and`, ..., `bzla_exp_eq`,
`bzla_exp_bv_concat`). -/
inductive BvBinop
  | and | or | xor | eq
  | add | sub | mul | udiv | urem | sdiv | srem
  | sll | srl | sra
  | ult | ulte | ugt | ugte
  | slt | slte | sgt | sgte
  | concat
  deriving DecidableEq, Repr

/-- Modelled from the spec: a node of the host's hash-consed term graph.  The
identity of a node is its structure: `input` is a leaf the client created
(identified by a number, of any sort), `const` a bit-vector constant, the
other constructors are the operations the wrappers request. -/
inductive BzlaNode
  | input (id : Nat) (sort : BzlaSort)
  | const (width value : Nat)
  | unop (op : BvUnop) (a : BzlaNode)
  | binop (op : BvBinop) (a b : BzlaNode)
  | slice (a : BzlaNode) (upper lower : Nat)
  | ext (signed : Bool) (a : BzlaNode) (k : Nat)
  deriving DecidableEq, Repr

/-- Host query `bzla_sort_is_bv`. -/
def bzla_sort_is_bv : BzlaSort → Bool
  | .bv _ => true
  | .fp _ _ => false

/-- Host query `bzla_sort_is_fp`. -/
def bzla_sort_is_fp : BzlaSort → Bool
  | .bv _ => false
  | .fp _ _ => true

/-- Host query `bzla_sort_bv_get_width`; the source only calls it on
bit-vector sorts, other sorts are given width 0. -/
def bzla_sort_bv_get_width : BzlaSort → Nat
  | .bv w => w
  | .fp _ _ => 0

/-- Comparison node kinds, whose result is a single bit. -/
def BvBinop.isPredicate : BvBinop → Bool
  | .eq | .ult | .ulte | .ugt | .ugte | .slt | .slte | .sgt | .sgte => true
  | _ => false

/-- Host query `bzla_node_get_sort_id`. -/
def bzla_node_get_sort_id : BzlaNode → BzlaSort
  | .input _ s => s
  | .const w _ => .bv w
  | .unop _ a => bzla_node_get_sort_id a
  | .binop op a b =>
    if op.isPredicate then .bv 1
    else if op = .concat then
      .bv (bzla_sort_bv_get_width (bzla_node_get_sort_id a)
            + bzla_sort_bv_get_width (bzla_node_get_sort_id b))
    else bzla_node_get_sort_id a
  | .slice _ upper lower => .bv (upper - lower + 1)
  | .ext _ a k => .bv (bzla_sort_bv_get_width (bzla_node_get_sort_id a) + k)

/-- Host query `bzla_node_bv_get_width`. -/
def bzla_node_bv_get_width (n : BzlaNode) : Nat :=
  bzla_sort_bv_get_width (bzla_node_get_sort_id n)

/-- Most significant bit of a `w`-bit value. -/
def bvMsb (w x : Nat) : Bool := decide (2 ^ (w - 1) ≤ x)

/-- Two's-complement integer value of a `w`-bit value. -/
def bvToInt (w x : Nat) : Int := if bvMsb w x then (x : Int) - 2 ^ w else x

/-- Two's-complement negation modulo `2^w`. -/
def bvNeg (w x : Nat) : Nat := (2 ^ w - x % 2 ^ w) % 2 ^ w

/-- Unsigned division of the bit-vector theory (division by zero gives all
ones). -/
def bvUdiv (w x y : Nat) : Nat := if y = 0 then 2 ^ w - 1 else x / y

/-- Unsigned remainder of the bit-vector theory (remainder by zero gives the
dividend). -/
def bvUrem (x y : Nat) : Nat := if y = 0 then x else x % y

/-- Signed division of the bit-vector theory, by sign case analysis over the
unsigned division. -/
def bvSdiv (w x y : Nat) : Nat :=
  match bvMsb w x, bvMsb w y with
  | false, false => bvUdiv w x y
  | true, false => bvNeg w (bvUdiv w (bvNeg w x) y)
  | false, true => bvNeg w (bvUdiv w x (bvNeg w y))
  | true, true => bvUdiv w (bvNeg w x) (bvNeg w y)

/-- Signed remainder of the bit-vector theory (sign follows the dividend). -/
def bvSrem (w x y : Nat) : Nat :=
  match bvMsb w x, bvMsb w y with
  | false, false => bvUrem x y
  | true, false => bvNeg w (bvUrem (bvNeg w x) y)
  | false, true => bvUrem x (bvNeg w y)
  | true, true => bvNeg w (bvUrem (bvNeg w x) (bvNeg w y))

/-- Arithmetic right shift: complement, shift in zeros, complement again when
the sign bit is set. -/
def bvSra (w x s : Nat) : Nat :=
  if bvMsb w x then 2 ^ w - 1 - (2 ^ w - 1 - x) / 2 ^ s else x / 2 ^ s

/-- Value of a unary host operation on a `w`-bit argument. -/
def bvUnop (op : BvUnop) (w x : Nat) : Nat :=
  match op with
  | .not => (2 ^ w - 1 - x % 2 ^ w) % 2 ^ w
  | .neg => bvNeg w x
  | .inc => (x + 1) % 2 ^ w
  | .dec => (x + (2 ^ w - 1)) % 2 ^ w

/-- Value of a binary host operation; `w` is the width of the first operand
and `w2` the width of the second (they agree except for `concat`). -/
def bvBinop (op : BvBinop) (w w2 x y : Nat) : Nat :=
  match op with
  | .and => (x &&& y) % 2 ^ w
  | .or => (x ||| y) % 2 ^ w
  | .xor => (x ^^^ y) % 2 ^ w
  | .eq => if x = y then 1 else 0
  | .add => (x + y) % 2 ^ w
  | .sub => (x + bvNeg w y) % 2 ^ w
  | .mul => (x * y) % 2 ^ w
  | .udiv => bvUdiv w x y % 2 ^ w
  | .urem => bvUrem x y % 2 ^ w
  | .sdiv => bvSdiv w x y % 2 ^ w
  | .srem => bvSrem w x y % 2 ^ w
  | .sll => (x * 2 ^ y) % 2 ^ w
  | .srl => (x / 2 ^ y) % 2 ^ w
  | .sra => bvSra w x y % 2 ^ w
  | .ult => if x < y then 1 else 0
  | .ulte => if x ≤ y then 1 else 0
  | .ugt => if y < x then 1 else 0
  | .ugte => if y ≤ x then 1 else 0
  | .slt => if bvToInt w x < bvToInt w y then 1 else 0
  | .slte => if bvToInt w x ≤ bvToInt w y then 1 else 0
  | .sgt => if bvToInt w y < bvToInt w x then 1 else 0
  | .sgte => if bvToInt w y ≤ bvToInt w x then 1 else 0
  | .concat => (x * 2 ^ w2 + y) % 2 ^ (w + w2)

/-- Modelled from the spec: the value of a node under an assignment `σ` of
the input nodes, by the semantics of the fixed-width bit-vector theory
(every operation is modulo `2^w`).  Nodes of a floating-point sort have no
bit-vector value and evaluate to 0. -/
def BzlaNode.eval (σ : Nat → Nat) : BzlaNode → Nat
  | .input id s => σ id % 2 ^ bzla_sort_bv_get_width s
  | .const w v => v % 2 ^ w
  | .unop op a => bvUnop op (bzla_node_bv_get_width a) (a.eval σ)
  | .binop op a b =>
    bvBinop op (bzla_node_bv_get_width a) (bzla_node_bv_get_width b) (a.eval σ) (b.eval σ)
  | .slice a upper lower => (a.eval σ / 2 ^ lower) % 2 ^ (upper - lower + 1)
  | .ext signed a k =>
    if signed && bvMsb (bzla_node_bv_get_width a) (a.eval σ) then
      (a.eval σ + (2 ^ k - 1) * 2 ^ bzla_node_bv_get_width a)
        % 2 ^ (bzla_node_bv_get_width a + k)
    else a.eval σ % 2 ^ (bzla_node_bv_get_width a + k)

/-! ## Host model: reference counts and the state-passing monad -/

/-- Ways a run stops without returning: a failed `assert` of the source, a
violated precondition of a host function, the use of a handle whose
reference count has dropped to zero, exhaustion of the call-depth budget of
the model (the run has not returned within that depth), and the call of a
member function template that has no instance because its body is rejected
when it is instantiated (no statement of such a member is ever executed). -/
inductive Abort
  | assertion
  | hostPrecondition
  | useAfterRelease
  | outOfFuel
  | illFormed
  deriving DecidableEq, Repr

/-- Modelled from the spec: the host context, reduced to what the wrappers
can observe: the reference count of every node and of every sort.  A node
whose count is zero is not allocated.  References that parent nodes hold on
their children are not tracked. -/
structure Bzla where
  nodeRefs : BzlaNode → Nat
  sortRefs : BzlaSort → Nat

/-- Compile-time switches: `assertions` is true when `assert` is active,
`symfpu` is true when `BZLA_USE_SYMFPU` is defined. -/
structure Build where
  assertions : Bool
  symfpu : Bool
  deriving DecidableEq, Repr

/-- A computation over the host context that returns a value and the new
context, or stops. -/
def Run (α : Type) : Type := Bzla → Except Abort (α × Bzla)

instance : Monad Run where
  pure a := fun s => .ok (a, s)
  bind m f := fun s =>
    match m s with
    | .ok (a, s1) => f a s1
    | .error e => .error e

/-- The context after one more reference to node `n` was taken. -/
def Bzla.acquireNode (s : Bzla) (n : BzlaNode) : Bzla :=
  { s with nodeRefs := fun m => if m = n then s.nodeRefs m + 1 else s.nodeRefs m }

/-- The context after one reference to node `n` was given back. -/
def Bzla.releaseNode (s : Bzla) (n : BzlaNode) : Bzla :=
  { s with nodeRefs := fun m => if m = n then s.nodeRefs m - 1 else s.nodeRefs m }

/-- The context after one more reference to sort `t` was taken. -/
def Bzla.acquireSort (s : Bzla) (t : BzlaSort) : Bzla :=
  { s with sortRefs := fun u => if u = t then s.sortRefs u + 1 else s.sortRefs u }

/-- The context after one reference to sort `t` was given back. -/
def Bzla.releaseSort (s : Bzla) (t : BzlaSort) : Bzla :=
  { s with sortRefs := fun u => if u = t then s.sortRefs u - 1 else s.sortRefs u }

/-- The context in which nothing is allocated. -/
def Bzla.empty : Bzla := ⟨fun _ => 0, fun _ => 0⟩

/-- The C `assert` on a plain condition: checked only when assertions are
active. -/
def assertThat (cfg : Build) (c : Bool) : Run Unit := fun s =>
  if cfg.assertions && !c then .error .assertion else .ok ((), s)

/-- The C `assert` on a condition that is itself a call which may not return:
evaluated only when assertions are active. -/
def assertCall (cfg : Build) (c : Except Abort Bool) : Run Unit := fun s =>
  if cfg.assertions then
    match c with
    | .ok true => .ok ((), s)
    | .ok false => .error .assertion
    | .error e => .error e
  else .ok ((), s)

/-- Host function `bzla_node_copy`: one more reference to an allocated node. -/
def bzla_node_copy (n : BzlaNode) : Run BzlaNode := fun s =>
  if s.nodeRefs n = 0 then .error .useAfterRelease else .ok (n, s.acquireNode n)

/-- Host function `bzla_node_release`: give one reference back. -/
def bzla_node_release (n : BzlaNode) : Run Unit := fun s =>
  if s.nodeRefs n = 0 then .error .useAfterRelease else .ok ((), s.releaseNode n)

/-- Host function `bzla_sort_copy`. -/
def bzla_sort_copy (t : BzlaSort) : Run BzlaSort := fun s =>
  if s.sortRefs t = 0 then .error .useAfterRelease else .ok (t, s.acquireSort t)

/-- Host function `bzla_sort_release`. -/
def bzla_sort_release (t : BzlaSort) : Run Unit := fun s =>
  if s.sortRefs t = 0 then .error .useAfterRelease else .ok ((), s.releaseSort t)

/-- Host function `bzla_sort_bv`: the bit-vector sort of a positive width,
newly acquired. -/
def bzla_sort_bv (w : Nat) : Run BzlaSort := fun s =>
  if w = 0 then .error .hostPrecondition else .ok (.bv w, s.acquireSort (.bv w))

/-- Host function `bzla_sort_fp`: the floating-point sort, newly acquired. -/
def bzla_sort_fp (ewidth swidth : Nat) : Run BzlaSort := fun s =>
  .ok (.fp ewidth swidth, s.acquireSort (.fp ewidth swidth))

/-- Modelled from the spec: the common shape of every host node constructor
("all such constructors return newly-acquired handles that the caller must
eventually release"): the argument handles must be allocated, the host's own
precondition `pre` must hold, and the result `n` is returned with one more
reference. -/
def hostNode (args : List BzlaNode) (pre : Bool) (n : BzlaNode) : Run BzlaNode := fun s =>
  if args.any (fun a => s.nodeRefs a = 0) then .error .useAfterRelease
  else if !pre then .error .hostPrecondition
  else .ok (n, s.acquireNode n)

/-- Host precondition of the binary bit-vector operations: both operands are
bit-vectors of one sort. -/
def sameBvSort (a b : BzlaNode) : Bool :=
  bzla_sort_is_bv (bzla_node_get_sort_id a)
    && decide (bzla_node_get_sort_id a = bzla_node_get_sort_id b)

/-- Host constructor of a unary bit-vector operation. -/
def bzla_exp_unop (op : BvUnop) (a : BzlaNode) : Run BzlaNode :=
  hostNode [a] (bzla_sort_is_bv (bzla_node_get_sort_id a)) (.unop op a)

/-- Host constructor of a binary bit-vector operation on operands of one
sort. -/
def bzla_exp_binop (op : BvBinop) (a b : BzlaNode) : Run BzlaNode :=
  hostNode [a, b] (sameBvSort a b) (.binop op a b)

/-- Host function `bzla_exp_bv_not`. -/
def bzla_exp_bv_not (a : BzlaNode) : Run BzlaNode := bzla_exp_unop .not a
/-- Host function `bzla_exp_bv_neg`. -/
def bzla_exp_bv_neg (a : BzlaNode) : Run BzlaNode := bzla_exp_unop .neg a
/-- Host function `bzla_exp_bv_inc`. -/
def bzla_exp_bv_inc (a : BzlaNode) : Run BzlaNode := bzla_exp_unop .inc a
/-- Host function `bzla_exp_bv_dec`. -/
def bzla_exp_bv_dec (a : BzlaNode) : Run BzlaNode := bzla_exp_unop .dec a
/-- Host function `bzla_exp_bv_and`. -/
def bzla_exp_bv_and (a b : BzlaNode) : Run BzlaNode := bzla_exp_binop .and a b
/-- Host function `bzla_exp_bv_or`. -/
def bzla_exp_bv_or (a b : BzlaNode) : Run BzlaNode := bzla_exp_binop .or a b
/-- Host function `bzla_exp_bv_xor`. -/
def bzla_exp_bv_xor (a b : BzlaNode) : Run BzlaNode := bzla_exp_binop .xor a b
/-- Host function `bzla_exp_bv_add`. -/
def bzla_exp_bv_add (a b : BzlaNode) : Run BzlaNode := bzla_exp_binop .add a b
/-- Host function `bzla_exp_bv_sub`. -/
def bzla_exp_bv_sub (a b : BzlaNode) : Run BzlaNode := bzla_exp_binop .sub a b
/-- Host function `bzla_exp_bv_mul`. -/
def bzla_exp_bv_mul (a b : BzlaNode) : Run BzlaNode := bzla_exp_binop .mul a b
/-- Host function `bzla_exp_bv_udiv`. -/
def bzla_exp_bv_udiv (a b : BzlaNode) : Run BzlaNode := bzla_exp_binop .udiv a b
/-- Host function `bzla_exp_bv_urem`. -/
def bzla_exp_bv_urem (a b : BzlaNode) : Run BzlaNode := bzla_exp_binop .urem a b
/-- Host function `bzla_exp_bv_sdiv`. -/
def bzla_exp_bv_sdiv (a b : BzlaNode) : Run BzlaNode := bzla_exp_binop .sdiv a b
/-- Host function `bzla_exp_bv_srem`. -/
def bzla_exp_bv_srem (a b : BzlaNode) : Run BzlaNode := bzla_exp_binop .srem a b
/-- Host function `bzla_exp_bv_sll`. -/
def bzla_exp_bv_sll (a b : BzlaNode) : Run BzlaNode := bzla_exp_binop .sll a b
/-- Host function `bzla_exp_bv_srl`. -/
def bzla_exp_bv_srl (a b : BzlaNode) : Run BzlaNode := bzla_exp_binop .srl a b
/-- Host function `bzla_exp_bv_sra`. -/
def bzla_exp_bv_sra (a b : BzlaNode) : Run BzlaNode := bzla_exp_binop .sra a b
/-- Host function `bzla_exp_bv_ult`. -/
def bzla_exp_bv_ult (a b : BzlaNode) : Run BzlaNode := bzla_exp_binop .ult a b
/-- Host function `bzla_exp_bv_ulte`. -/
def bzla_exp_bv_ulte (a b : BzlaNode) : Run BzlaNode := bzla_exp_binop .ulte a b
/-- Host function `bzla_exp_bv_ugt`. -/
def bzla_exp_bv_ugt (a b : BzlaNode) : Run BzlaNode := bzla_exp_binop .ugt a b
/-- Host function `bzla_exp_bv_ugte`. -/
def bzla_exp_bv_ugte (a b : BzlaNode) : Run BzlaNode := bzla_exp_binop .ugte a b
/-- Host function `bzla_exp_bv_slt`. -/
def bzla_exp_bv_slt (a b : BzlaNode) : Run BzlaNode := bzla_exp_binop .slt a b
/-- Host function `bzla_exp_bv_slte`. -/
def bzla_exp_bv_slte (a b : BzlaNode) : Run BzlaNode := bzla_exp_binop .slte a b
/-- Host function `bzla_exp_bv_sgt`. -/
def bzla_exp_bv_sgt (a b : BzlaNode) : Run BzlaNode := bzla_exp_binop .sgt a b
/-- Host function `bzla_exp_bv_sgte`. -/
def bzla_exp_bv_sgte (a b : BzlaNode) : Run BzlaNode := bzla_exp_binop .sgte a b

/-- Host function `bzla_exp_eq`: equality of two nodes of one sort. -/
def bzla_exp_eq (a b : BzlaNode) : Run BzlaNode :=
  hostNode [a, b] (decide (bzla_node_get_sort_id a = bzla_node_get_sort_id b)) (.binop .eq a b)

/-- Host function `bzla_exp_bv_slice`: bits `upper` down to `lower`, which
must lie inside the operand. -/
def bzla_exp_bv_slice (a : BzlaNode) (upper lower : Nat) : Run BzlaNode :=
  hostNode [a]
    (bzla_sort_is_bv (bzla_node_get_sort_id a) && decide (lower ≤ upper)
      && decide (upper < bzla_node_bv_get_width a))
    (.slice a upper lower)

/-- Host function `bzla_exp_bv_sext`: sign extension by `k` bits. -/
def bzla_exp_bv_sext (a : BzlaNode) (k : Nat) : Run BzlaNode :=
  hostNode [a] (bzla_sort_is_bv (bzla_node_get_sort_id a)) (.ext true a k)

/-- Host function `bzla_exp_bv_uext`: zero extension by `k` bits. -/
def bzla_exp_bv_uext (a : BzlaNode) (k : Nat) : Run BzlaNode :=
  hostNode [a] (bzla_sort_is_bv (bzla_node_get_sort_id a)) (.ext false a k)

/-- Host constructor of the constant of value `v` (reduced modulo `2^w`) of a
bit-vector sort. -/
def bzla_exp_const_of_sort (t : BzlaSort) (v : Nat) : Run BzlaNode :=
  hostNode [] (bzla_sort_is_bv t)
    (.const (bzla_sort_bv_get_width t) (v % 2 ^ bzla_sort_bv_get_width t))

/-- Host function `bzla_exp_bv_zero`. -/
def bzla_exp_bv_zero (t : BzlaSort) : Run BzlaNode := bzla_exp_const_of_sort t 0
/-- Host function `bzla_exp_bv_one`. -/
def bzla_exp_bv_one (t : BzlaSort) : Run BzlaNode := bzla_exp_const_of_sort t 1
/-- Host function `bzla_exp_bv_ones`: every bit set. -/
def bzla_exp_bv_ones (t : BzlaSort) : Run BzlaNode :=
  bzla_exp_const_of_sort t (2 ^ bzla_sort_bv_get_width t - 1)
/-- Host function `bzla_exp_bv_max_signed`: `0111...1`. -/
def bzla_exp_bv_max_signed (t : BzlaSort) : Run BzlaNode :=
  bzla_exp_const_of_sort t (2 ^ (bzla_sort_bv_get_width t - 1) - 1)
/-- Host function `bzla_exp_bv_min_signed`: `1000...0`. -/
def bzla_exp_bv_min_signed (t : BzlaSort) : Run BzlaNode :=
  bzla_exp_const_of_sort t (2 ^ (bzla_sort_bv_get_width t - 1))
/-- Host function `bzla_exp_bv_unsigned`: the constant of an unsigned 32-bit
literal. -/
def bzla_exp_bv_unsigned (val : Nat) (t : BzlaSort) : Run BzlaNode :=
  bzla_exp_const_of_sort t val
/-- Host function `bzla_exp_bv_int`: the constant of a signed 32-bit literal;
`val` is the `uint32_t` the wrapper passes, read as `int32_t`. -/
def bzla_exp_bv_int (val : Nat) (t : BzlaSort) : Run BzlaNode :=
  bzla_exp_const_of_sort t
    (((bvToInt 32 (val % 2 ^ 32)) % (2 ^ bzla_sort_bv_get_width t : Int)).toNat)
/-- Host function `bzla_exp_bv_const`: the constant of a `BzlaBitVector`,
given as (width, value). -/
def bzla_exp_bv_const (bv : Nat × Nat) : Run BzlaNode :=
  bzla_exp_const_of_sort (.bv bv.1) bv.2
/-- Host function `bzla_exp_true`: the width-1 constant 1. -/
def bzla_exp_true : Run BzlaNode := bzla_exp_const_of_sort (.bv 1) 1
/-- Host function `bzla_exp_false`: the width-1 constant 0. -/
def bzla_exp_false : Run BzlaNode := bzla_exp_const_of_sort (.bv 1) 0

/-- The macro `BZLA_FP_RM_BW` of the source. -/
def BZLA_FP_RM_BW : Nat := 3

/-- Modelled from the spec: the enumerator `BZLA_RM_MAX` of the host header
(not in the source), the number of rounding modes, which the spec gives as
five. -/
def BZLA_RM_MAX : Nat := 5

/-- Modelled from the spec: `SYMFPU_NUMBER_OF_ROUNDING_MODES` of the external
encoding library, five. -/
def SYMFPU_NUMBER_OF_ROUNDING_MODES : Nat := 5

/-- Modelled from the spec: host function `bzla_exp_fp_rm`, the constant of a
rounding mode.  The spec represents a rounding mode as a code of width
`BZLA_FP_RM_BW`, so the constant of mode `rm` is the bit-vector constant `rm`
of that width; the host requires `rm` to be one of the modes. -/
def bzla_exp_fp_rm (rm : Nat) : Run BzlaNode :=
  hostNode [] (decide (rm < BZLA_RM_MAX)) (.const BZLA_FP_RM_BW (rm % 2 ^ BZLA_FP_RM_BW))

/-- Subtraction of two `uint32_t` values (`bwt`), wrapping modulo `2^32`. -/
def sub32 (a b : Nat) : Nat := (a % 2 ^ 32 + 2 ^ 32 - b % 2 ^ 32) % 2 ^ 32

/-! ## `BzlaFPSortInfo` -/

/-- Class `BzlaFPSortInfo`: a wrapper holding one reference to a
floating-point sort. -/
structure BzlaFPSortInfo where
  d_sort : BzlaSort
  deriving DecidableEq, Repr

/-- Constructor `BzlaFPSortInfo(const BzlaSortId sort)`. -/
def BzlaFPSortInfo.ofSort (cfg : Build) (sort : BzlaSort) : Run BzlaFPSortInfo := do
  assertThat cfg (bzla_sort_is_fp sort)
  let d ← bzla_sort_copy sort
  pure ⟨d⟩

/-- Constructor `BzlaFPSortInfo(uint32_t ewidth, uint32_t swidth)`. -/
def BzlaFPSortInfo.ofWidths (ewidth swidth : Nat) : Run BzlaFPSortInfo := do
  let d ← bzla_sort_fp ewidth swidth
  pure ⟨d⟩

/-- Copy constructor `BzlaFPSortInfo(const BzlaFPSortInfo &other)`. -/
def BzlaFPSortInfo.copy (cfg : Build) (other : BzlaFPSortInfo) : Run BzlaFPSortInfo := do
  assertThat cfg (bzla_sort_is_fp other.d_sort)
  let d ← bzla_sort_copy other.d_sort
  pure ⟨d⟩

/-- Destructor `~BzlaFPSortInfo()`. -/
def BzlaFPSortInfo.destroy (x : BzlaFPSortInfo) : Run Unit :=
  bzla_sort_release x.d_sort

/-- Member `getSort`. -/
def BzlaFPSortInfo.getSort (x : BzlaFPSortInfo) : BzlaSort := x.d_sort

/-! ## `BzlaFPSymProp` -/

/-- Class `BzlaFPSymProp`: a wrapper holding one reference to a node. -/
structure BzlaFPSymProp where
  d_node : BzlaNode
  deriving DecidableEq, Repr

/-- Member `BzlaFPSymProp::checkNode`.  Its first statement is
`assert(checkNode(node))`, a call of itself; the first argument bounds the
depth of nested calls.  Without assertions the body is the `return` alone. -/
def BzlaFPSymProp.checkNode (cfg : Build) : Nat → BzlaNode → Except Abort Bool
  | 0, _ => .error .outOfFuel
  | fuel + 1, node =>
    if cfg.assertions then
      match BzlaFPSymProp.checkNode cfg fuel node with
      | .ok true =>
        .ok (bzla_sort_is_bv (bzla_node_get_sort_id node) && bzla_node_bv_get_width node == 1)
      | .ok false => .error .assertion
      | .error e => .error e
    else
      .ok (bzla_sort_is_bv (bzla_node_get_sort_id node) && bzla_node_bv_get_width node == 1)

/-- Constructor `BzlaFPSymProp(BzlaNode *node)`. -/
def BzlaFPSymProp.ofNode (cfg : Build) (fuel : Nat) (node : BzlaNode) : Run BzlaFPSymProp := do
  assertCall cfg (BzlaFPSymProp.checkNode cfg fuel node)
  let d ← bzla_node_copy node
  pure ⟨d⟩

/-- Constructor `BzlaFPSymProp(bool v)`. -/
def BzlaFPSymProp.ofBool (v : Bool) : Run BzlaFPSymProp := do
  let d ← if v then bzla_exp_true else bzla_exp_false
  pure ⟨d⟩

/-- Copy constructor `BzlaFPSymProp(const BzlaFPSymProp &other)`. -/
def BzlaFPSymProp.copy (cfg : Build) (fuel : Nat) (other : BzlaFPSymProp) :
    Run BzlaFPSymProp := do
  assertCall cfg (BzlaFPSymProp.checkNode cfg fuel other.d_node)
  let d ← bzla_node_copy other.d_node
  pure ⟨d⟩

/-- Destructor `~BzlaFPSymProp()`. -/
def BzlaFPSymProp.destroy (p : BzlaFPSymProp) : Run Unit :=
  bzla_node_release p.d_node

/-- Member `operator!`. -/
def BzlaFPSymProp.not (cfg : Build) (fuel : Nat) (p : BzlaFPSymProp) : Run BzlaFPSymProp := do
  let n ← bzla_exp_bv_not p.d_node
  let res ← BzlaFPSymProp.ofNode cfg fuel n
  bzla_node_release n
  pure res

/-- Member `operator&&`. -/
def BzlaFPSymProp.and (cfg : Build) (fuel : Nat) (p op : BzlaFPSymProp) :
    Run BzlaFPSymProp := do
  assertCall cfg (BzlaFPSymProp.checkNode cfg fuel op.d_node)
  let n ← bzla_exp_bv_and p.d_node op.d_node
  let res ← BzlaFPSymProp.ofNode cfg fuel n
  bzla_node_release n
  pure res

/-- Member `operator||`. -/
def BzlaFPSymProp.or (cfg : Build) (fuel : Nat) (p op : BzlaFPSymProp) :
    Run BzlaFPSymProp := do
  assertCall cfg (BzlaFPSymProp.checkNode cfg fuel op.d_node)
  let n ← bzla_exp_bv_or p.d_node op.d_node
  let res ← BzlaFPSymProp.ofNode cfg fuel n
  bzla_node_release n
  pure res

/-- Member `operator==`. -/
def BzlaFPSymProp.eq (cfg : Build) (fuel : Nat) (p op : BzlaFPSymProp) :
    Run BzlaFPSymProp := do
  assertCall cfg (BzlaFPSymProp.checkNode cfg fuel op.d_node)
  let n ← bzla_exp_eq p.d_node op.d_node
  let res ← BzlaFPSymProp.ofNode cfg fuel n
  bzla_node_release n
  pure res

/-- Member `operator^`. -/
def BzlaFPSymProp.xor (cfg : Build) (fuel : Nat) (p op : BzlaFPSymProp) :
    Run BzlaFPSymProp := do
  assertCall cfg (BzlaFPSymProp.checkNode cfg fuel op.d_node)
  let n ← bzla_exp_bv_xor p.d_node op.d_node
  let res ← BzlaFPSymProp.ofNode cfg fuel n
  bzla_node_release n
  pure res

/-- Truth value of a proposition under an assignment of the inputs: the
wrapped value is 1. -/
def BzlaFPSymProp.holds (σ : Nat → Nat) (p : BzlaFPSymProp) : Bool :=
  decide (p.d_node.eval σ = 1)

/-! ## `BzlaFPSymBV<is_signed>` -/

/-- Class template `BzlaFPSymBV<is_signed>`: a wrapper holding one reference
to a node; the interpretation is the type parameter, not a stored field. -/
structure BzlaFPSymBV (is_signed : Bool) where
  d_node : BzlaNode
  deriving DecidableEq, Repr

namespace BzlaFPSymBV

variable {is_signed : Bool}

/-- Member `checkNode`. -/
def checkNode (node : BzlaNode) : Bool :=
  bzla_sort_is_bv (bzla_node_get_sort_id node)

/-- Constructor `BzlaFPSymBV(BzlaNode *node)`. -/
def ofNode (cfg : Build) (is_signed : Bool) (node : BzlaNode) : Run (BzlaFPSymBV is_signed) := do
  assertThat cfg (checkNode node)
  let d ← bzla_node_copy node
  pure ⟨d⟩

/-- Constructor `BzlaFPSymBV(const bwt w, const uint32_t val)`. -/
def ofLiteral (is_signed : Bool) (w val : Nat) : Run (BzlaFPSymBV is_signed) := do
  let s ← bzla_sort_bv w
  let d ← if is_signed then bzla_exp_bv_int val s else bzla_exp_bv_unsigned val s
  bzla_sort_release s
  pure ⟨d⟩

/-- Constructor `BzlaFPSymBV(const BzlaFPSymProp &p)`. -/
def ofProp (cfg : Build) (is_signed : Bool) (p : BzlaFPSymProp) : Run (BzlaFPSymBV is_signed) := do
  assertThat cfg (bzla_sort_bv_get_width (bzla_node_get_sort_id p.d_node) != 0)
  let d ← bzla_node_copy p.d_node
  pure ⟨d⟩

/-- Copy constructor `BzlaFPSymBV(const BzlaFPSymBV<is_signed> &other)`. -/
def copy (cfg : Build) (other : BzlaFPSymBV is_signed) : Run (BzlaFPSymBV is_signed) := do
  assertThat cfg (checkNode other.d_node)
  let d ← bzla_node_copy other.d_node
  pure ⟨d⟩

/-- Constructor `BzlaFPSymBV(const BzlaBitVector *bv)`; the bit-vector is
given as (width, value). -/
def ofBitVector (is_signed : Bool) (bv : Nat × Nat) : Run (BzlaFPSymBV is_signed) := do
  let d ← bzla_exp_bv_const bv
  pure ⟨d⟩

/-- Destructor `~BzlaFPSymBV()`. -/
def destroy (x : BzlaFPSymBV is_signed) : Run Unit :=
  bzla_node_release x.d_node

/-- Member `getWidth`. -/
def getWidth (x : BzlaFPSymBV is_signed) : Nat := bzla_node_bv_get_width x.d_node

/-- Member `getNode`. -/
def getNode (x : BzlaFPSymBV is_signed) : BzlaNode := x.d_node

/-- Static member `one`. -/
def one (cfg : Build) (is_signed : Bool) (w : Nat) : Run (BzlaFPSymBV is_signed) := do
  let s ← bzla_sort_bv w
  let n ← bzla_exp_bv_one s
  let res ← ofNode cfg is_signed n
  bzla_node_release n
  bzla_sort_release s
  pure res

/-- Static member `zero`. -/
def zero (cfg : Build) (is_signed : Bool) (w : Nat) : Run (BzlaFPSymBV is_signed) := do
  let s ← bzla_sort_bv w
  let n ← bzla_exp_bv_zero s
  let res ← ofNode cfg is_signed n
  bzla_node_release n
  bzla_sort_release s
  pure res

/-- Static member `allOnes`. -/
def allOnes (cfg : Build) (is_signed : Bool) (w : Nat) : Run (BzlaFPSymBV is_signed) := do
  let s ← bzla_sort_bv w
  let n ← bzla_exp_bv_ones s
  let res ← ofNode cfg is_signed n
  bzla_node_release n
  bzla_sort_release s
  pure res

/-- Static member `maxValue`. -/
def maxValue (cfg : Build) (is_signed : Bool) (w : Nat) : Run (BzlaFPSymBV is_signed) := do
  let s ← bzla_sort_bv w
  let n ← bzla_exp_bv_max_signed s
  let res ← ofNode cfg is_signed n
  bzla_node_release n
  bzla_sort_release s
  pure res

/-- Static member `minValue`. -/
def minValue (cfg : Build) (is_signed : Bool) (w : Nat) : Run (BzlaFPSymBV is_signed) := do
  let s ← bzla_sort_bv w
  let n ← bzla_exp_bv_min_signed s
  let res ← ofNode cfg is_signed n
  bzla_node_release n
  bzla_sort_release s
  pure res

/-- Member `operator<<`. -/
def shl (cfg : Build) (x op : BzlaFPSymBV is_signed) : Run (BzlaFPSymBV is_signed) := do
  let n ← bzla_exp_bv_sll x.d_node op.d_node
  let res ← ofNode cfg is_signed n
  bzla_node_release n
  pure res

/-- Member `operator>>`. -/
def shr (cfg : Build) (x op : BzlaFPSymBV is_signed) : Run (BzlaFPSymBV is_signed) := do
  let n ← if is_signed then bzla_exp_bv_sra x.d_node op.d_node
          else bzla_exp_bv_srl x.d_node op.d_node
  let res ← ofNode cfg is_signed n
  bzla_node_release n
  pure res

/-- Member `operator|`. -/
def or (cfg : Build) (x op : BzlaFPSymBV is_signed) : Run (BzlaFPSymBV is_signed) := do
  let n ← bzla_exp_bv_or x.d_node op.d_node
  let res ← ofNode cfg is_signed n
  bzla_node_release n
  pure res

/-- Member `operator&`. -/
def and (cfg : Build) (x op : BzlaFPSymBV is_signed) : Run (BzlaFPSymBV is_signed) := do
  let n ← bzla_exp_bv_and x.d_node op.d_node
  let res ← ofNode cfg is_signed n
  bzla_node_release n
  pure res

/-- Member `operator+`. -/
def add (cfg : Build) (x op : BzlaFPSymBV is_signed) : Run (BzlaFPSymBV is_signed) := do
  let n ← bzla_exp_bv_add x.d_node op.d_node
  let res ← ofNode cfg is_signed n
  bzla_node_release n
  pure res

/-- Member `operator-` (binary). -/
def sub (cfg : Build) (x op : BzlaFPSymBV is_signed) : Run (BzlaFPSymBV is_signed) := do
  let n ← bzla_exp_bv_sub x.d_node op.d_node
  let res ← ofNode cfg is_signed n
  bzla_node_release n
  pure res

/-- Member `operator*`. -/
def mul (cfg : Build) (x op : BzlaFPSymBV is_signed) : Run (BzlaFPSymBV is_signed) := do
  let n ← bzla_exp_bv_mul x.d_node op.d_node
  let res ← ofNode cfg is_signed n
  bzla_node_release n
  pure res

/-- Member `operator/`. -/
def div (cfg : Build) (x op : BzlaFPSymBV is_signed) : Run (BzlaFPSymBV is_signed) := do
  let n ← if is_signed then bzla_exp_bv_sdiv x.d_node op.d_node
          else bzla_exp_bv_udiv x.d_node op.d_node
  let res ← ofNode cfg is_signed n
  bzla_node_release n
  pure res

/-- Member `operator%`. -/
def rem (cfg : Build) (x op : BzlaFPSymBV is_signed) : Run (BzlaFPSymBV is_signed) := do
  let n ← if is_signed then bzla_exp_bv_srem x.d_node op.d_node
          else bzla_exp_bv_urem x.d_node op.d_node
  let res ← ofNode cfg is_signed n
  bzla_node_release n
  pure res

/-- Member `operator-` (unary). -/
def neg (cfg : Build) (x : BzlaFPSymBV is_signed) : Run (BzlaFPSymBV is_signed) := do
  let n ← bzla_exp_bv_neg x.d_node
  let res ← ofNode cfg is_signed n
  bzla_node_release n
  pure res

/-- Member `operator~`. -/
def not (cfg : Build) (x : BzlaFPSymBV is_signed) : Run (BzlaFPSymBV is_signed) := do
  let n ← bzla_exp_bv_not x.d_node
  let res ← ofNode cfg is_signed n
  bzla_node_release n
  pure res

/-- Member `increment`. -/
def increment (cfg : Build) (x : BzlaFPSymBV is_signed) : Run (BzlaFPSymBV is_signed) := do
  let n ← bzla_exp_bv_inc x.d_node
  let res ← ofNode cfg is_signed n
  bzla_node_release n
  pure res

/-- Member `decrement`. -/
def decrement (cfg : Build) (x : BzlaFPSymBV is_signed) : Run (BzlaFPSymBV is_signed) := do
  let n ← bzla_exp_bv_dec x.d_node
  let res ← ofNode cfg is_signed n
  bzla_node_release n
  pure res

/-- Member `signExtendRightShift`. -/
def signExtendRightShift (cfg : Build) (x op : BzlaFPSymBV is_signed) :
    Run (BzlaFPSymBV is_signed) := do
  let n ← bzla_exp_bv_sra x.d_node op.d_node
  let res ← ofNode cfg is_signed n
  bzla_node_release n
  pure res

/-- Member `modularLeftShift`: `return *this << op;`. -/
def modularLeftShift (cfg : Build) (x op : BzlaFPSymBV is_signed) :
    Run (BzlaFPSymBV is_signed) := shl cfg x op

/-- Member `modularRightShift`: `return *this >> op;`. -/
def modularRightShift (cfg : Build) (x op : BzlaFPSymBV is_signed) :
    Run (BzlaFPSymBV is_signed) := shr cfg x op

/-- Member `modularIncrement`: `return this->increment();`. -/
def modularIncrement (cfg : Build) (x : BzlaFPSymBV is_signed) :
    Run (BzlaFPSymBV is_signed) := increment cfg x

/-- Member `modularDecrement`: `return this->decrement();`. -/
def modularDecrement (cfg : Build) (x : BzlaFPSymBV is_signed) :
    Run (BzlaFPSymBV is_signed) := decrement cfg x

/-- Member `modularAdd`: `return *this + op;`. -/
def modularAdd (cfg : Build) (x op : BzlaFPSymBV is_signed) :
    Run (BzlaFPSymBV is_signed) := add cfg x op

/-- Member `modularNegate`: `return -(*this);`. -/
def modularNegate (cfg : Build) (x : BzlaFPSymBV is_signed) :
    Run (BzlaFPSymBV is_signed) := neg cfg x

/-- Member `operator==`. -/
def eq (cfg : Build) (fuel : Nat) (x op : BzlaFPSymBV is_signed) : Run BzlaFPSymProp := do
  let n ← bzla_exp_eq x.d_node op.d_node
  let res ← BzlaFPSymProp.ofNode cfg fuel n
  bzla_node_release n
  pure res

/-- Member `operator<=`. -/
def le (cfg : Build) (fuel : Nat) (x op : BzlaFPSymBV is_signed) : Run BzlaFPSymProp := do
  let n ← if is_signed then bzla_exp_bv_slte x.d_node op.d_node
          else bzla_exp_bv_ulte x.d_node op.d_node
  let res ← BzlaFPSymProp.ofNode cfg fuel n
  bzla_node_release n
  pure res

/-- Member `operator>=`. -/
def ge (cfg : Build) (fuel : Nat) (x op : BzlaFPSymBV is_signed) : Run BzlaFPSymProp := do
  let n ← if is_signed then bzla_exp_bv_sgte x.d_node op.d_node
          else bzla_exp_bv_ugte x.d_node op.d_node
  let res ← BzlaFPSymProp.ofNode cfg fuel n
  bzla_node_release n
  pure res

/-- Member `operator<`. -/
def lt (cfg : Build) (fuel : Nat) (x op : BzlaFPSymBV is_signed) : Run BzlaFPSymProp := do
  let n ← if is_signed then bzla_exp_bv_slt x.d_node op.d_node
          else bzla_exp_bv_ult x.d_node op.d_node
  let res ← BzlaFPSymProp.ofNode cfg fuel n
  bzla_node_release n
  pure res

/-- Member `operator>`. -/
def gt (cfg : Build) (fuel : Nat) (x op : BzlaFPSymBV is_signed) : Run BzlaFPSymProp := do
  let n ← if is_signed then bzla_exp_bv_sgt x.d_node op.d_node
          else bzla_exp_bv_ugt x.d_node op.d_node
  let res ← BzlaFPSymProp.ofNode cfg fuel n
  bzla_node_release n
  pure res

/-- Member `isAllOnes`: `return *this == allOnes(this->getWidth());`.  The
temporary made by `allOnes` is destroyed once the comparison has returned. -/
def isAllOnes (cfg : Build) (fuel : Nat) (x : BzlaFPSymBV is_signed) : Run BzlaFPSymProp := do
  let t ← allOnes cfg is_signed x.getWidth
  let res ← eq cfg fuel x t
  t.destroy
  pure res

/-- Member `isAllZeros`: `return *this == zero(this->getWidth());`.  The
temporary made by `zero` is destroyed once the comparison has returned. -/
def isAllZeros (cfg : Build) (fuel : Nat) (x : BzlaFPSymBV is_signed) : Run BzlaFPSymProp := do
  let t ← zero cfg is_signed x.getWidth
  let res ← eq cfg fuel x t
  t.destroy
  pure res

/-- Member `toSigned`: `return BzlaFPSymBV<true>(*this);`.  For a signed
receiver this is the copy constructor.  For an unsigned receiver the
expression constructs a `BzlaFPSymBV<true>` from a `BzlaFPSymBV<false>`, and
the class declares no constructor that accepts one: its constructors take a
node, a width with a literal, a proposition, a wrapper of the same
interpretation, or a host bit-vector, and the friend declaration
("Allow conversion between the sorts") gives access to members, not a
conversion.  On an unsigned receiver the member has no instance. -/
def toSigned (cfg : Build) (x : BzlaFPSymBV is_signed) : Run (BzlaFPSymBV true) :=
  match is_signed, x with
  | true, x => x.copy cfg
  | false, _ => fun _ => .error .illFormed

/-- Member `toUnsigned`: `return BzlaFPSymBV<false>(*this);`.  For an unsigned
receiver this is the copy constructor; on a signed receiver the member has
no instance, as `toSigned` has none on an unsigned one. -/
def toUnsigned (cfg : Build) (x : BzlaFPSymBV is_signed) : Run (BzlaFPSymBV false) :=
  match is_signed, x with
  | false, x => x.copy cfg
  | true, _ => fun _ => .error .illFormed

/-- Member `extend`. -/
def extend (cfg : Build) (x : BzlaFPSymBV is_signed) (extension : Nat) :
    Run (BzlaFPSymBV is_signed) := do
  let n ← if is_signed then bzla_exp_bv_sext x.d_node extension
          else bzla_exp_bv_uext x.d_node extension
  let res ← ofNode cfg is_signed n
  bzla_node_release n
  pure res

/-- Member `contract`.  Its body is `assert(this->getWidth() > reduction);`
followed by `bzla_exp_bv_slice(s_bzla, d_node, this->getWidth - 1 -
reduction, 0)` and the wrapping of the slice.  The upper index names the
member function `getWidth` without calling it, and nothing can be
subtracted from a member function: the body is rejected when it is
instantiated, for either interpretation.  The member has no instance, and
none of its statements, the assertion included, is ever executed. -/
def contract (_cfg : Build) (_x : BzlaFPSymBV is_signed) (_reduction : Nat) :
    Run (BzlaFPSymBV is_signed) :=
  fun _ => .error .illFormed

/-- Whether the members whose bodies call `contract` can be instantiated:
instantiating such a body requires an instance of `contract`, and there is
none. -/
def contractInstance : Bool := false

/-- Member `resize`.  The three branches are those of the source; the body
calls `contract`, so the member has an instance only if `contract` has one,
whichever branch a call would take. -/
def resize (cfg : Build) (x : BzlaFPSymBV is_signed) (newSize : Nat) :
    Run (BzlaFPSymBV is_signed) :=
  if contractInstance then
    let bw := x.getWidth
    if newSize > bw then x.extend cfg (sub32 newSize bw)
    else if newSize < bw then x.contract cfg (sub32 bw newSize)
    else x.copy cfg
  else fun _ => .error .illFormed

/-- Member `matchWidth`. -/
def matchWidth (cfg : Build) (x op : BzlaFPSymBV is_signed) : Run (BzlaFPSymBV is_signed) := do
  assertThat cfg (decide (x.getWidth ≤ op.getWidth))
  x.extend cfg (sub32 op.getWidth x.getWidth)

/-- Member `extract`. -/
def extract (cfg : Build) (x : BzlaFPSymBV is_signed) (upper lower : Nat) :
    Run (BzlaFPSymBV is_signed) := do
  assertThat cfg (decide (upper ≥ lower))
  let n ← bzla_exp_bv_slice x.d_node upper lower
  let res ← ofNode cfg is_signed n
  bzla_node_release n
  pure res

end BzlaFPSymBV

/-! ## `BzlaFPSymRM` -/

/-- Class `BzlaFPSymRM`: a wrapper around a node holding a rounding-mode
code. -/
structure BzlaFPSymRM where
  d_node : BzlaNode
  deriving DecidableEq, Repr

namespace BzlaFPSymRM

/-- Member `checkNode`: false for a node that is not a bit-vector; with
`BZLA_USE_SYMFPU` it asserts `(1u << BZLA_FP_RM_BW) >=
SYMFPU_NUMBER_OF_ROUNDING_MODES` and compares the width with
`BZLA_FP_RM_BW`, without it the answer is false. -/
def checkNode (cfg : Build) (node : BzlaNode) : Except Abort Bool :=
  let sort := bzla_node_get_sort_id node
  if !bzla_sort_is_bv sort then .ok false
  else if cfg.symfpu then
    if cfg.assertions && !decide (2 ^ BZLA_FP_RM_BW ≥ SYMFPU_NUMBER_OF_ROUNDING_MODES) then
      .error .assertion
    else .ok (bzla_sort_bv_get_width sort == BZLA_FP_RM_BW)
  else .ok false

/-- Constructor `BzlaFPSymRM(BzlaNode *node)`. -/
def ofNode (cfg : Build) (node : BzlaNode) : Run BzlaFPSymRM := do
  assertCall cfg (checkNode cfg node)
  let d ← bzla_node_copy node
  pure ⟨d⟩

/-- Constructor `BzlaFPSymRM(const uint32_t val)`. -/
def ofCode (cfg : Build) (val : Nat) : Run BzlaFPSymRM := do
  assertThat cfg (decide (val < BZLA_RM_MAX))
  let d ← bzla_exp_fp_rm val
  assertCall cfg (checkNode cfg d)
  pure ⟨d⟩

/-- Copy constructor `BzlaFPSymRM(const BzlaFPSymRM &other)`. -/
def copy (cfg : Build) (other : BzlaFPSymRM) : Run BzlaFPSymRM := do
  assertCall cfg (checkNode cfg other.d_node)
  let d ← bzla_node_copy other.d_node
  pure ⟨d⟩

/-- Destruction of a `BzlaFPSymRM`.  The class declares no destructor, so
the implicit one runs: it touches neither the node nor the host context. -/
def destroy (_r : BzlaFPSymRM) : Run Unit := pure ()

/-- Member `valid`.  The `return` statement converts the `BzlaNode *` that
`bzla_exp_bv_ult` gives to a `BzlaFPSymProp` through the constructor
`BzlaFPSymProp(BzlaNode *)`. -/
def valid (cfg : Build) (fuel : Nat) (r : BzlaFPSymRM) : Run BzlaFPSymProp := do
  let max ← bzla_exp_bv_unsigned BZLA_RM_MAX (bzla_node_get_sort_id r.d_node)
  bzla_node_release max
  let n ← bzla_exp_bv_ult r.d_node max
  BzlaFPSymProp.ofNode cfg fuel n

/-- Member `operator==`, with the same conversion of the returned node. -/
def eq (cfg : Build) (fuel : Nat) (r other : BzlaFPSymRM) : Run BzlaFPSymProp := do
  let n ← bzla_exp_eq r.d_node other.d_node
  BzlaFPSymProp.ofNode cfg fuel n

end BzlaFPSymRM

/-! ## `BzlaFPSymTraits` -/

namespace BzlaFPSymTraits

/-- Static member `precondition(const bool b)`: `assert(b); (void) b;`. -/
def precondition (cfg : Build) (b : Bool) : Run Unit := assertThat cfg b

/-- Static member `postcondition(const bool b)`: `assert(b); (void) b;`. -/
def postcondition (cfg : Build) (b : Bool) : Run Unit := assertThat cfg b

/-- Static member `invariant(const bool b)`: `assert(b); (void) b;`. -/
def invariant (cfg : Build) (b : Bool) : Run Unit := assertThat cfg b

/-- Static member `precondition(const prop &p)`: `(void) p;`.  The
proposition is taken by reference, nothing is constructed. -/
def preconditionProp (_p : BzlaFPSymProp) : Run Unit := pure ()

/-- Static member `postcondition(const prop &p)`: `(void) p;`. -/
def postconditionProp (_p : BzlaFPSymProp) : Run Unit := pure ()

/-- Static member `invariant(const prop &p)`: `(void) p;`. -/
def invariantProp (_p : BzlaFPSymProp) : Run Unit := pure ()

end BzlaFPSymTraits

/-! ## `BzlaFPWordBlaster` -/

/-- Modelled from the spec: a floating-point-typed term of the host graph as
the Word Blaster walks it: a leaf, or an operator applied to one, two or
three floating-point operands.  As for every host node, its identity is its
structure. -/
inductive FpTerm
  | leaf (id : Nat)
  | unary (op : Nat) (a : FpTerm)
  | binary (op : Nat) (a b : FpTerm)
  | ternary (op : Nat) (a b c : FpTerm)
  deriving DecidableEq, Repr

/-- The sub-terms of a term, the term itself first, in the order of the walk
and with repetitions. -/
def FpTerm.subterms : FpTerm → List FpTerm
  | .leaf id => [.leaf id]
  | .unary op a => .unary op a :: a.subterms
  | .binary op a b => .binary op a b :: (a.subterms ++ b.subterms)
  | .ternary op a b c => .ternary op a b c :: (a.subterms ++ b.subterms ++ c.subterms)

/-- Number of operator and leaf occurrences of a term. -/
def FpTerm.size : FpTerm → Nat
  | .leaf _ => 1
  | .unary _ a => a.size + 1
  | .binary _ a b => a.size + b.size + 1
  | .ternary _ a b c => a.size + b.size + c.size + 1

/-- Modelled from the spec: the Word Blaster.  The source declares the class
with its memoization tables and the member `word_blast`, but the body of
`word_blast` is not in the source.  Kept here: the table from term identity
to the cached lowered result (`d_map`, results of an arbitrary type `R`),
and, as instrumentation, the list of terms the external encoding routine was
invoked on, latest first. -/
structure BzlaFPWordBlaster (R : Type) where
  d_map : List (FpTerm × R)
  encoded : List FpTerm

namespace BzlaFPWordBlaster

variable {R : Type}

/-- A Word Blaster as its constructor leaves it: empty tables. -/
def new : BzlaFPWordBlaster R := ⟨[], []⟩

/-- Look a term up in a table by identity. -/
def lookup (t : FpTerm) : List (FpTerm × R) → Option R
  | [] => none
  | (k, v) :: rest => if k = t then some v else lookup t rest

/-- Consult the cache. -/
def find (wb : BzlaFPWordBlaster R) (t : FpTerm) : Option R := lookup t wb.d_map

/-- Record the result the encoding routine gave for `t`: one invocation more,
and the result cached under the identity of `t`. -/
def store (wb : BzlaFPWordBlaster R) (t : FpTerm) (r : R) : BzlaFPWordBlaster R :=
  ⟨(t, r) :: wb.d_map, t :: wb.encoded⟩

/-- The invariant of the tables: the encoding routine was invoked on no term
twice, the cached terms are the encoded ones, and with a term all its
sub-terms are cached. -/
def Inv (wb : BzlaFPWordBlaster R) : Prop :=
  wb.encoded.Nodup ∧ wb.d_map.map Prod.fst = wb.encoded ∧
    ∀ u ∈ wb.encoded, ∀ v ∈ u.subterms, v ∈ wb.encoded

/-- What one lowering request achieves, from blaster `wb` to blaster `wb1`
with result `r`. -/
def Post (t : FpTerm) (wb : BzlaFPWordBlaster R) (r : R) (wb1 : BzlaFPWordBlaster R) : Prop :=
  Inv wb1 ∧ (∀ u, u ∈ wb1.encoded ↔ u ∈ wb.encoded ∨ u ∈ t.subterms) ∧ wb1.find t = some r

/-- Modelled from the spec: lowering of one term ("the Word Blaster consults
its caches; on a miss it constructs wrapper values over the expression's
operands (recursively translated) and invokes the external encoding
algorithm ... to produce a new bit-vector-typed result, which is wrapped and
cached before being returned").  `encode` is the external encoding routine:
it receives the term and the lowered operands. -/
def lower (encode : FpTerm → List R → R) :
    FpTerm → BzlaFPWordBlaster R → R × BzlaFPWordBlaster R
  | .leaf id, wb =>
    match wb.find (.leaf id) with
    | some r => (r, wb)
    | none => (encode (.leaf id) [], wb.store (.leaf id) (encode (.leaf id) []))
  | .unary op a, wb =>
    match wb.find (.unary op a) with
    | some r => (r, wb)
    | none =>
      let ra := lower encode a wb
      (encode (.unary op a) [ra.1], ra.2.store (.unary op a) (encode (.unary op a) [ra.1]))
  | .binary op a b, wb =>
    match wb.find (.binary op a b) with
    | some r => (r, wb)
    | none =>
      let ra := lower encode a wb
      let rb := lower encode b ra.2
      (encode (.binary op a b) [ra.1, rb.1],
        rb.2.store (.binary op a b) (encode (.binary op a b) [ra.1, rb.1]))
  | .ternary op a b c, wb =>
    match wb.find (.ternary op a b c) with
    | some r => (r, wb)
    | none =>
      let ra := lower encode a wb
      let rb := lower encode b ra.2
      let rc := lower encode c rb.2
      (encode (.ternary op a b c) [ra.1, rb.1, rc.1],
        rc.2.store (.ternary op a b c) (encode (.ternary op a b c) [ra.1, rb.1, rc.1]))

/-- Modelled from the spec: the public operation "lower the given formula",
on a list of root terms. -/
def word_blast (encode : FpTerm → List R → R) :
    List FpTerm → BzlaFPWordBlaster R → BzlaFPWordBlaster R
  | [], wb => wb
  | t :: rest, wb => word_blast encode rest (lower encode t wb).2

end BzlaFPWordBlaster

/-! ## Basic facts about runs and reference counts -/

@[simp] theorem Run.pure_apply {α : Type} (a : α) (s : Bzla) :
    (pure a : Run α) s = .ok (a, s) := rfl

@[simp] theorem Run.bind_apply {α β : Type} (m : Run α) (f : α → Run β) (s : Bzla) :
    (m >>= f) s = (match m s with
      | .ok (a, s1) => f a s1
      | .error e => .error e) := rfl

theorem Run.bind_ok {α β : Type} {m : Run α} {f : α → Run β} {s s1 : Bzla} {a : α}
    (h : m s = .ok (a, s1)) : (m >>= f) s = f a s1 := by
  simp [h]

theorem Run.bind_error {α β : Type} {m : Run α} {f : α → Run β} {s : Bzla} {e : Abort}
    (h : m s = .error e) : (m >>= f) s = .error e := by
  simp [h]

@[simp] theorem Bzla.acquireNode_nodeRefs (s : Bzla) (n m : BzlaNode) :
    (s.acquireNode n).nodeRefs m = if m = n then s.nodeRefs m + 1 else s.nodeRefs m := rfl

@[simp] theorem Bzla.releaseNode_nodeRefs (s : Bzla) (n m : BzlaNode) :
    (s.releaseNode n).nodeRefs m = if m = n then s.nodeRefs m - 1 else s.nodeRefs m := rfl

@[simp] theorem Bzla.acquireNode_sortRefs (s : Bzla) (n : BzlaNode) :
    (s.acquireNode n).sortRefs = s.sortRefs := rfl

@[simp] theorem Bzla.releaseNode_sortRefs (s : Bzla) (n : BzlaNode) :
    (s.releaseNode n).sortRefs = s.sortRefs := rfl

@[simp] theorem Bzla.acquireSort_sortRefs (s : Bzla) (t u : BzlaSort) :
    (s.acquireSort t).sortRefs u = if u = t then s.sortRefs u + 1 else s.sortRefs u := rfl

@[simp] theorem Bzla.releaseSort_sortRefs (s : Bzla) (t u : BzlaSort) :
    (s.releaseSort t).sortRefs u = if u = t then s.sortRefs u - 1 else s.sortRefs u := rfl

@[simp] theorem Bzla.acquireSort_nodeRefs (s : Bzla) (t : BzlaSort) :
    (s.acquireSort t).nodeRefs = s.nodeRefs := rfl

@[simp] theorem Bzla.releaseSort_nodeRefs (s : Bzla) (t : BzlaSort) :
    (s.releaseSort t).nodeRefs = s.nodeRefs := rfl

theorem Bzla.ext {s t : Bzla} (hn : ∀ n, s.nodeRefs n = t.nodeRefs n)
    (hs : ∀ u, s.sortRefs u = t.sortRefs u) : s = t := by
  cases s; cases t
  simp only [Bzla.mk.injEq]
  exact ⟨funext hn, funext hs⟩

/-- Giving back a reference just taken restores the context. -/
@[simp] theorem Bzla.release_acquireNode (s : Bzla) (n : BzlaNode) :
    (s.acquireNode n).releaseNode n = s := by
  apply Bzla.ext
  · intro m; by_cases h : m = n <;> simp [h]
  · intro u; rfl

/-- Giving back a sort reference just taken restores the context. -/
@[simp] theorem Bzla.release_acquireSort (s : Bzla) (t : BzlaSort) :
    (s.acquireSort t).releaseSort t = s := by
  apply Bzla.ext
  · intro m; rfl
  · intro u; by_cases h : u = t <;> simp [h]

theorem Bzla.acquireSort_acquireNode (s : Bzla) (t : BzlaSort) (n : BzlaNode) :
    (s.acquireSort t).acquireNode n = (s.acquireNode n).acquireSort t := rfl

theorem hostNode_ok {args : List BzlaNode} {pre : Bool} {n : BzlaNode} {s : Bzla}
    (hl : ∀ a ∈ args, s.nodeRefs a ≠ 0) (hp : pre = true) :
    hostNode args pre n s = .ok (n, s.acquireNode n) := by
  have : (args.any fun a => decide (s.nodeRefs a = 0)) = false := by
    simpa [List.any_eq_false] using hl
  simp [hostNode, this, hp]

theorem hostNode_eq_ok {args : List BzlaNode} {pre : Bool} {n m : BzlaNode} {s s1 : Bzla}
    (h : hostNode args pre n s = .ok (m, s1)) :
    (∀ a ∈ args, s.nodeRefs a ≠ 0) ∧ pre = true ∧ m = n ∧ s1 = s.acquireNode n := by
  unfold hostNode at h
  split at h
  · cases h
  · split at h
    · cases h
    · rename_i h1 h2
      simp only [Except.ok.injEq, Prod.mk.injEq] at h
      refine ⟨?_, by simpa using h2, h.1.symm, h.2.symm⟩
      simpa [List.any_eq_true] using h1

namespace BzlaFPSymBV

theorem ofNode_ok (cfg : Build) {sgn : Bool} {n : BzlaNode} {s : Bzla}
    (hb : checkNode n = true) (hl : s.nodeRefs n ≠ 0) :
    ofNode cfg sgn n s = .ok (⟨n⟩, s.acquireNode n) := by
  simp [ofNode, assertThat, bzla_node_copy, hb, hl]

/-- The pattern shared by the members that build one host node: construct
the node, wrap it, release the local handle.  The net effect is one more
reference to the node, held by the returned wrapper. -/
theorem wrap_ok (cfg : Build) {sgn : Bool} (mk : Run BzlaNode) {n : BzlaNode} {s : Bzla}
    (hmk : mk s = .ok (n, s.acquireNode n)) (hb : checkNode n = true) :
    (mk >>= fun n => ofNode cfg sgn n >>= fun res =>
      bzla_node_release n >>= fun _ => pure res) s = .ok (⟨n⟩, s.acquireNode n) := by
  have h1 : (s.acquireNode n).nodeRefs n ≠ 0 := by simp
  rw [Run.bind_ok hmk, Run.bind_ok (ofNode_ok cfg hb h1)]
  simp [bzla_node_release]

theorem wrap_error (cfg : Build) {sgn : Bool} (mk : Run BzlaNode) {e : Abort} {s : Bzla}
    (hmk : mk s = .error e) :
    (mk >>= fun n => ofNode cfg sgn n >>= fun res =>
      bzla_node_release n >>= fun _ => pure res) s = .error e :=
  Run.bind_error hmk

end BzlaFPSymBV

namespace BzlaFPSymBV

theorem extend_ok (cfg : Build) {sgn : Bool} {x : BzlaFPSymBV sgn} {s : Bzla} (k : Nat)
    (hb : checkNode x.d_node = true) (hl : s.nodeRefs x.d_node ≠ 0) :
    x.extend cfg k s
      = .ok (⟨.ext sgn x.d_node k⟩, s.acquireNode (.ext sgn x.d_node k)) := by
  have hb1 : bzla_sort_is_bv (bzla_node_get_sort_id x.d_node) = true := hb
  cases sgn
  · exact wrap_ok cfg (bzla_exp_bv_uext x.d_node k)
      (hostNode_ok (by simpa using hl) hb1) rfl
  · exact wrap_ok cfg (bzla_exp_bv_sext x.d_node k)
      (hostNode_ok (by simpa using hl) hb1) rfl

theorem sub32_of_le {a b : Nat} (ha : a < 2 ^ 32) (hba : b ≤ a) : sub32 a b = a - b := by
  unfold sub32
  have hb : b < 2 ^ 32 := lt_of_le_of_lt hba ha
  rw [Nat.mod_eq_of_lt ha, Nat.mod_eq_of_lt hb]
  have : a + 2 ^ 32 - b = (a - b) + 2 ^ 32 := by omega
  rw [this, Nat.add_mod_right, Nat.mod_eq_of_lt (by omega)]

theorem sub32_of_lt {a b : Nat} (ha : a < 2 ^ 32) (hb : b < 2 ^ 32) (hab : a < b) :
    sub32 a b = a + 2 ^ 32 - b := by
  unfold sub32
  rw [Nat.mod_eq_of_lt ha, Nat.mod_eq_of_lt hb, Nat.mod_eq_of_lt (by omega)]

/-- The member `contract` has no instance, whatever the receiver, the
reduction and the build. -/
theorem contract_illFormed (cfg : Build) {sgn : Bool} (x : BzlaFPSymBV sgn) (r : Nat)
    (s : Bzla) : x.contract cfg r s = .error .illFormed := rfl

/-- The member `resize` has no instance, whatever the receiver, the target
width and the build: its body calls `contract`. -/
theorem resize_illFormed (cfg : Build) {sgn : Bool} (x : BzlaFPSymBV sgn) (w : Nat)
    (s : Bzla) : x.resize cfg w s = .error .illFormed := rfl

theorem hostNode_pre_false {args : List BzlaNode} {n : BzlaNode} {s : Bzla} :
    ∃ e, hostNode args false n s = .error e := by
  unfold hostNode
  split
  · exact ⟨_, rfl⟩
  · exact ⟨_, rfl⟩

theorem copy_ok (cfg : Build) {sgn : Bool} {x : BzlaFPSymBV sgn} {s : Bzla}
    (hb : checkNode x.d_node = true) (hl : s.nodeRefs x.d_node ≠ 0) :
    x.copy cfg s = .ok (x, s.acquireNode x.d_node) := by
  simp [copy, assertThat, bzla_node_copy, hb, hl]

end BzlaFPSymBV

/-! ## Values of nodes -/

theorem bvNeg_lt (w x : Nat) : bvNeg w x < 2 ^ w :=
  Nat.mod_lt _ (Nat.two_pow_pos _)

/-- Every node evaluates to a value that fits its width. -/
theorem BzlaNode.eval_lt (σ : Nat → Nat) (n : BzlaNode) :
    n.eval σ < 2 ^ bzla_node_bv_get_width n := by
  have hpos : ∀ k : Nat, 0 < 2 ^ k := fun k => Nat.two_pow_pos _
  cases n with
  | input id t => exact Nat.mod_lt _ (hpos _)
  | const w v => exact Nat.mod_lt _ (hpos _)
  | unop op a =>
    cases op <;> exact Nat.mod_lt _ (hpos _)
  | binop op a b =>
    cases op <;>
      first
      | exact Nat.mod_lt _ (hpos _)
      | (simp only [BzlaNode.eval, bvBinop, bzla_node_bv_get_width, bzla_node_get_sort_id,
          BvBinop.isPredicate, if_true, bzla_sort_bv_get_width]
         split <;> decide)
  | slice a u l => exact Nat.mod_lt _ (hpos _)
  | ext sg a k =>
    simp only [BzlaNode.eval]
    split <;> exact Nat.mod_lt _ (hpos _)

theorem eval_ext_mod (σ : Nat → Nat) (sg : Bool) (a : BzlaNode) (k : Nat) :
    (BzlaNode.ext sg a k).eval σ % 2 ^ bzla_node_bv_get_width a = a.eval σ := by
  have hlt := BzlaNode.eval_lt σ a
  have hle : 2 ^ bzla_node_bv_get_width a ≤ 2 ^ (bzla_node_bv_get_width a + k) :=
    Nat.pow_le_pow_right (by decide) (Nat.le_add_right _ _)
  simp only [BzlaNode.eval]
  split
  · have hk : 1 ≤ 2 ^ k := Nat.two_pow_pos _
    have hbound : a.eval σ + (2 ^ k - 1) * 2 ^ bzla_node_bv_get_width a
        < 2 ^ (bzla_node_bv_get_width a + k) := by
      have : (2 ^ k - 1) * 2 ^ bzla_node_bv_get_width a + 2 ^ bzla_node_bv_get_width a
          = 2 ^ (bzla_node_bv_get_width a + k) := by
        rw [Nat.pow_add, Nat.mul_comm (2 ^ bzla_node_bv_get_width a)]
        conv_lhs => rhs; rw [← Nat.one_mul (2 ^ bzla_node_bv_get_width a)]
        rw [← Nat.add_mul, Nat.sub_add_cancel hk]
      omega
    rw [Nat.mod_eq_of_lt hbound, Nat.add_mul_mod_self_right, Nat.mod_eq_of_lt hlt]
  · rw [Nat.mod_eq_of_lt (lt_of_lt_of_le hlt hle), Nat.mod_eq_of_lt hlt]

/-! ## Propositions and rounding modes -/

/-- With assertions active `BzlaFPSymProp::checkNode` calls itself before
anything else, at every depth: it does not return. -/
theorem prop_checkNode_asserting (sym : Bool) (fuel : Nat) (node : BzlaNode) :
    BzlaFPSymProp.checkNode ⟨true, sym⟩ fuel node = .error .outOfFuel := by
  induction fuel with
  | zero => rfl
  | succ k ih => simp [BzlaFPSymProp.checkNode, ih]

/-- Without assertions `BzlaFPSymProp::checkNode` is the width test. -/
theorem prop_checkNode_plain (sym : Bool) (fuel : Nat) (node : BzlaNode) :
    BzlaFPSymProp.checkNode ⟨false, sym⟩ (fuel + 1) node
      = .ok (bzla_sort_is_bv (bzla_node_get_sort_id node) && bzla_node_bv_get_width node == 1) := by
  simp [BzlaFPSymProp.checkNode]

/-- With assertions active the constructor `BzlaFPSymProp(BzlaNode *)` does
not return. -/
theorem prop_ofNode_asserting (sym : Bool) (fuel : Nat) (node : BzlaNode) (s : Bzla) :
    BzlaFPSymProp.ofNode ⟨true, sym⟩ fuel node s = .error .outOfFuel := by
  simp [BzlaFPSymProp.ofNode, assertCall, prop_checkNode_asserting]

/-- Without assertions the constructor `BzlaFPSymProp(BzlaNode *)` takes one
reference to an allocated node. -/
theorem prop_ofNode_plain (sym : Bool) (fuel : Nat) (node : BzlaNode) (s : Bzla)
    (hl : s.nodeRefs node ≠ 0) :
    BzlaFPSymProp.ofNode ⟨false, sym⟩ fuel node s = .ok (⟨node⟩, s.acquireNode node) := by
  simp [BzlaFPSymProp.ofNode, assertCall, bzla_node_copy, hl]

/-- With assertions active `BzlaFPSymRM::valid` returns no proposition,
whatever the rounding mode and the context. -/
theorem rm_valid_asserting (sym : Bool) (fuel : Nat) (r : BzlaFPSymRM) (s : Bzla) :
    ∃ e, r.valid ⟨true, sym⟩ fuel s = .error e := by
  unfold BzlaFPSymRM.valid
  simp only [Run.bind_apply]
  split
  · split
    · split
      · exact ⟨_, prop_ofNode_asserting _ _ _ _⟩
      · exact ⟨_, rfl⟩
    · exact ⟨_, rfl⟩
  · exact ⟨_, rfl⟩

/-- Without assertions, and when some other reference keeps the bound
constant allocated, `BzlaFPSymRM::valid` on a 3-bit rounding mode returns the
proposition "code < 5": its node is the unsigned comparison of the wrapped
node with the constant 5, and its value is 1 exactly when the code is below
5.  The node built by `bzla_exp_bv_ult` ends with two references. -/
theorem rm_valid_plain (sym : Bool) (fuel : Nat) (r : BzlaFPSymRM) (s : Bzla)
    (hs : bzla_node_get_sort_id r.d_node = .bv BZLA_FP_RM_BW)
    (hl : s.nodeRefs r.d_node ≠ 0) (hmax : s.nodeRefs (.const 3 5) ≠ 0) :
    r.valid ⟨false, sym⟩ fuel s
      = .ok (⟨.binop .ult r.d_node (.const 3 5)⟩,
          (s.acquireNode (.binop .ult r.d_node (.const 3 5))).acquireNode
            (.binop .ult r.d_node (.const 3 5))) ∧
    ∀ σ, (BzlaNode.binop .ult r.d_node (.const 3 5)).eval σ
      = if r.d_node.eval σ < BZLA_RM_MAX then 1 else 0 := by
  constructor
  · have h1 : bzla_exp_bv_unsigned BZLA_RM_MAX (bzla_node_get_sort_id r.d_node) s
        = .ok (.const 3 5, s.acquireNode (.const 3 5)) := by
      rw [hs]
      exact @hostNode_ok [] _ _ s (by simp) rfl
    have h2 : bzla_node_release (.const 3 5) (s.acquireNode (.const 3 5)) = .ok ((), s) := by
      simp [bzla_node_release]
    have h3 : bzla_exp_bv_ult r.d_node (.const 3 5) s
        = .ok (.binop .ult r.d_node (.const 3 5),
            s.acquireNode (.binop .ult r.d_node (.const 3 5))) := by
      refine hostNode_ok ?_ ?_
      · intro a ha
        simp only [List.mem_cons, List.mem_singleton, List.not_mem_nil, or_false] at ha
        rcases ha with rfl | rfl
        · exact hl
        · exact hmax
      · simp [sameBvSort, hs, bzla_sort_is_bv, bzla_node_get_sort_id, BZLA_FP_RM_BW]
    unfold BzlaFPSymRM.valid
    rw [Run.bind_ok h1, Run.bind_ok h2, Run.bind_ok h3]
    exact prop_ofNode_plain sym fuel _ _ (by simp)
  · intro σ
    simp [BzlaNode.eval, bvBinop, BZLA_RM_MAX]

/-! ## Lifetime of the wrappers -/

/-- Construct, copy, destroy the copy, destroy the original: a sort
descriptor over an allocated floating-point sort leaves the context as it
was. -/
theorem sortInfo_lifecycle (cfg : Build) (t : BzlaSort) (s : Bzla)
    (hfp : bzla_sort_is_fp t = true) (hl : s.sortRefs t ≠ 0) :
    (BzlaFPSortInfo.ofSort cfg t >>= fun a => a.copy cfg >>= fun b =>
      b.destroy >>= fun _ => a.destroy) s = .ok ((), s) := by
  have h1 : BzlaFPSortInfo.ofSort cfg t s = .ok (⟨t⟩, s.acquireSort t) := by
    simp [BzlaFPSortInfo.ofSort, assertThat, bzla_sort_copy, hfp, hl]
  have h2 : BzlaFPSortInfo.copy cfg ⟨t⟩ (s.acquireSort t)
      = .ok (⟨t⟩, (s.acquireSort t).acquireSort t) := by
    simp [BzlaFPSortInfo.copy, assertThat, bzla_sort_copy, hfp]
  rw [Run.bind_ok h1, Run.bind_ok h2]
  simp [BzlaFPSortInfo.destroy, bzla_sort_release]

/-- Construct, copy, destroy the copy, destroy the original: a bit-vector
wrapper of either interpretation over an allocated bit-vector node leaves
the context as it was. -/
theorem bv_lifecycle (cfg : Build) (sgn : Bool) (n : BzlaNode) (s : Bzla)
    (hb : BzlaFPSymBV.checkNode n = true) (hl : s.nodeRefs n ≠ 0) :
    (BzlaFPSymBV.ofNode cfg sgn n >>= fun a => a.copy cfg >>= fun b =>
      b.destroy >>= fun _ => a.destroy) s = .ok ((), s) := by
  have h2 : BzlaFPSymBV.copy cfg (⟨n⟩ : BzlaFPSymBV sgn) (s.acquireNode n)
      = .ok (⟨n⟩, (s.acquireNode n).acquireNode n) :=
    BzlaFPSymBV.copy_ok cfg hb (by simp)
  rw [Run.bind_ok (BzlaFPSymBV.ofNode_ok cfg hb hl), Run.bind_ok h2]
  simp [BzlaFPSymBV.destroy, bzla_node_release]

/-- Construct, copy, destroy the copy, destroy the original: without
assertions a proposition over an allocated node leaves the context as it
was. -/
theorem prop_lifecycle_plain (sym : Bool) (fuel : Nat) (n : BzlaNode) (s : Bzla)
    (hl : s.nodeRefs n ≠ 0) :
    (BzlaFPSymProp.ofNode ⟨false, sym⟩ fuel n >>= fun a =>
      a.copy ⟨false, sym⟩ fuel >>= fun b => b.destroy >>= fun _ => a.destroy) s
      = .ok ((), s) := by
  have h2 : BzlaFPSymProp.copy ⟨false, sym⟩ fuel ⟨n⟩ (s.acquireNode n)
      = .ok (⟨n⟩, (s.acquireNode n).acquireNode n) := by
    simp [BzlaFPSymProp.copy, assertCall, bzla_node_copy]
  rw [Run.bind_ok (prop_ofNode_plain sym fuel n s hl), Run.bind_ok h2]
  simp [BzlaFPSymProp.destroy, bzla_node_release]

/-- With assertions active the same sequence on a proposition stops in the
first constructor. -/
theorem prop_lifecycle_asserting (sym : Bool) (fuel : Nat) (n : BzlaNode) (s : Bzla) :
    (BzlaFPSymProp.ofNode ⟨true, sym⟩ fuel n >>= fun a =>
      a.copy ⟨true, sym⟩ fuel >>= fun b => b.destroy >>= fun _ => a.destroy) s
      = .error .outOfFuel :=
  Run.bind_error (prop_ofNode_asserting sym fuel n s)

/-- Construct, copy, destroy the copy, destroy the original: a rounding-mode
wrapper over an allocated 3-bit node leaves two references behind, one per
constructor call, because its destruction releases nothing. -/
theorem rm_lifecycle (a : Bool) (n : BzlaNode) (s : Bzla)
    (hs : bzla_node_get_sort_id n = .bv BZLA_FP_RM_BW) (hl : s.nodeRefs n ≠ 0) :
    (BzlaFPSymRM.ofNode ⟨a, true⟩ n >>= fun x => x.copy ⟨a, true⟩ >>= fun y =>
      y.destroy >>= fun _ => x.destroy) s = .ok ((), (s.acquireNode n).acquireNode n) := by
  have hc : BzlaFPSymRM.checkNode ⟨a, true⟩ n = .ok true := by
    cases a <;> simp [BzlaFPSymRM.checkNode, hs, bzla_sort_is_bv, bzla_sort_bv_get_width,
      BZLA_FP_RM_BW, SYMFPU_NUMBER_OF_ROUNDING_MODES]
  have h1 : BzlaFPSymRM.ofNode ⟨a, true⟩ n s = .ok (⟨n⟩, s.acquireNode n) := by
    cases a <;> simp [BzlaFPSymRM.ofNode, assertCall, hc, bzla_node_copy, hl]
  have h2 : BzlaFPSymRM.copy ⟨a, true⟩ ⟨n⟩ (s.acquireNode n)
      = .ok (⟨n⟩, (s.acquireNode n).acquireNode n) := by
    cases a <;> simp [BzlaFPSymRM.copy, assertCall, hc, bzla_node_copy]
  rw [Run.bind_ok h1, Run.bind_ok h2]
  rfl

/-! ## Word Blaster cache -/

namespace BzlaFPWordBlaster

variable {R : Type}

theorem subterms_self (t : FpTerm) : t ∈ t.subterms := by
  cases t <;> simp [FpTerm.subterms]

theorem subterms_size {t v : FpTerm} (h : v ∈ t.subterms) : v.size ≤ t.size := by
  induction t with
  | leaf id =>
    simp only [FpTerm.subterms, List.mem_singleton] at h
    subst h; exact Nat.le_refl _
  | unary op a iha =>
    simp only [FpTerm.subterms, List.mem_cons] at h
    rcases h with rfl | h
    · exact Nat.le_refl _
    · have := iha h
      simp only [FpTerm.size]; omega
  | binary op a b iha ihb =>
    simp only [FpTerm.subterms, List.mem_cons, List.mem_append] at h
    rcases h with rfl | h | h
    · exact Nat.le_refl _
    · have := iha h
      simp only [FpTerm.size]; omega
    · have := ihb h
      simp only [FpTerm.size]; omega
  | ternary op a b c iha ihb ihc =>
    simp only [FpTerm.subterms, List.mem_cons, List.mem_append] at h
    rcases h with rfl | (h | h) | h
    · exact Nat.le_refl _
    · have := iha h
      simp only [FpTerm.size]; omega
    · have := ihb h
      simp only [FpTerm.size]; omega
    · have := ihc h
      simp only [FpTerm.size]; omega

theorem lookup_eq_none {t : FpTerm} {m : List (FpTerm × R)} :
    lookup t m = none ↔ t ∉ m.map Prod.fst := by
  induction m with
  | nil => simp [lookup]
  | cons p rest ih =>
    obtain ⟨k, v⟩ := p
    by_cases hk : k = t
    · simp [lookup, hk]
    · have hk2 : ¬ t = k := fun h => hk h.symm
      simp [lookup, hk, hk2, ih]

theorem inv_new : Inv (new : BzlaFPWordBlaster R) := by
  simp [Inv, new]

theorem post_hit {t : FpTerm} {wb : BzlaFPWordBlaster R} {r : R} (hinv : Inv wb)
    (hf : wb.find t = some r) : Post t wb r wb := by
  refine ⟨hinv, ?_, hf⟩
  have ht : t ∈ wb.encoded := by
    rw [← hinv.2.1]
    by_contra hn
    have := (lookup_eq_none (R := R)).mpr hn
    rw [find] at hf
    rw [this] at hf
    cases hf
  intro u
  constructor
  · exact Or.inl
  · rintro (h | h)
    · exact h
    · exact hinv.2.2 t ht u h

theorem post_store {t : FpTerm} (kids : List FpTerm) {wb wb1 : BzlaFPWordBlaster R} (r : R)
    (hsub : t.subterms = t :: kids) (hsize : ∀ v ∈ kids, v.size < t.size)
    (hinv : Inv wb) (hmiss : wb.find t = none) (hinv1 : Inv wb1)
    (hmem : ∀ u, u ∈ wb1.encoded ↔ u ∈ wb.encoded ∨ u ∈ kids) :
    Post t wb r (wb1.store t r) := by
  have hnot : t ∉ wb1.encoded := by
    rw [hmem]
    rintro (h | h)
    · have := (lookup_eq_none (R := R)).mp hmiss
      rw [hinv.2.1] at this
      exact this h
    · exact Nat.lt_irrefl _ (hsize t h)
  refine ⟨⟨?_, ?_, ?_⟩, ?_, ?_⟩
  · exact List.nodup_cons.mpr ⟨hnot, hinv1.1⟩
  · simp [store, hinv1.2.1]
  · intro u hu v hv
    simp only [store, List.mem_cons] at hu ⊢
    rcases hu with rfl | hu
    · rw [hsub, List.mem_cons] at hv
      rcases hv with rfl | hv
      · exact Or.inl rfl
      · exact Or.inr ((hmem v).mpr (Or.inr hv))
    · exact Or.inr (hinv1.2.2 u hu v hv)
  · intro u
    simp only [store, List.mem_cons, hsub, hmem]
    tauto
  · simp [find, store, lookup]

/-- Every lowering request keeps the invariant, adds exactly the sub-terms
of the requested term to the encoded terms, and leaves the returned result
cached under the requested term. -/
theorem lower_post (encode : FpTerm → List R → R) (t : FpTerm) :
    ∀ wb : BzlaFPWordBlaster R, Inv wb → Post t wb (lower encode t wb).1 (lower encode t wb).2 := by
  induction t with
  | leaf id =>
    intro wb hinv
    unfold lower
    split
    · rename_i r hf
      exact post_hit hinv hf
    · rename_i hf
      exact post_store ([]) _ rfl (by simp) hinv hf hinv (by simp)
  | unary op a iha =>
    intro wb hinv
    unfold lower
    split
    · rename_i r hf
      exact post_hit hinv hf
    · rename_i hf
      obtain ⟨i1, m1, _⟩ := iha wb hinv
      refine post_store (a.subterms) _ rfl ?_ hinv hf i1 m1
      intro v hv
      have := subterms_size hv
      simp only [FpTerm.size]; omega
  | binary op a b iha ihb =>
    intro wb hinv
    unfold lower
    split
    · rename_i r hf
      exact post_hit hinv hf
    · rename_i hf
      obtain ⟨i1, m1, _⟩ := iha wb hinv
      obtain ⟨i2, m2, _⟩ := ihb _ i1
      refine post_store (a.subterms ++ b.subterms) _ rfl ?_ hinv hf i2 ?_
      · intro v hv
        rcases List.mem_append.mp hv with h | h
        · have := subterms_size h
          simp only [FpTerm.size]; omega
        · have := subterms_size h
          simp only [FpTerm.size]; omega
      · intro u
        rw [m2, m1, List.mem_append]
        tauto
  | ternary op a b c iha ihb ihc =>
    intro wb hinv
    unfold lower
    split
    · rename_i r hf
      exact post_hit hinv hf
    · rename_i hf
      obtain ⟨i1, m1, _⟩ := iha wb hinv
      obtain ⟨i2, m2, _⟩ := ihb _ i1
      obtain ⟨i3, m3, _⟩ := ihc _ i2
      refine post_store (a.subterms ++ b.subterms ++ c.subterms) _ rfl ?_ hinv hf i3 ?_
      · intro v hv
        rcases List.mem_append.mp hv with h | h
        · rcases List.mem_append.mp h with h | h
          · have := subterms_size h
            simp only [FpTerm.size]; omega
          · have := subterms_size h
            simp only [FpTerm.size]; omega
        · have := subterms_size h
          simp only [FpTerm.size]; omega
      · intro u
        rw [m3, m2, m1, List.mem_append, List.mem_append]
        tauto

/-- A request for a term that is cached returns the cached result and
changes nothing: no invocation of the encoding routine. -/
theorem lower_hit (encode : FpTerm → List R → R) {t : FpTerm} {wb : BzlaFPWordBlaster R}
    {r : R} (hf : wb.find t = some r) : lower encode t wb = (r, wb) := by
  cases t <;> simp [lower, hf]

/-- Lowering a list of roots from a blaster that satisfies the invariant:
the invariant holds afterwards and the encoded terms are the earlier ones
and the sub-terms of the roots. -/
theorem word_blast_post (encode : FpTerm → List R → R) (roots : List FpTerm) :
    ∀ wb : BzlaFPWordBlaster R, Inv wb →
      Inv (word_blast encode roots wb) ∧
      ∀ u, u ∈ (word_blast encode roots wb).encoded
        ↔ u ∈ wb.encoded ∨ ∃ t ∈ roots, u ∈ t.subterms := by
  induction roots with
  | nil =>
    intro wb hinv
    simp [word_blast, hinv]
  | cons t rest ih =>
    intro wb hinv
    obtain ⟨i1, m1, _⟩ := lower_post encode t wb hinv
    obtain ⟨i2, m2⟩ := ih _ i1
    refine ⟨i2, ?_⟩
    intro u
    simp only [word_blast, m2, m1, List.mem_cons, exists_eq_or_imp]
    tauto

end BzlaFPWordBlaster

/-! ## Arithmetic and shifts -/

namespace BzlaFPSymBV

/-- The members that build one binary host node over operands of one
bit-vector sort return the wrapper of that node. -/
theorem binop_wrap_ok (cfg : Build) (sgn : Bool) (o : BvBinop) {a b : BzlaNode} {s : Bzla}
    (hb : checkNode a = true)
    (hs : bzla_node_get_sort_id b = bzla_node_get_sort_id a)
    (hla : s.nodeRefs a ≠ 0) (hlb : s.nodeRefs b ≠ 0) :
    (bzla_exp_binop o a b >>= fun n => ofNode cfg sgn n >>= fun res =>
      bzla_node_release n >>= fun _ => pure res) s
      = .ok (⟨.binop o a b⟩, s.acquireNode (.binop o a b)) := by
  have hb1 : bzla_sort_is_bv (bzla_node_get_sort_id a) = true := hb
  refine wrap_ok cfg (bzla_exp_binop o a b) (hostNode_ok ?_ ?_) ?_
  · intro c hc
    simp only [List.mem_cons, List.mem_singleton, List.not_mem_nil, or_false] at hc
    rcases hc with rfl | rfl
    · exact hla
    · exact hlb
  · simp [sameBvSort, hb1, hs]
  · show bzla_sort_is_bv (bzla_node_get_sort_id (.binop o a b)) = true
    simp only [bzla_node_get_sort_id]
    split
    · rfl
    · split
      · rfl
      · exact hb1

/-- The members that build one unary host node over a bit-vector operand
return the wrapper of that node. -/
theorem unop_wrap_ok (cfg : Build) (sgn : Bool) (o : BvUnop) {a : BzlaNode} {s : Bzla}
    (hb : checkNode a = true) (hla : s.nodeRefs a ≠ 0) :
    (bzla_exp_unop o a >>= fun n => ofNode cfg sgn n >>= fun res =>
      bzla_node_release n >>= fun _ => pure res) s
      = .ok (⟨.unop o a⟩, s.acquireNode (.unop o a)) := by
  have hb1 : bzla_sort_is_bv (bzla_node_get_sort_id a) = true := hb
  exact wrap_ok cfg (bzla_exp_unop o a) (hostNode_ok (by simpa using hla) hb1) hb1

end BzlaFPSymBV

theorem dec_int (w x : Nat) :
    (((x + (2 ^ w - 1)) % 2 ^ w : Nat) : Int) = ((x : Int) - 1) % 2 ^ w := by
  have hM : 1 ≤ 2 ^ w := Nat.two_pow_pos w
  push_cast [Nat.cast_sub hM]
  have : ((x : Int) + (2 ^ w - 1)) = (x - 1) + 2 ^ w := by ring
  rw [this, Int.add_emod_self]

theorem neg_int (w x : Nat) (hx : x < 2 ^ w) :
    ((bvNeg w x : Nat) : Int) = (-(x : Int)) % 2 ^ w := by
  unfold bvNeg
  rw [Nat.mod_eq_of_lt hx]
  push_cast [Nat.cast_sub (le_of_lt hx)]
  have : ((2 : Int) ^ w - x) = (-x) + 2 ^ w := by ring
  rw [this, Int.add_emod_self]

theorem srl_int (w x b : Nat) :
    (((x / 2 ^ b) % 2 ^ w : Nat) : Int) = ((x : Int) / 2 ^ b) % 2 ^ w := by
  push_cast
  rfl

theorem sra_int (w x b : Nat) (hx : x < 2 ^ w) :
    ((bvSra w x b % 2 ^ w : Nat) : Int) = (bvToInt w x / 2 ^ b) % 2 ^ w := by
  unfold bvSra bvToInt
  split
  · have hd : (0 : Int) < 2 ^ b := by positivity
    have hM : 1 ≤ 2 ^ w := Nat.two_pow_pos w
    have hMi : ((2 : Int) ^ w) = ((2 ^ w : Nat) : Int) := by push_cast; rfl
    have hq : (2 ^ w - 1 - x) / 2 ^ b ≤ 2 ^ w - 1 - x := Nat.div_le_self _ _
    have hneg : ((x : Int) - 2 ^ w) = Int.negSucc (2 ^ w - 1 - x) := by
      rw [Int.negSucc_eq, hMi]
      omega
    have hdiv : ((x : Int) - 2 ^ w) / 2 ^ b
        = -((((2 ^ w - 1 - x) / 2 ^ b : Nat) : Int) + 1) := by
      rw [hneg, Int.negSucc_ediv _ hd]
      push_cast
      rfl
    have hlt : 2 ^ w - 1 - (2 ^ w - 1 - x) / 2 ^ b < 2 ^ w :=
      lt_of_le_of_lt (Nat.sub_le _ _) (Nat.sub_lt hM Nat.one_pos)
    rw [Nat.mod_eq_of_lt hlt, hdiv, hMi]
    have key : ∀ (M q : Nat), 1 ≤ M → q ≤ M - 1 →
        ((M - 1 - q : Nat) : Int) = (-((q : Int) + 1)) % (M : Int) := by
      intro M q h1 h2
      have e : (-((q : Int) + 1)) = ((M - 1 - q : Nat) : Int) + (-1) * (M : Int) := by omega
      rw [e, Int.add_mul_emod_self, Int.emod_eq_of_lt (by omega) (by omega)]
    exact key _ _ hM (le_trans hq (Nat.sub_le _ _))
  · exact srl_int w x b

theorem msb_eq_testBit (w x : Nat) (hw : 1 ≤ w) (hx : x < 2 ^ w) :
    bvMsb w x = x.testBit (w - 1) := by
  unfold bvMsb
  by_cases h : 2 ^ (w - 1) ≤ x
  · obtain ⟨y, rfl⟩ := Nat.exists_eq_add_of_le h
    have hy : y < 2 ^ (w - 1) := by
      have : 2 ^ w = 2 ^ (w - 1) + 2 ^ (w - 1) := by
        conv_lhs => rw [← Nat.sub_add_cancel hw, Nat.pow_succ]
        omega
      omega
    rw [Nat.testBit_two_pow_add_eq, Nat.testBit_lt_two_pow hy]
    simp
  · rw [Nat.testBit_lt_two_pow (by omega)]
    simp [h]

theorem srl_bits (w x b i : Nat) (hx : x < 2 ^ w) (hi : i < w) :
    ((x / 2 ^ b) % 2 ^ w).testBit i = if i + b < w then x.testBit (i + b) else false := by
  rw [Nat.testBit_mod_two_pow, ← Nat.shiftRight_eq_div_pow, Nat.testBit_shiftRight]
  simp only [hi, decide_True, Bool.true_and]
  split
  · rw [Nat.add_comm]
  · rename_i h
    apply Nat.testBit_lt_two_pow
    exact lt_of_lt_of_le hx (Nat.pow_le_pow_right (by decide) (by omega))

theorem sra_bits (w x b i : Nat) (hw : 1 ≤ w) (hx : x < 2 ^ w) (hi : i < w) :
    (bvSra w x b % 2 ^ w).testBit i
      = if i + b < w then x.testBit (i + b) else x.testBit (w - 1) := by
  unfold bvSra
  split
  · rename_i hm
    rw [msb_eq_testBit w x hw hx] at hm
    have hM : 1 ≤ 2 ^ w := Nat.two_pow_pos w
    have hq : (2 ^ w - 1 - x) / 2 ^ b ≤ 2 ^ w - 1 - x := Nat.div_le_self _ _
    have hqlt : (2 ^ w - 1 - x) / 2 ^ b < 2 ^ w :=
      lt_of_le_of_lt hq (lt_of_le_of_lt (Nat.sub_le _ _) (Nat.sub_lt hM Nat.one_pos))
    have e1 : 2 ^ w - 1 - (2 ^ w - 1 - x) / 2 ^ b = 2 ^ w - ((2 ^ w - 1 - x) / 2 ^ b + 1) := by
      omega
    have e2 : 2 ^ w - 1 - x = 2 ^ w - (x + 1) := by omega
    rw [Nat.testBit_mod_two_pow, e1, Nat.testBit_two_pow_sub_succ hqlt,
      ← Nat.shiftRight_eq_div_pow, Nat.testBit_shiftRight, e2, Nat.testBit_two_pow_sub_succ hx]
    simp only [hi, decide_True, Bool.true_and]
    split
    · rename_i h
      have : b + i < w := by omega
      simp [this, Nat.add_comm]
    · rename_i h
      have : ¬ b + i < w := by omega
      simp [this, hm]
  · rename_i hm
    rw [msb_eq_testBit w x hw hx] at hm
    rw [srl_bits w x b i hx hi]
    split
    · rfl
    · simp at hm; exact hm.symm

theorem sll_bits (w x b i : Nat) (hi : i < w) :
    ((x * 2 ^ b) % 2 ^ w).testBit i = (decide (b ≤ i) && x.testBit (i - b)) := by
  rw [Nat.testBit_mod_two_pow, ← Nat.shiftLeft_eq, Nat.testBit_shiftLeft]
  simp [hi]

/-! ## Conversions and constants -/

namespace BzlaFPSymBV

/-- On an unsigned receiver `toSigned` has no instance, and on a signed
receiver `toUnsigned` has none. -/
theorem cross_sign_illFormed (cfg : Build) (x : BzlaFPSymBV false) (y : BzlaFPSymBV true)
    (s : Bzla) :
    x.toSigned cfg s = .error .illFormed ∧ y.toUnsigned cfg s = .error .illFormed :=
  ⟨rfl, rfl⟩

/-- The conversion to the receiver's own interpretation is the copy
constructor. -/
theorem same_sign_is_copy (cfg : Build) (x : BzlaFPSymBV false) (y : BzlaFPSymBV true) :
    x.toUnsigned cfg = x.copy cfg ∧ y.toSigned cfg = y.copy cfg :=
  ⟨rfl, rfl⟩

theorem sort_of_checkNode {n : BzlaNode} (hb : checkNode n = true) :
    bzla_node_get_sort_id n = .bv (bzla_node_bv_get_width n) := by
  unfold checkNode at hb
  unfold bzla_node_bv_get_width
  cases h : bzla_node_get_sort_id n with
  | bv w => rfl
  | fp e m => rw [h] at hb; cases hb

/-- The static constant makers (`zero`, `one`, `allOnes`, `maxValue`,
`minValue`): the sort is acquired and released again, the constant ends with
one more reference, held by the returned wrapper. -/
theorem const_wrap_ok (cfg : Build) (sgn : Bool) (w : Nat) (f : BzlaSort → Nat) (s : Bzla)
    (hw : w ≠ 0) :
    (bzla_sort_bv w >>= fun t => bzla_exp_const_of_sort t (f t) >>= fun n =>
      ofNode cfg sgn n >>= fun res => bzla_node_release n >>= fun _ =>
      bzla_sort_release t >>= fun _ => pure res) s
      = .ok (⟨.const w (f (.bv w) % 2 ^ w)⟩,
          s.acquireNode (.const w (f (.bv w) % 2 ^ w))) := by
  have h1 : bzla_sort_bv w s = .ok (.bv w, s.acquireSort (.bv w)) := by
    simp [bzla_sort_bv, hw]
  have h2 : bzla_exp_const_of_sort (.bv w) (f (.bv w)) (s.acquireSort (.bv w))
      = .ok (.const w (f (.bv w) % 2 ^ w),
          (s.acquireSort (.bv w)).acquireNode (.const w (f (.bv w) % 2 ^ w))) :=
    @hostNode_ok [] _ _ _ (by simp) rfl
  have h3 : ofNode cfg sgn (.const w (f (.bv w) % 2 ^ w))
      ((s.acquireSort (.bv w)).acquireNode (.const w (f (.bv w) % 2 ^ w)))
      = .ok (⟨.const w (f (.bv w) % 2 ^ w)⟩,
          ((s.acquireSort (.bv w)).acquireNode (.const w (f (.bv w) % 2 ^ w))).acquireNode
            (.const w (f (.bv w) % 2 ^ w))) :=
    ofNode_ok cfg rfl (by simp)
  rw [Run.bind_ok h1, Run.bind_ok h2, Run.bind_ok h3]
  simp only [bzla_node_release, bzla_sort_release, Run.bind_apply, Run.pure_apply,
    Bzla.acquireNode_nodeRefs, Bzla.acquireNode_sortRefs, Bzla.releaseNode_sortRefs,
    Bzla.acquireSort_sortRefs, if_true, Nat.add_one_ne_zero, if_false,
    Bzla.release_acquireNode]
  congr 2
  apply Bzla.ext
  · intro m; rfl
  · intro u
    simp only [Bzla.releaseSort_sortRefs, Bzla.acquireNode_sortRefs, Bzla.acquireSort_sortRefs]
    split <;> simp

theorem zero_ok (cfg : Build) (sgn : Bool) (w : Nat) (s : Bzla) (hw : w ≠ 0) :
    zero cfg sgn w s = .ok (⟨.const w 0⟩, s.acquireNode (.const w 0)) := by
  have := const_wrap_ok cfg sgn w (fun _ => 0) s hw
  rw [Nat.zero_mod] at this
  exact this

theorem allOnes_ok (cfg : Build) (sgn : Bool) (w : Nat) (s : Bzla) (hw : w ≠ 0) :
    allOnes cfg sgn w s = .ok (⟨.const w (2 ^ w - 1)⟩, s.acquireNode (.const w (2 ^ w - 1))) := by
  have := const_wrap_ok cfg sgn w (fun t => 2 ^ bzla_sort_bv_get_width t - 1) s hw
  simp only [bzla_sort_bv_get_width] at this
  rw [Nat.mod_eq_of_lt (Nat.sub_lt (Nat.two_pow_pos w) Nat.one_pos)] at this
  exact this

/-- With assertions active the comparison `operator==` returns no
proposition: the constructor of the result does not return. -/
theorem eq_asserting (sym sgn : Bool) (fuel : Nat) (x op : BzlaFPSymBV sgn) (s : Bzla) :
    ∃ e, x.eq ⟨true, sym⟩ fuel op s = .error e := by
  unfold eq
  simp only [Run.bind_apply]
  split
  · simp only [prop_ofNode_asserting]
    exact ⟨_, rfl⟩
  · exact ⟨_, rfl⟩

/-- Without assertions the comparison `operator==` of two wrappers over
allocated nodes of one sort returns the proposition over the equality
node. -/
theorem eq_plain (sym sgn : Bool) (fuel : Nat) (x op : BzlaFPSymBV sgn) (s : Bzla)
    (hs : bzla_node_get_sort_id x.d_node = bzla_node_get_sort_id op.d_node)
    (hlx : s.nodeRefs x.d_node ≠ 0) (hlo : s.nodeRefs op.d_node ≠ 0) :
    x.eq ⟨false, sym⟩ fuel op s
      = .ok (⟨.binop .eq x.d_node op.d_node⟩, s.acquireNode (.binop .eq x.d_node op.d_node)) := by
  have h1 : bzla_exp_eq x.d_node op.d_node s
      = .ok (.binop .eq x.d_node op.d_node, s.acquireNode (.binop .eq x.d_node op.d_node)) := by
    refine hostNode_ok ?_ (by simp [hs])
    intro c hc
    simp only [List.mem_cons, List.mem_singleton, List.not_mem_nil, or_false] at hc
    rcases hc with rfl | rfl
    · exact hlx
    · exact hlo
  unfold eq
  rw [Run.bind_ok h1, Run.bind_ok (prop_ofNode_plain sym fuel _ _ (by simp))]
  simp [bzla_node_release]

/-- Without assertions, comparing `x` with a temporary constant wrapper and
destroying the temporary returns the proposition over the equality node;
the constant is given back. -/
theorem eq_const_plain (sym sgn : Bool) (fuel : Nat) (x : BzlaFPSymBV sgn) (s : Bzla) (c : Nat)
    (mk : Run (BzlaFPSymBV sgn))
    (hmk : mk s = .ok (⟨.const x.getWidth c⟩, s.acquireNode (.const x.getWidth c)))
    (hb : checkNode x.d_node = true) (hl : s.nodeRefs x.d_node ≠ 0) :
    (mk >>= fun t => x.eq ⟨false, sym⟩ fuel t >>= fun res =>
      t.destroy >>= fun _ => pure res) s
      = .ok (⟨.binop .eq x.d_node (.const x.getWidth c)⟩,
          s.acquireNode (.binop .eq x.d_node (.const x.getWidth c))) := by
  have h2 := eq_plain sym sgn fuel x ⟨.const x.getWidth c⟩
    (s.acquireNode (.const x.getWidth c)) (sort_of_checkNode hb)
    (by simp only [Bzla.acquireNode_nodeRefs]; split <;> omega) (by simp)
  rw [Run.bind_ok hmk, Run.bind_ok h2]
  have hrel : destroy (⟨.const x.getWidth c⟩ : BzlaFPSymBV sgn)
      ((s.acquireNode (.const x.getWidth c)).acquireNode
        (.binop .eq x.d_node (.const x.getWidth c)))
      = .ok ((), s.acquireNode (.binop .eq x.d_node (.const x.getWidth c))) := by
    simp only [destroy, bzla_node_release, Bzla.acquireNode_nodeRefs]
    simp only [reduceCtorEq, if_false, if_true, Nat.add_one_ne_zero]
    congr 2
    apply Bzla.ext
    · intro m
      simp only [Bzla.acquireNode_nodeRefs, Bzla.releaseNode_nodeRefs]
      by_cases h1 : m = .const x.getWidth c
      · subst h1; simp
      · simp [h1]
    · intro u; rfl
  rw [Run.bind_ok hrel]
  rfl

/-- Without assertions `isAllZeros` on a wrapper over an allocated
bit-vector node returns the proposition "x = 0": its value is 1 exactly when
the value of `x` is 0. -/
theorem isAllZeros_plain (sym sgn : Bool) (fuel : Nat) (x : BzlaFPSymBV sgn) (s : Bzla)
    (hb : checkNode x.d_node = true) (hw : x.getWidth ≠ 0) (hl : s.nodeRefs x.d_node ≠ 0) :
    x.isAllZeros ⟨false, sym⟩ fuel s
      = .ok (⟨.binop .eq x.d_node (.const x.getWidth 0)⟩,
          s.acquireNode (.binop .eq x.d_node (.const x.getWidth 0))) ∧
    ∀ σ, (BzlaNode.binop .eq x.d_node (.const x.getWidth 0)).eval σ
      = if x.d_node.eval σ = 0 then 1 else 0 :=
  ⟨eq_const_plain sym sgn fuel x s 0 _ (zero_ok _ sgn _ s hw) hb hl,
    fun σ => by simp [BzlaNode.eval, bvBinop]⟩

/-- Without assertions `isAllOnes` on a wrapper over an allocated bit-vector
node returns the proposition "x = 2^w - 1": its value is 1 exactly when
every bit of `x` is set. -/
theorem isAllOnes_plain (sym sgn : Bool) (fuel : Nat) (x : BzlaFPSymBV sgn) (s : Bzla)
    (hb : checkNode x.d_node = true) (hw : x.getWidth ≠ 0) (hl : s.nodeRefs x.d_node ≠ 0) :
    x.isAllOnes ⟨false, sym⟩ fuel s
      = .ok (⟨.binop .eq x.d_node (.const x.getWidth (2 ^ x.getWidth - 1))⟩,
          s.acquireNode (.binop .eq x.d_node (.const x.getWidth (2 ^ x.getWidth - 1)))) ∧
    ∀ σ, (BzlaNode.binop .eq x.d_node (.const x.getWidth (2 ^ x.getWidth - 1))).eval σ
      = if x.d_node.eval σ = 2 ^ x.getWidth - 1 then 1 else 0 :=
  ⟨eq_const_plain sym sgn fuel x s _ _ (allOnes_ok _ sgn _ s hw) hb hl,
    fun σ => by
      simp [BzlaNode.eval, bvBinop,
        Nat.mod_eq_of_lt (Nat.sub_lt (Nat.two_pow_pos x.getWidth) Nat.one_pos)]⟩

/-- With assertions active, comparing `x` with a temporary constant wrapper
gets as far as the constructor of the result, which does not return. -/
theorem eq_const_asserting (sym sgn : Bool) (fuel : Nat) (x : BzlaFPSymBV sgn) (s : Bzla)
    (c : Nat) (mk : Run (BzlaFPSymBV sgn))
    (hmk : mk s = .ok (⟨.const x.getWidth c⟩, s.acquireNode (.const x.getWidth c)))
    (hb : checkNode x.d_node = true) (hl : s.nodeRefs x.d_node ≠ 0) :
    (mk >>= fun t => x.eq ⟨true, sym⟩ fuel t >>= fun res =>
      t.destroy >>= fun _ => pure res) s = .error .outOfFuel := by
  have h1 : bzla_exp_eq x.d_node (.const x.getWidth c) (s.acquireNode (.const x.getWidth c))
      = .ok (.binop .eq x.d_node (.const x.getWidth c),
          (s.acquireNode (.const x.getWidth c)).acquireNode
            (.binop .eq x.d_node (.const x.getWidth c))) := by
    refine hostNode_ok ?_ (by simp [sort_of_checkNode hb, bzla_node_get_sort_id, getWidth])
    intro d hd
    simp only [List.mem_cons, List.mem_singleton, List.not_mem_nil, or_false] at hd
    rcases hd with rfl | rfl
    · simp only [Bzla.acquireNode_nodeRefs]; split <;> omega
    · simp
  rw [Run.bind_ok hmk]
  apply Run.bind_error
  unfold eq
  rw [Run.bind_ok h1]
  exact Run.bind_error (prop_ofNode_asserting _ _ _ _)

/-- If every continuation stops, the bound computation stops. -/
theorem bind_stops {α β : Type} (m : Run α) (f : α → Run β) (s : Bzla)
    (h : ∀ a s1, ∃ e, f a s1 = .error e) : ∃ e, (m >>= f) s = .error e := by
  simp only [Run.bind_apply]
  split
  · exact h _ _
  · exact ⟨_, rfl⟩

end BzlaFPSymBV

/-! ## Division, extension, concatenation, slices -/

/-- The negation of a value with the sign bit set is its magnitude. -/
theorem bvNeg_of_msb (w x : Nat) (hx : x < 2 ^ w) (hm : bvMsb w x = true) :
    bvNeg w x = 2 ^ w - x ∧ 1 ≤ bvNeg w x ∧ bvNeg w x < 2 ^ w ∧
      bvToInt w x = -((bvNeg w x : Nat) : Int) := by
  have h1 : 1 ≤ x := by
    have : 2 ^ (w - 1) ≤ x := by simpa [bvMsb] using hm
    exact le_trans (Nat.two_pow_pos _) this
  have e : bvNeg w x = 2 ^ w - x := by
    unfold bvNeg
    rw [Nat.mod_eq_of_lt hx, Nat.mod_eq_of_lt (Nat.sub_lt (Nat.two_pow_pos w) h1)]
  refine ⟨e, ?_, ?_, ?_⟩
  · rw [e]; omega
  · rw [e]; exact Nat.sub_lt (Nat.two_pow_pos w) h1
  · rw [e]
    unfold bvToInt
    rw [if_pos hm]
    push_cast [Nat.cast_sub (le_of_lt hx)]
    ring

theorem bvToInt_of_not_msb (w x : Nat) (hm : bvMsb w x = false) : bvToInt w x = x := by
  unfold bvToInt
  simp [hm]

theorem natCast_mod_self_of_lt (w q : Nat) (h : q < 2 ^ w) :
    ((q : Nat) : Int) = ((q : Int)) % 2 ^ w := by
  have : ((2:Int) ^ w) = ((2 ^ w : Nat) : Int) := by push_cast; rfl
  rw [this, ← Int.natCast_mod, Nat.mod_eq_of_lt h]

theorem neg_tmod' (a b : Int) : (-a).tmod b = -(a.tmod b) := by
  rw [Int.tmod_def, Int.tmod_def, Int.neg_tdiv]
  ring

theorem sdiv_int (w x y : Nat) (hx : x < 2 ^ w) (hy : y < 2 ^ w) (hy0 : y ≠ 0) :
    ((bvSdiv w x y % 2 ^ w : Nat) : Int)
      = (Int.tdiv (bvToInt w x) (bvToInt w y)) % 2 ^ w := by
  unfold bvSdiv
  cases hmx : bvMsb w x <;> cases hmy : bvMsb w y <;> simp only
  · rw [bvToInt_of_not_msb w x hmx, bvToInt_of_not_msb w y hmy]
    have hq : bvUdiv w x y < 2 ^ w := by
      simp only [bvUdiv, hy0, if_false]
      exact lt_of_le_of_lt (Nat.div_le_self _ _) hx
    rw [Nat.mod_eq_of_lt hq]
    simp only [bvUdiv, hy0, if_false]
    exact natCast_mod_self_of_lt w _ (lt_of_le_of_lt (Nat.div_le_self _ _) hx)
  · obtain ⟨e, h1, hlt, hi⟩ := bvNeg_of_msb w y hy hmy
    rw [bvToInt_of_not_msb w x hmx, hi, Int.tdiv_neg]
    have hb0 : bvNeg w y ≠ 0 := by omega
    have hq : x / bvNeg w y < 2 ^ w := lt_of_le_of_lt (Nat.div_le_self _ _) hx
    rw [Nat.mod_eq_of_lt (by unfold bvNeg; exact Nat.mod_lt _ (Nat.two_pow_pos w))]
    simp only [bvUdiv, hb0, if_false]
    rw [neg_int w _ hq]
    rfl
  · obtain ⟨e, h1, hlt, hi⟩ := bvNeg_of_msb w x hx hmx
    rw [bvToInt_of_not_msb w y hmy, hi, Int.neg_tdiv]
    have hq : bvNeg w x / y < 2 ^ w := lt_of_le_of_lt (Nat.div_le_self _ _) hlt
    rw [Nat.mod_eq_of_lt (by unfold bvNeg; exact Nat.mod_lt _ (Nat.two_pow_pos w))]
    simp only [bvUdiv, hy0, if_false]
    rw [neg_int w _ hq]
    rfl
  · obtain ⟨e, h1, hlt, hi⟩ := bvNeg_of_msb w x hx hmx
    obtain ⟨e2, h12, hlt2, hi2⟩ := bvNeg_of_msb w y hy hmy
    rw [hi, hi2, Int.neg_tdiv_neg]
    have hb0 : bvNeg w y ≠ 0 := by omega
    have hq : bvNeg w x / bvNeg w y < 2 ^ w := lt_of_le_of_lt (Nat.div_le_self _ _) hlt
    simp only [bvUdiv, hb0, if_false]
    rw [Nat.mod_eq_of_lt hq]
    exact natCast_mod_self_of_lt w _ hq

theorem srem_int (w x y : Nat) (hx : x < 2 ^ w) (hy : y < 2 ^ w) (hy0 : y ≠ 0) :
    ((bvSrem w x y % 2 ^ w : Nat) : Int)
      = (Int.tmod (bvToInt w x) (bvToInt w y)) % 2 ^ w := by
  unfold bvSrem
  cases hmx : bvMsb w x <;> cases hmy : bvMsb w y <;> simp only
  · rw [bvToInt_of_not_msb w x hmx, bvToInt_of_not_msb w y hmy]
    simp only [bvUrem, hy0, if_false]
    have hq : x % y < 2 ^ w := lt_of_le_of_lt (Nat.mod_le _ _) hx
    rw [Nat.mod_eq_of_lt hq]
    exact natCast_mod_self_of_lt w _ hq
  · obtain ⟨e, h1, hlt, hi⟩ := bvNeg_of_msb w y hy hmy
    rw [bvToInt_of_not_msb w x hmx, hi, Int.tmod_neg]
    have hb0 : bvNeg w y ≠ 0 := by omega
    simp only [bvUrem, hb0, if_false]
    have hq : x % bvNeg w y < 2 ^ w := lt_of_le_of_lt (Nat.mod_le _ _) hx
    rw [Nat.mod_eq_of_lt hq]
    exact natCast_mod_self_of_lt w _ hq
  · obtain ⟨e, h1, hlt, hi⟩ := bvNeg_of_msb w x hx hmx
    rw [bvToInt_of_not_msb w y hmy, hi, neg_tmod']
    simp only [bvUrem, hy0, if_false]
    have hq : bvNeg w x % y < 2 ^ w := lt_of_le_of_lt (Nat.mod_le _ _) hlt
    rw [Nat.mod_eq_of_lt (by unfold bvNeg; exact Nat.mod_lt _ (Nat.two_pow_pos w)),
      neg_int w _ hq]
    rfl
  · obtain ⟨e, h1, hlt, hi⟩ := bvNeg_of_msb w x hx hmx
    obtain ⟨e2, h12, hlt2, hi2⟩ := bvNeg_of_msb w y hy hmy
    rw [hi, hi2, Int.tmod_neg, neg_tmod']
    have hb0 : bvNeg w y ≠ 0 := by omega
    simp only [bvUrem, hb0, if_false]
    have hq : bvNeg w x % bvNeg w y < 2 ^ w := lt_of_le_of_lt (Nat.mod_le _ _) hlt
    rw [Nat.mod_eq_of_lt (by unfold bvNeg; exact Nat.mod_lt _ (Nat.two_pow_pos w)),
      neg_int w _ hq]
    rfl

theorem bvToInt_emod (w x : Nat) : bvToInt w x % 2 ^ w = (x : Int) % 2 ^ w := by
  unfold bvToInt
  split
  · have : ((x : Int) - 2 ^ w) = x + (-1) * 2 ^ w := by ring
    rw [this, Int.add_mul_emod_self]
  · rfl

/-- Sign extension keeps the two's-complement value. -/
theorem sext_toInt (w k v : Nat) (hw : 1 ≤ w) (hv : v < 2 ^ w) :
    bvToInt (w + k)
      (if bvMsb w v then (v + (2 ^ k - 1) * 2 ^ w) % 2 ^ (w + k) else v % 2 ^ (w + k))
      = bvToInt w v := by
  have hk : 1 ≤ 2 ^ k := Nat.two_pow_pos k
  have hpow : 2 ^ (w + k) = 2 ^ k * 2 ^ w := by rw [Nat.pow_add, Nat.mul_comm]
  have hsum : (2 ^ k - 1) * 2 ^ w + 2 ^ w = 2 ^ (w + k) := by
    rw [hpow]
    conv_lhs => rhs; rw [← Nat.one_mul (2 ^ w)]
    rw [← Nat.add_mul, Nat.sub_add_cancel hk]
  have hhalf : 2 ^ (w - 1) + 2 ^ (w - 1) = 2 ^ w := by
    conv_rhs => rw [← Nat.sub_add_cancel hw, Nat.pow_succ]
    omega
  have hhalf2 : 2 ^ (w + k - 1) + 2 ^ (w + k - 1) = 2 ^ (w + k) := by
    conv_rhs => rw [← Nat.sub_add_cancel (show 1 ≤ w + k by omega), Nat.pow_succ]
    omega
  have hmono : 2 ^ (w - 1) ≤ 2 ^ (w + k - 1) :=
    Nat.pow_le_pow_right (by decide) (by omega)
  have hle : 2 ^ w ≤ 2 ^ (w + k) := Nat.pow_le_pow_right (by decide) (by omega)
  cases hm : bvMsb w v
  · have hlt : v < 2 ^ (w - 1) := by simpa [bvMsb] using hm
    simp only [Bool.false_eq_true, if_false]
    rw [Nat.mod_eq_of_lt (lt_of_lt_of_le hv hle)]
    unfold bvToInt
    rw [hm]
    have : bvMsb (w + k) v = false := by
      simp only [bvMsb, decide_eq_false_iff_not, not_le]
      exact lt_of_lt_of_le hlt hmono
    rw [this]
    rfl
  · have hge : 2 ^ (w - 1) ≤ v := by simpa [bvMsb] using hm
    simp only [if_true]
    have hb : v + (2 ^ k - 1) * 2 ^ w < 2 ^ (w + k) := by omega
    rw [Nat.mod_eq_of_lt hb]
    unfold bvToInt
    rw [hm]
    have : bvMsb (w + k) (v + (2 ^ k - 1) * 2 ^ w) = true := by
      simp only [bvMsb, decide_eq_true_eq]
      omega
    rw [this]
    simp only [if_true]
    have e : ((2 : Int) ^ (w + k)) = (((2 ^ k - 1) * 2 ^ w + 2 ^ w : Nat) : Int) := by
      rw [hsum]; push_cast; rfl
    rw [e]
    push_cast
    ring

theorem slice_bits (x u l i : Nat) (hi : i < u - l + 1) :
    ((x / 2 ^ l) % 2 ^ (u - l + 1)).testBit i = x.testBit (l + i) := by
  rw [Nat.testBit_mod_two_pow, ← Nat.shiftRight_eq_div_pow, Nat.testBit_shiftRight]
  simp [hi]

theorem prop_bit_cases (a : Nat) (h : a < 2 ^ 1) : a = 0 ∨ a = 1 := by
  omega

/-- Signed quotient times divisor plus signed remainder gives the dividend
back, modulo `2^w`. -/
theorem sdiv_srem_identity (w x y : Nat) (hx : x < 2 ^ w) (hy : y < 2 ^ w) (hy0 : y ≠ 0) :
    ((bvSdiv w x y % 2 ^ w) * y + bvSrem w x y % 2 ^ w) % 2 ^ w = x := by
  have hq := sdiv_int w x y hx hy hy0
  have hr := srem_int w x y hx hy hy0
  have hM : ((2 : Int) ^ w) = ((2 ^ w : Nat) : Int) := by push_cast; rfl
  have key : (((bvSdiv w x y % 2 ^ w) * y + bvSrem w x y % 2 ^ w : Nat) : Int) % 2 ^ w
      = (x : Int) % 2 ^ w := by
    push_cast
    have h1 : ((bvSdiv w x y : Int) % 2 ^ w) ≡ (bvToInt w x).tdiv (bvToInt w y) [ZMOD 2 ^ w] := by
      have := hq
      push_cast at this
      rw [this]
      exact Int.mod_modEq _ _
    have h2 : ((bvSrem w x y : Int) % 2 ^ w) ≡ (bvToInt w x).tmod (bvToInt w y) [ZMOD 2 ^ w] := by
      have := hr
      push_cast at this
      rw [this]
      exact Int.mod_modEq _ _
    have h3 : (y : Int) ≡ bvToInt w y [ZMOD 2 ^ w] := (bvToInt_emod w y).symm
    have h4 : bvToInt w x ≡ (x : Int) [ZMOD 2 ^ w] := bvToInt_emod w x
    have h5 := (h1.mul h3).add h2
    rw [Int.tdiv_add_tmod'] at h5
    exact h5.trans h4
  rw [hM, ← Int.natCast_mod, ← Int.natCast_mod, Int.natCast_inj] at key
  rw [key, Nat.mod_eq_of_lt hx]

/-- Unsigned quotient times divisor plus unsigned remainder gives the
dividend back. -/
theorem udiv_urem_identity (w x y : Nat) (hx : x < 2 ^ w) (hy0 : y ≠ 0) :
    bvUdiv w x y % 2 ^ w = x / y ∧ bvUrem x y % 2 ^ w = x % y ∧
    ((bvUdiv w x y % 2 ^ w) * y + bvUrem x y % 2 ^ w) % 2 ^ w = x := by
  have h1 : bvUdiv w x y % 2 ^ w = x / y := by
    simp only [bvUdiv, hy0, if_false]
    exact Nat.mod_eq_of_lt (lt_of_le_of_lt (Nat.div_le_self _ _) hx)
  have h2 : bvUrem x y % 2 ^ w = x % y := by
    simp only [bvUrem, hy0, if_false]
    exact Nat.mod_eq_of_lt (lt_of_le_of_lt (Nat.mod_le _ _) hx)
  refine ⟨h1, h2, ?_⟩
  rw [h1, h2, Nat.div_add_mod' x y, Nat.mod_eq_of_lt hx]

/-! ## Members returning propositions -/

/-- The pattern shared by the members that return a proposition over one
host node, with assertions active: whatever the node constructor does, no
proposition is returned. -/
theorem prop_wrap_asserting (sym : Bool) (fuel : Nat) (mk : Run BzlaNode) (s : Bzla) :
    ∃ e, (mk >>= fun n => BzlaFPSymProp.ofNode ⟨true, sym⟩ fuel n >>= fun res =>
      bzla_node_release n >>= fun _ => pure res) s = .error e := by
  apply BzlaFPSymBV.bind_stops
  intro n s1
  exact ⟨_, Run.bind_error (prop_ofNode_asserting sym fuel n s1)⟩

/-- The same pattern with assertions active, when the node constructor
returns: the run is then in the constructor of the proposition, which does
not return. -/
theorem prop_wrap_asserting_ok (sym : Bool) (fuel : Nat) (mk : Run BzlaNode) {s s1 : Bzla}
    {n : BzlaNode} (hmk : mk s = .ok (n, s1)) :
    (mk >>= fun n => BzlaFPSymProp.ofNode ⟨true, sym⟩ fuel n >>= fun res =>
      bzla_node_release n >>= fun _ => pure res) s = .error .outOfFuel := by
  rw [Run.bind_ok hmk]
  exact Run.bind_error (prop_ofNode_asserting sym fuel n s1)

/-- The same pattern without assertions: the node is wrapped, the local
handle released, and the net effect is one more reference to the node. -/
theorem prop_wrap_plain (sym : Bool) (fuel : Nat) (mk : Run BzlaNode) {s : Bzla}
    {n : BzlaNode} (hmk : mk s = .ok (n, s.acquireNode n)) :
    (mk >>= fun n => BzlaFPSymProp.ofNode ⟨false, sym⟩ fuel n >>= fun res =>
      bzla_node_release n >>= fun _ => pure res) s = .ok (⟨n⟩, s.acquireNode n) := by
  rw [Run.bind_ok hmk, Run.bind_ok (prop_ofNode_plain sym fuel _ _ (by simp))]
  simp [bzla_node_release]

theorem binop_host_ok (o : BvBinop) {a b : BzlaNode} {s : Bzla}
    (hb : BzlaFPSymBV.checkNode a = true)
    (hs : bzla_node_get_sort_id b = bzla_node_get_sort_id a)
    (hla : s.nodeRefs a ≠ 0) (hlb : s.nodeRefs b ≠ 0) :
    bzla_exp_binop o a b s = .ok (.binop o a b, s.acquireNode (.binop o a b)) := by
  have hb1 : bzla_sort_is_bv (bzla_node_get_sort_id a) = true := hb
  refine hostNode_ok ?_ ?_
  · intro c hc
    simp only [List.mem_cons, List.mem_singleton, List.not_mem_nil, or_false] at hc
    rcases hc with rfl | rfl
    · exact hla
    · exact hlb
  · simp [sameBvSort, hb1, hs]

theorem eq_host_ok {a b : BzlaNode} {s : Bzla}
    (hs : bzla_node_get_sort_id b = bzla_node_get_sort_id a)
    (hla : s.nodeRefs a ≠ 0) (hlb : s.nodeRefs b ≠ 0) :
    bzla_exp_eq a b s = .ok (.binop .eq a b, s.acquireNode (.binop .eq a b)) := by
  refine hostNode_ok ?_ (by simp [hs])
  intro c hc
  simp only [List.mem_cons, List.mem_singleton, List.not_mem_nil, or_false] at hc
  rcases hc with rfl | rfl
  · exact hla
  · exact hlb

/-- Without assertions the comparisons of the signed interpretation return
the propositions over the signed host comparisons, whose value is 1 exactly
when the relation holds between the two's-complement integers; `==` is 1
exactly when the values are equal. -/
theorem signed_comparisons_plain (sym : Bool) (fuel : Nat) (x op : BzlaFPSymBV true) (s : Bzla)
    (hb : BzlaFPSymBV.checkNode x.d_node = true)
    (hs : bzla_node_get_sort_id op.d_node = bzla_node_get_sort_id x.d_node)
    (hlx : s.nodeRefs x.d_node ≠ 0) (hlo : s.nodeRefs op.d_node ≠ 0) :
    (∃ p s1, x.le ⟨false, sym⟩ fuel op s = .ok (p, s1) ∧ bzla_node_bv_get_width p.d_node = 1 ∧
      ∀ σ, p.d_node.eval σ = if bvToInt x.getWidth (x.d_node.eval σ)
        ≤ bvToInt x.getWidth (op.d_node.eval σ) then 1 else 0) ∧
    (∃ p s1, x.ge ⟨false, sym⟩ fuel op s = .ok (p, s1) ∧ bzla_node_bv_get_width p.d_node = 1 ∧
      ∀ σ, p.d_node.eval σ = if bvToInt x.getWidth (op.d_node.eval σ)
        ≤ bvToInt x.getWidth (x.d_node.eval σ) then 1 else 0) ∧
    (∃ p s1, x.lt ⟨false, sym⟩ fuel op s = .ok (p, s1) ∧ bzla_node_bv_get_width p.d_node = 1 ∧
      ∀ σ, p.d_node.eval σ = if bvToInt x.getWidth (x.d_node.eval σ)
        < bvToInt x.getWidth (op.d_node.eval σ) then 1 else 0) ∧
    (∃ p s1, x.gt ⟨false, sym⟩ fuel op s = .ok (p, s1) ∧ bzla_node_bv_get_width p.d_node = 1 ∧
      ∀ σ, p.d_node.eval σ = if bvToInt x.getWidth (op.d_node.eval σ)
        < bvToInt x.getWidth (x.d_node.eval σ) then 1 else 0) ∧
    (∃ p s1, x.eq ⟨false, sym⟩ fuel op s = .ok (p, s1) ∧ bzla_node_bv_get_width p.d_node = 1 ∧
      ∀ σ, p.d_node.eval σ = if x.d_node.eval σ = op.d_node.eval σ then 1 else 0) :=
  ⟨⟨_, _, prop_wrap_plain sym fuel _ (binop_host_ok .slte hb hs hlx hlo), rfl, fun _ => rfl⟩,
   ⟨_, _, prop_wrap_plain sym fuel _ (binop_host_ok .sgte hb hs hlx hlo), rfl, fun _ => rfl⟩,
   ⟨_, _, prop_wrap_plain sym fuel _ (binop_host_ok .slt hb hs hlx hlo), rfl, fun _ => rfl⟩,
   ⟨_, _, prop_wrap_plain sym fuel _ (binop_host_ok .sgt hb hs hlx hlo), rfl, fun _ => rfl⟩,
   ⟨_, _, prop_wrap_plain sym fuel _ (eq_host_ok hs hlx hlo), rfl, fun _ => rfl⟩⟩

/-- Without assertions the comparisons of the unsigned interpretation return
the propositions over the unsigned host comparisons, whose value is 1
exactly when the relation holds between the natural-number values. -/
theorem unsigned_comparisons_plain (sym : Bool) (fuel : Nat) (x op : BzlaFPSymBV false)
    (s : Bzla) (hb : BzlaFPSymBV.checkNode x.d_node = true)
    (hs : bzla_node_get_sort_id op.d_node = bzla_node_get_sort_id x.d_node)
    (hlx : s.nodeRefs x.d_node ≠ 0) (hlo : s.nodeRefs op.d_node ≠ 0) :
    (∃ p s1, x.le ⟨false, sym⟩ fuel op s = .ok (p, s1) ∧ bzla_node_bv_get_width p.d_node = 1 ∧
      ∀ σ, p.d_node.eval σ = if x.d_node.eval σ ≤ op.d_node.eval σ then 1 else 0) ∧
    (∃ p s1, x.ge ⟨false, sym⟩ fuel op s = .ok (p, s1) ∧ bzla_node_bv_get_width p.d_node = 1 ∧
      ∀ σ, p.d_node.eval σ = if op.d_node.eval σ ≤ x.d_node.eval σ then 1 else 0) ∧
    (∃ p s1, x.lt ⟨false, sym⟩ fuel op s = .ok (p, s1) ∧ bzla_node_bv_get_width p.d_node = 1 ∧
      ∀ σ, p.d_node.eval σ = if x.d_node.eval σ < op.d_node.eval σ then 1 else 0) ∧
    (∃ p s1, x.gt ⟨false, sym⟩ fuel op s = .ok (p, s1) ∧ bzla_node_bv_get_width p.d_node = 1 ∧
      ∀ σ, p.d_node.eval σ = if op.d_node.eval σ < x.d_node.eval σ then 1 else 0) ∧
    (∃ p s1, x.eq ⟨false, sym⟩ fuel op s = .ok (p, s1) ∧ bzla_node_bv_get_width p.d_node = 1 ∧
      ∀ σ, p.d_node.eval σ = if x.d_node.eval σ = op.d_node.eval σ then 1 else 0) :=
  ⟨⟨_, _, prop_wrap_plain sym fuel _ (binop_host_ok .ulte hb hs hlx hlo), rfl, fun _ => rfl⟩,
   ⟨_, _, prop_wrap_plain sym fuel _ (binop_host_ok .ugte hb hs hlx hlo), rfl, fun _ => rfl⟩,
   ⟨_, _, prop_wrap_plain sym fuel _ (binop_host_ok .ult hb hs hlx hlo), rfl, fun _ => rfl⟩,
   ⟨_, _, prop_wrap_plain sym fuel _ (binop_host_ok .ugt hb hs hlx hlo), rfl, fun _ => rfl⟩,
   ⟨_, _, prop_wrap_plain sym fuel _ (eq_host_ok hs hlx hlo), rfl, fun _ => rfl⟩⟩

theorem assertCall_plain (sym : Bool) (c : Except Abort Bool) (s : Bzla) :
    assertCall ⟨false, sym⟩ c s = .ok ((), s) := by
  simp [assertCall]

theorem unop_host_ok (o : BvUnop) {a : BzlaNode} {s : Bzla}
    (hb : BzlaFPSymBV.checkNode a = true) (hla : s.nodeRefs a ≠ 0) :
    bzla_exp_unop o a s = .ok (.unop o a, s.acquireNode (.unop o a)) :=
  hostNode_ok (by simpa using hla) hb

/-- Without assertions the operations on propositions over allocated
single-bit nodes return the propositions over the single-bit host
operations, and their truth values are the negation, conjunction,
disjunction, equivalence and exclusive-or of the truth values of the
operands. -/
theorem prop_ops_plain (sym : Bool) (fuel : Nat) (p q : BzlaFPSymProp) (s : Bzla)
    (hp : bzla_node_get_sort_id p.d_node = .bv 1) (hq : bzla_node_get_sort_id q.d_node = .bv 1)
    (hlp : s.nodeRefs p.d_node ≠ 0) (hlq : s.nodeRefs q.d_node ≠ 0) :
    (∃ r s1, p.not ⟨false, sym⟩ fuel s = .ok (r, s1) ∧ bzla_node_bv_get_width r.d_node = 1 ∧
      ∀ σ, r.holds σ = !p.holds σ) ∧
    (∃ r s1, p.and ⟨false, sym⟩ fuel q s = .ok (r, s1) ∧ bzla_node_bv_get_width r.d_node = 1 ∧
      ∀ σ, r.holds σ = (p.holds σ && q.holds σ)) ∧
    (∃ r s1, p.or ⟨false, sym⟩ fuel q s = .ok (r, s1) ∧ bzla_node_bv_get_width r.d_node = 1 ∧
      ∀ σ, r.holds σ = (p.holds σ || q.holds σ)) ∧
    (∃ r s1, p.eq ⟨false, sym⟩ fuel q s = .ok (r, s1) ∧ bzla_node_bv_get_width r.d_node = 1 ∧
      ∀ σ, r.holds σ = (p.holds σ == q.holds σ)) ∧
    (∃ r s1, p.xor ⟨false, sym⟩ fuel q s = .ok (r, s1) ∧ bzla_node_bv_get_width r.d_node = 1 ∧
      ∀ σ, r.holds σ = Bool.xor (p.holds σ) (q.holds σ)) := by
  have hbp : BzlaFPSymBV.checkNode p.d_node = true := by
    simp [BzlaFPSymBV.checkNode, hp, bzla_sort_is_bv]
  have hs : bzla_node_get_sort_id q.d_node = bzla_node_get_sort_id p.d_node := by rw [hp, hq]
  have hwp : bzla_node_bv_get_width p.d_node = 1 := by simp [bzla_node_bv_get_width, hp, bzla_sort_bv_get_width]
  have hwq : bzla_node_bv_get_width q.d_node = 1 := by simp [bzla_node_bv_get_width, hq, bzla_sort_bv_get_width]
  have hvp : ∀ σ, p.d_node.eval σ = 0 ∨ p.d_node.eval σ = 1 := by
    intro σ
    have := BzlaNode.eval_lt σ p.d_node
    rw [hwp] at this
    omega
  have hvq : ∀ σ, q.d_node.eval σ = 0 ∨ q.d_node.eval σ = 1 := by
    intro σ
    have := BzlaNode.eval_lt σ q.d_node
    rw [hwq] at this
    omega
  have hwb : ∀ o : BvBinop, o ≠ .concat →
      bzla_node_bv_get_width (.binop o p.d_node q.d_node) = 1 := by
    intro o h2
    simp only [bzla_node_bv_get_width, bzla_node_get_sort_id, h2, if_false, hp]
    split <;> rfl
  refine ⟨?_, ?_, ?_, ?_, ?_⟩
  · refine ⟨_, _, prop_wrap_plain sym fuel _ (unop_host_ok .not hbp hlp), hwp, fun σ => ?_⟩
    simp only [BzlaFPSymProp.holds, BzlaNode.eval, bvUnop, hwp]
    rcases hvp σ with h | h <;> rw [h] <;> decide
  · refine ⟨⟨.binop .and p.d_node q.d_node⟩, s.acquireNode (.binop .and p.d_node q.d_node),
      ?_, hwb .and (by decide), fun σ => ?_⟩
    · unfold BzlaFPSymProp.and
      rw [Run.bind_ok (assertCall_plain sym _ s)]
      exact prop_wrap_plain sym fuel _ (binop_host_ok .and hbp hs hlp hlq)
    · simp only [BzlaFPSymProp.holds, BzlaNode.eval, bvBinop, hwp]
      rcases hvp σ with h | h <;> rcases hvq σ with h2 | h2 <;> rw [h, h2] <;> decide
  · refine ⟨⟨.binop .or p.d_node q.d_node⟩, s.acquireNode (.binop .or p.d_node q.d_node),
      ?_, hwb .or (by decide), fun σ => ?_⟩
    · unfold BzlaFPSymProp.or
      rw [Run.bind_ok (assertCall_plain sym _ s)]
      exact prop_wrap_plain sym fuel _ (binop_host_ok .or hbp hs hlp hlq)
    · simp only [BzlaFPSymProp.holds, BzlaNode.eval, bvBinop, hwp]
      rcases hvp σ with h | h <;> rcases hvq σ with h2 | h2 <;> rw [h, h2] <;> decide
  · refine ⟨⟨.binop .eq p.d_node q.d_node⟩, s.acquireNode (.binop .eq p.d_node q.d_node),
      ?_, hwb .eq (by decide), fun σ => ?_⟩
    · unfold BzlaFPSymProp.eq
      rw [Run.bind_ok (assertCall_plain sym _ s)]
      exact prop_wrap_plain sym fuel _ (eq_host_ok hs hlp hlq)
    · simp only [BzlaFPSymProp.holds, BzlaNode.eval, bvBinop]
      rcases hvp σ with h | h <;> rcases hvq σ with h2 | h2 <;> simp [h, h2]
  · refine ⟨⟨.binop .xor p.d_node q.d_node⟩, s.acquireNode (.binop .xor p.d_node q.d_node),
      ?_, hwb .xor (by decide), fun σ => ?_⟩
    · unfold BzlaFPSymProp.xor
      rw [Run.bind_ok (assertCall_plain sym _ s)]
      exact prop_wrap_plain sym fuel _ (binop_host_ok .xor hbp hs hlp hlq)
    · simp only [BzlaFPSymProp.holds, BzlaNode.eval, bvBinop, hwp]
      rcases hvp σ with h | h <;> rcases hvq σ with h2 | h2 <;> rw [h, h2] <;> decide

/-- The constructor from a literal boolean returns, in every build, the
proposition over the single-bit constant with that truth value. -/
theorem prop_ofBool_ok (v : Bool) (s : Bzla) :
    ∃ r s1, BzlaFPSymProp.ofBool v s = .ok (r, s1) ∧ bzla_node_bv_get_width r.d_node = 1 ∧
      s1.nodeRefs r.d_node = s.nodeRefs r.d_node + 1 ∧ ∀ σ, r.holds σ = v := by
  cases v
  · refine ⟨⟨.const 1 0⟩, s.acquireNode (.const 1 0), rfl, rfl, by simp, fun σ => ?_⟩
    simp [BzlaFPSymProp.holds, BzlaNode.eval]
  · refine ⟨⟨.const 1 1⟩, s.acquireNode (.const 1 1), rfl, rfl, by simp, fun σ => ?_⟩
    simp [BzlaFPSymProp.holds, BzlaNode.eval]

/-- The value of an extension node: sign extension keeps the
two's-complement integer, zero extension keeps the natural number. -/
theorem ext_value (sgn : Bool) (a : BzlaNode) (k : Nat) (hw : 1 ≤ bzla_node_bv_get_width a)
    (σ : Nat → Nat) :
    (sgn = true →
      bvToInt (bzla_node_bv_get_width a + k) ((BzlaNode.ext sgn a k).eval σ)
        = bvToInt (bzla_node_bv_get_width a) (a.eval σ)) ∧
    (sgn = false → (BzlaNode.ext sgn a k).eval σ = a.eval σ) := by
  have hv := BzlaNode.eval_lt σ a
  constructor
  · intro h
    subst h
    have := sext_toInt (bzla_node_bv_get_width a) k (a.eval σ) hw hv
    simpa only [BzlaNode.eval, Bool.true_and] using this
  · intro h
    subst h
    have hle : 2 ^ bzla_node_bv_get_width a ≤ 2 ^ (bzla_node_bv_get_width a + k) :=
      Nat.pow_le_pow_right (by decide) (Nat.le_add_right _ _)
    simp only [BzlaNode.eval, Bool.false_and, Bool.false_eq_true, if_false]
    exact Nat.mod_eq_of_lt (lt_of_lt_of_le hv hle)

/-- With assertions active the check of an operand with
`assert(checkNode(op.d_node))` does not return. -/
theorem assertCall_prop_asserting (sym : Bool) (fuel : Nat) (node : BzlaNode) (s : Bzla) :
    assertCall ⟨true, sym⟩ (BzlaFPSymProp.checkNode ⟨true, sym⟩ fuel node) s
      = .error .outOfFuel := by
  simp [assertCall, prop_checkNode_asserting]

/-! ## Width changes, concatenation, extraction -/

namespace BzlaFPSymBV

theorem width_eq_of_sort_eq {a b : BzlaNode}
    (hs : bzla_node_get_sort_id b = bzla_node_get_sort_id a) :
    bzla_node_bv_get_width b = bzla_node_bv_get_width a := by
  unfold bzla_node_bv_get_width
  rw [hs]

theorem matchWidth_ok (cfg : Build) {sgn : Bool} (x op : BzlaFPSymBV sgn) (s : Bzla)
    (hw : op.getWidth < 2 ^ 32) (hle : x.getWidth ≤ op.getWidth) :
    x.matchWidth cfg op s = x.extend cfg (op.getWidth - x.getWidth) s := by
  have hassert : assertThat cfg (decide (x.getWidth ≤ op.getWidth)) s = .ok ((), s) := by
    simp [assertThat, hle]
  unfold matchWidth
  rw [Run.bind_ok hassert, sub32_of_le hw hle]

theorem matchWidth_assert (sym : Bool) {sgn : Bool} (x op : BzlaFPSymBV sgn) (s : Bzla)
    (hlt : op.getWidth < x.getWidth) : x.matchWidth ⟨true, sym⟩ op s = .error .assertion := by
  unfold matchWidth
  apply Run.bind_error
  have : ¬ x.getWidth ≤ op.getWidth := by omega
  simp [assertThat, this]

theorem extract_ok (cfg : Build) {sgn : Bool} (x : BzlaFPSymBV sgn) (s : Bzla) {upper lower : Nat}
    (hb : checkNode x.d_node = true) (hl : s.nodeRefs x.d_node ≠ 0)
    (hlu : lower ≤ upper) (hu : upper < x.getWidth) :
    x.extract cfg upper lower s
      = .ok (⟨.slice x.d_node upper lower⟩, s.acquireNode (.slice x.d_node upper lower)) := by
  have hb1 : bzla_sort_is_bv (bzla_node_get_sort_id x.d_node) = true := hb
  have hassert : assertThat cfg (decide (upper ≥ lower)) s = .ok ((), s) := by
    simp [assertThat, hlu]
  have hu1 : upper < bzla_node_bv_get_width x.d_node := hu
  unfold extract
  rw [Run.bind_ok hassert]
  exact wrap_ok cfg (bzla_exp_bv_slice x.d_node upper lower)
    (hostNode_ok (by simpa using hl) (by simp [hb1, hlu, hu1])) rfl

/-- An upper index outside the operand is refused in every build: the host
slice operation does not accept it. -/
theorem extract_out_of_range (cfg : Build) {sgn : Bool} (x : BzlaFPSymBV sgn) (s : Bzla)
    {upper lower : Nat} (hu : x.getWidth ≤ upper) :
    ∃ e, x.extract cfg upper lower s = .error e := by
  unfold extract
  apply bind_stops
  intro _ s1
  have hpre : (bzla_sort_is_bv (bzla_node_get_sort_id x.d_node) && decide (lower ≤ upper)
      && decide (upper < bzla_node_bv_get_width x.d_node)) = false := by
    have : ¬ upper < bzla_node_bv_get_width x.d_node := by
      show ¬ upper < x.getWidth
      omega
    simp [this]
  obtain ⟨e, he⟩ := @hostNode_pre_false [x.d_node] (.slice x.d_node upper lower) s1
  refine ⟨e, ?_⟩
  apply wrap_error cfg
  unfold bzla_exp_bv_slice
  rw [hpre]
  exact he

theorem extract_assert (sym : Bool) {sgn : Bool} (x : BzlaFPSymBV sgn) (s : Bzla)
    {upper lower : Nat} (h : upper < lower) :
    x.extract ⟨true, sym⟩ upper lower s = .error .assertion := by
  unfold extract
  apply Run.bind_error
  have : ¬ lower ≤ upper := by omega
  simp [assertThat, this]

end BzlaFPSymBV

/-! ## Rounding modes without the encoder, extreme constants, reference frames -/

/-- Without the encoding library `BzlaFPSymRM::checkNode` answers false for
every node, in both builds. -/
theorem rm_checkNode_without_symfpu (a : Bool) (node : BzlaNode) :
    BzlaFPSymRM.checkNode ⟨a, false⟩ node = .ok false := by
  simp [BzlaFPSymRM.checkNode]

/-- Without the encoding library and with assertions active, the assertion on
the handle check stops the run. -/
theorem rm_assertCall_without_symfpu (node : BzlaNode) (s : Bzla) :
    assertCall ⟨true, false⟩ (BzlaFPSymRM.checkNode ⟨true, false⟩ node) s
      = .error .assertion := by
  simp [assertCall, rm_checkNode_without_symfpu]

/-- Without the encoding library and with assertions active, the constructor
from an integer code stops at an assertion for every code: at `val <
BZLA_RM_MAX` for the codes from 5 on, at `checkNode(d_node)` for the codes
below 5. -/
theorem rm_ofCode_without_symfpu (code : Nat) (s : Bzla) :
    BzlaFPSymRM.ofCode ⟨true, false⟩ code s = .error .assertion := by
  unfold BzlaFPSymRM.ofCode
  by_cases h : code < BZLA_RM_MAX
  · have h1 : assertThat ⟨true, false⟩ (decide (code < BZLA_RM_MAX)) s = .ok ((), s) := by
      simp [assertThat, h]
    have h2 : bzla_exp_fp_rm code s
        = .ok (.const BZLA_FP_RM_BW (code % 2 ^ BZLA_FP_RM_BW),
            s.acquireNode (.const BZLA_FP_RM_BW (code % 2 ^ BZLA_FP_RM_BW))) :=
      @hostNode_ok [] _ _ s (by simp) (by simp [h])
    rw [Run.bind_ok h1, Run.bind_ok h2]
    exact Run.bind_error (rm_assertCall_without_symfpu _ _)
  · apply Run.bind_error
    simp [assertThat, h]

/-- Without assertions the constructors of a rounding mode do not consult the
handle check: without the encoding library they return the wrappers all the
same. -/
theorem rm_ctor_plain (sym : Bool) (node : BzlaNode) (code : Nat) (s : Bzla)
    (hl : s.nodeRefs node ≠ 0) (hc : code < BZLA_RM_MAX) :
    BzlaFPSymRM.ofNode ⟨false, sym⟩ node s = .ok (⟨node⟩, s.acquireNode node) ∧
    BzlaFPSymRM.copy ⟨false, sym⟩ ⟨node⟩ s = .ok (⟨node⟩, s.acquireNode node) ∧
    BzlaFPSymRM.ofCode ⟨false, sym⟩ code s
      = .ok (⟨.const 3 code⟩, s.acquireNode (.const 3 code)) := by
  refine ⟨?_, ?_, ?_⟩
  · simp [BzlaFPSymRM.ofNode, assertCall, bzla_node_copy, hl]
  · simp [BzlaFPSymRM.copy, assertCall, bzla_node_copy, hl]
  · have h2 : bzla_exp_fp_rm code s = .ok (.const 3 code, s.acquireNode (.const 3 code)) := by
      have hm : code % 2 ^ BZLA_FP_RM_BW = code := by
        have : code < 5 := hc
        simp only [BZLA_FP_RM_BW]
        omega
      unfold bzla_exp_fp_rm
      rw [hm]
      exact @hostNode_ok [] _ _ s (by simp) (by simp [hc])
    unfold BzlaFPSymRM.ofCode
    rw [Run.bind_ok (show assertThat ⟨false, sym⟩ (decide (code < BZLA_RM_MAX)) s = .ok ((), s)
      by simp [assertThat]), Run.bind_ok h2, Run.bind_ok (assertCall_plain sym _ _)]
    rfl

/-- Destroying a proposition that holds the last acquired reference gives the
context before the acquisition. -/
theorem prop_destroy_acquired (n : BzlaNode) (s : Bzla) :
    BzlaFPSymProp.destroy ⟨n⟩ (s.acquireNode n) = .ok ((), s) := by
  simp [BzlaFPSymProp.destroy, bzla_node_release]

/-- Without assertions, an operation on propositions followed by the
destruction of the returned proposition leaves the context as it was before
the operation: the one reference acquired is the one the result holds. -/
theorem prop_ops_frame_plain (sym : Bool) (fuel : Nat) (p q : BzlaFPSymProp) (s : Bzla)
    (hp : bzla_node_get_sort_id p.d_node = .bv 1) (hq : bzla_node_get_sort_id q.d_node = .bv 1)
    (hlp : s.nodeRefs p.d_node ≠ 0) (hlq : s.nodeRefs q.d_node ≠ 0) :
    (p.not ⟨false, sym⟩ fuel >>= fun r => r.destroy) s = .ok ((), s) ∧
    (p.and ⟨false, sym⟩ fuel q >>= fun r => r.destroy) s = .ok ((), s) ∧
    (p.or ⟨false, sym⟩ fuel q >>= fun r => r.destroy) s = .ok ((), s) ∧
    (p.eq ⟨false, sym⟩ fuel q >>= fun r => r.destroy) s = .ok ((), s) ∧
    (p.xor ⟨false, sym⟩ fuel q >>= fun r => r.destroy) s = .ok ((), s) := by
  have hbp : BzlaFPSymBV.checkNode p.d_node = true := by
    simp [BzlaFPSymBV.checkNode, hp, bzla_sort_is_bv]
  have hs : bzla_node_get_sort_id q.d_node = bzla_node_get_sort_id p.d_node := by rw [hp, hq]
  have hnot : p.not ⟨false, sym⟩ fuel s
      = .ok (⟨.unop .not p.d_node⟩, s.acquireNode (.unop .not p.d_node)) :=
    prop_wrap_plain sym fuel _ (unop_host_ok .not hbp hlp)
  have hand : p.and ⟨false, sym⟩ fuel q s
      = .ok (⟨.binop .and p.d_node q.d_node⟩, s.acquireNode (.binop .and p.d_node q.d_node)) := by
    unfold BzlaFPSymProp.and
    rw [Run.bind_ok (assertCall_plain sym _ s)]
    exact prop_wrap_plain sym fuel _ (binop_host_ok .and hbp hs hlp hlq)
  have hor : p.or ⟨false, sym⟩ fuel q s
      = .ok (⟨.binop .or p.d_node q.d_node⟩, s.acquireNode (.binop .or p.d_node q.d_node)) := by
    unfold BzlaFPSymProp.or
    rw [Run.bind_ok (assertCall_plain sym _ s)]
    exact prop_wrap_plain sym fuel _ (binop_host_ok .or hbp hs hlp hlq)
  have heq : p.eq ⟨false, sym⟩ fuel q s
      = .ok (⟨.binop .eq p.d_node q.d_node⟩, s.acquireNode (.binop .eq p.d_node q.d_node)) := by
    unfold BzlaFPSymProp.eq
    rw [Run.bind_ok (assertCall_plain sym _ s)]
    exact prop_wrap_plain sym fuel _ (eq_host_ok hs hlp hlq)
  have hxor : p.xor ⟨false, sym⟩ fuel q s
      = .ok (⟨.binop .xor p.d_node q.d_node⟩, s.acquireNode (.binop .xor p.d_node q.d_node)) := by
    unfold BzlaFPSymProp.xor
    rw [Run.bind_ok (assertCall_plain sym _ s)]
    exact prop_wrap_plain sym fuel _ (binop_host_ok .xor hbp hs hlp hlq)
  refine ⟨?_, ?_, ?_, ?_, ?_⟩
  · rw [Run.bind_ok hnot]; exact prop_destroy_acquired _ _
  · rw [Run.bind_ok hand]; exact prop_destroy_acquired _ _
  · rw [Run.bind_ok hor]; exact prop_destroy_acquired _ _
  · rw [Run.bind_ok heq]; exact prop_destroy_acquired _ _
  · rw [Run.bind_ok hxor]; exact prop_destroy_acquired _ _

/-- With assertions active, an operation on propositions followed by the
destruction of its result does not reach the destruction. -/
theorem prop_ops_frame_asserting (sym : Bool) (fuel : Nat) (p q : BzlaFPSymProp) (s : Bzla) :
    (∃ e, (p.not ⟨true, sym⟩ fuel >>= fun r => r.destroy) s = .error e) ∧
    (p.and ⟨true, sym⟩ fuel q >>= fun r => r.destroy) s = .error .outOfFuel ∧
    (p.or ⟨true, sym⟩ fuel q >>= fun r => r.destroy) s = .error .outOfFuel ∧
    (p.eq ⟨true, sym⟩ fuel q >>= fun r => r.destroy) s = .error .outOfFuel ∧
    (p.xor ⟨true, sym⟩ fuel q >>= fun r => r.destroy) s = .error .outOfFuel := by
  refine ⟨?_, ?_, ?_, ?_, ?_⟩
  · obtain ⟨e, he⟩ := prop_wrap_asserting sym fuel (bzla_exp_bv_not p.d_node) s
    exact ⟨e, Run.bind_error he⟩
  · exact Run.bind_error (Run.bind_error (assertCall_prop_asserting sym fuel q.d_node s))
  · exact Run.bind_error (Run.bind_error (assertCall_prop_asserting sym fuel q.d_node s))
  · exact Run.bind_error (Run.bind_error (assertCall_prop_asserting sym fuel q.d_node s))
  · exact Run.bind_error (Run.bind_error (assertCall_prop_asserting sym fuel q.d_node s))

namespace BzlaFPSymBV

/-- The static member `maxValue` returns the constant `2^(w-1) - 1` for both
interpretations. -/
theorem maxValue_ok (cfg : Build) (sgn : Bool) (w : Nat) (s : Bzla) (hw : w ≠ 0) :
    maxValue cfg sgn w s
      = .ok (⟨.const w (2 ^ (w - 1) - 1)⟩, s.acquireNode (.const w (2 ^ (w - 1) - 1))) := by
  have := const_wrap_ok cfg sgn w (fun t => 2 ^ (bzla_sort_bv_get_width t - 1) - 1) s hw
  simp only [bzla_sort_bv_get_width] at this
  have hlt : 2 ^ (w - 1) - 1 < 2 ^ w :=
    lt_of_lt_of_le (Nat.sub_lt (Nat.two_pow_pos _) Nat.one_pos)
      (Nat.pow_le_pow_right (by decide) (Nat.sub_le w 1))
  rw [Nat.mod_eq_of_lt hlt] at this
  exact this

/-- The static member `minValue` returns the constant `2^(w-1)` for both
interpretations. -/
theorem minValue_ok (cfg : Build) (sgn : Bool) (w : Nat) (s : Bzla) (hw : w ≠ 0) :
    minValue cfg sgn w s
      = .ok (⟨.const w (2 ^ (w - 1))⟩, s.acquireNode (.const w (2 ^ (w - 1)))) := by
  have := const_wrap_ok cfg sgn w (fun t => 2 ^ (bzla_sort_bv_get_width t - 1)) s hw
  simp only [bzla_sort_bv_get_width] at this
  have hlt : 2 ^ (w - 1) < 2 ^ w :=
    Nat.pow_lt_pow_right (by decide) (Nat.sub_lt (Nat.pos_of_ne_zero hw) Nat.one_pos)
  rw [Nat.mod_eq_of_lt hlt] at this
  exact this

end BzlaFPSymBV

/-- Read as two's-complement integers, the constants of `minValue` and
`maxValue` are `-2^(w-1)` and `2^(w-1) - 1`, and every `w`-bit value lies
between them. -/
theorem signed_extremes (w x : Nat) (hw : w ≠ 0) (hx : x < 2 ^ w) :
    bvToInt w (2 ^ (w - 1)) = -(2 ^ (w - 1) : Int) ∧
    bvToInt w (2 ^ (w - 1) - 1) = (2 ^ (w - 1) : Int) - 1 ∧
    bvToInt w (2 ^ (w - 1)) ≤ bvToInt w x ∧
    bvToInt w x ≤ bvToInt w (2 ^ (w - 1) - 1) := by
  obtain ⟨k, rfl⟩ : ∃ k, w = k + 1 := ⟨w - 1, by omega⟩
  have hpow : (2 : Nat) ^ (k + 1) = 2 * 2 ^ k := by rw [pow_succ]; ring
  have hpowi : (2 : Int) ^ (k + 1) = 2 * 2 ^ k := by rw [pow_succ]; ring
  have hpos : 0 < 2 ^ k := Nat.two_pow_pos k
  have hcast : ((2 ^ k : Nat) : Int) = (2 : Int) ^ k := by push_cast; rfl
  simp only [Nat.add_sub_cancel] at *
  have hmin : bvToInt (k + 1) (2 ^ k) = -(2 ^ k : Int) := by
    simp only [bvToInt, bvMsb, Nat.add_sub_cancel, le_refl, decide_True, if_true]
    rw [hpowi]; push_cast; ring
  have hmax : bvToInt (k + 1) (2 ^ k - 1) = (2 ^ k : Int) - 1 := by
    have : ¬ 2 ^ k ≤ 2 ^ k - 1 := by omega
    simp only [bvToInt, bvMsb, Nat.add_sub_cancel, this, decide_False, Bool.false_eq_true,
      if_false]
    rw [Nat.cast_sub hpos]; push_cast; rfl
  refine ⟨hmin, hmax, ?_, ?_⟩
  · rw [hmin]
    by_cases hm : 2 ^ k ≤ x
    · simp only [bvToInt, bvMsb, Nat.add_sub_cancel, hm, decide_True, if_true]
      rw [hpowi]
      have : ((2 ^ k : Nat) : Int) ≤ (x : Int) := by exact_mod_cast hm
      rw [hcast] at this
      linarith
    · simp only [bvToInt, bvMsb, Nat.add_sub_cancel, hm, decide_False, Bool.false_eq_true,
        if_false]
      have h0 : (0 : Int) ≤ (x : Int) := Int.ofNat_nonneg x
      have h1 : (0 : Int) < (2 : Int) ^ k := by positivity
      linarith
  · rw [hmax]
    by_cases hm : 2 ^ k ≤ x
    · simp only [bvToInt, bvMsb, Nat.add_sub_cancel, hm, decide_True, if_true]
      rw [hpowi]
      have : (x : Int) < ((2 * 2 ^ k : Nat) : Int) := by
        rw [hpow] at hx
        exact_mod_cast hx
      push_cast at this
      linarith
    · simp only [bvToInt, bvMsb, Nat.add_sub_cancel, hm, decide_False, Bool.false_eq_true,
        if_false]
      have : (x : Int) < ((2 ^ k : Nat) : Int) := by
        have : x < 2 ^ k := by omega
        exact_mod_cast this
      rw [hcast] at this
      linarith

/-- Without assertions `BzlaFPSymRM::operator==` on two allocated rounding
modes of one sort returns the proposition over the host equality; the node
built by `bzla_exp_eq` ends with two references, the one of the local result
and the one the converting constructor takes. -/
theorem rm_eq_plain (sym : Bool) (fuel : Nat) (r other : BzlaFPSymRM) (s : Bzla)
    (hs : bzla_node_get_sort_id other.d_node = bzla_node_get_sort_id r.d_node)
    (hlr : s.nodeRefs r.d_node ≠ 0) (hlo : s.nodeRefs other.d_node ≠ 0) :
    r.eq ⟨false, sym⟩ fuel other s
      = .ok (⟨.binop .eq r.d_node other.d_node⟩,
          (s.acquireNode (.binop .eq r.d_node other.d_node)).acquireNode
            (.binop .eq r.d_node other.d_node)) := by
  unfold BzlaFPSymRM.eq
  rw [Run.bind_ok (eq_host_ok hs hlr hlo)]
  exact prop_ofNode_plain sym fuel _ _ (by simp)

/-- With assertions active `BzlaFPSymRM::operator==` returns no proposition. -/
theorem rm_eq_asserting (sym : Bool) (fuel : Nat) (r other : BzlaFPSymRM) (s : Bzla) :
    ∃ e, r.eq ⟨true, sym⟩ fuel other s = .error e := by
  unfold BzlaFPSymRM.eq
  apply BzlaFPSymBV.bind_stops
  intro n s1
  exact ⟨_, prop_ofNode_asserting sym fuel n s1⟩

/-- In `BzlaFPSymRM::valid` on a 3-bit rounding mode, the creation of the
bound followed by its release gives back the context of the entry: the
comparison is built in a context where the function holds no reference to
the bound. -/
theorem rm_valid_after_release (cfg : Build) (fuel : Nat) (r : BzlaFPSymRM) (s : Bzla)
    (hs : bzla_node_get_sort_id r.d_node = .bv BZLA_FP_RM_BW) :
    r.valid cfg fuel s
      = (bzla_exp_bv_ult r.d_node (.const 3 5) >>= fun n => BzlaFPSymProp.ofNode cfg fuel n) s := by
  have h1 : bzla_exp_bv_unsigned BZLA_RM_MAX (bzla_node_get_sort_id r.d_node) s
      = .ok (.const 3 5, s.acquireNode (.const 3 5)) := by
    rw [hs]
    exact @hostNode_ok [] _ _ s (by simp) rfl
  have h2 : bzla_node_release (.const 3 5) (s.acquireNode (.const 3 5)) = .ok ((), s) := by
    simp [bzla_node_release]
  unfold BzlaFPSymRM.valid
  rw [Run.bind_ok h1, Run.bind_ok h2]

/-- A host constructor handed a node without references stops with a use
after release. -/
theorem ult_released (a b : BzlaNode) (s : Bzla) (h : s.nodeRefs b = 0) :
    bzla_exp_bv_ult a b s = .error .useAfterRelease := by
  have : ([a, b].any fun c => decide (s.nodeRefs c = 0)) = true := by
    simp [h]
  simp [bzla_exp_bv_ult, bzla_exp_binop, hostNode, this]

/-! ## Properties -/

/-- C1, evaluation at the failing input: an unsigned wrapper over an
allocated 8-bit node, `resize(4)` and `resize(8)`, in any build.  The body
of `resize` calls `contract`, whose upper index `this->getWidth - 1 -
reduction` names a member function without calling it: `contract` has no
instance, hence `resize` has none, for any receiver and any target width,
the receiver's own width included.  No wrapper is returned that a second
`resize` could be applied to or that could be compared with the receiver. -/
theorem resize_has_no_instance (cfg : Build) (sgn : Bool) (x : BzlaFPSymBV sgn) (w : Nat)
    (s : Bzla) :
    x.resize cfg w s = .error .illFormed ∧
    x.resize cfg x.getWidth s = .error .illFormed ∧
    (¬ ∃ y s1, x.resize cfg w s = .ok (y, s1)) ∧
    BzlaFPSymBV.getWidth (⟨.input 0 (.bv 8)⟩ : BzlaFPSymBV false) = 8 ∧
    BzlaFPSymBV.resize cfg (⟨.input 0 (.bv 8)⟩ : BzlaFPSymBV false) 4
      (Bzla.empty.acquireNode (.input 0 (.bv 8))) = .error .illFormed ∧
    BzlaFPSymBV.resize cfg (⟨.input 0 (.bv 8)⟩ : BzlaFPSymBV false) 8
      (Bzla.empty.acquireNode (.input 0 (.bv 8))) = .error .illFormed := by
  refine ⟨BzlaFPSymBV.resize_illFormed cfg x w s, BzlaFPSymBV.resize_illFormed cfg x _ s, ?_,
    rfl, BzlaFPSymBV.resize_illFormed cfg _ _ _, BzlaFPSymBV.resize_illFormed cfg _ _ _⟩
  rintro ⟨y, s1, h⟩
  rw [BzlaFPSymBV.resize_illFormed] at h
  cases h

/-- C2, evaluation at the failing input: a signed wrapper over an allocated
8-bit node, `extend(3).contract(3)`, in any build.  `extend(3)` returns the
wrapper of the sign extension, of width 11; `contract` has no instance (its
upper index `this->getWidth - 1 - reduction` names a member function
without calling it), so the round trip returns nothing, for this and for
every other receiver, extension and context. -/
theorem extend_contract_has_no_instance (cfg : Build) (sgn : Bool) (x : BzlaFPSymBV sgn)
    (k : Nat) (s : Bzla) :
    (∃ e, (x.extend cfg k >>= fun y => y.contract cfg k) s = .error e) ∧
    BzlaFPSymBV.extend cfg (⟨.input 0 (.bv 8)⟩ : BzlaFPSymBV true) 3
        (Bzla.empty.acquireNode (.input 0 (.bv 8)))
      = .ok (⟨.ext true (.input 0 (.bv 8)) 3⟩,
          (Bzla.empty.acquireNode (.input 0 (.bv 8))).acquireNode
            (.ext true (.input 0 (.bv 8)) 3)) ∧
    bzla_node_bv_get_width (.ext true (.input 0 (.bv 8)) 3) = 11 ∧
    (BzlaFPSymBV.extend cfg (⟨.input 0 (.bv 8)⟩ : BzlaFPSymBV true) 3 >>= fun y =>
        y.contract cfg 3) (Bzla.empty.acquireNode (.input 0 (.bv 8)))
      = .error .illFormed := by
  have hext := @BzlaFPSymBV.extend_ok cfg true ⟨.input 0 (.bv 8)⟩
    (Bzla.empty.acquireNode (.input 0 (.bv 8))) 3 rfl (by simp [Bzla.empty])
  refine ⟨?_, hext, rfl, ?_⟩
  · apply BzlaFPSymBV.bind_stops
    intro y s1
    exact ⟨_, BzlaFPSymBV.contract_illFormed cfg y k s1⟩
  · rw [Run.bind_ok hext]
    exact BzlaFPSymBV.contract_illFormed cfg _ _ _

/-- C3, evaluation at the failing input: the rounding mode built from the
legal code 0 in a context that holds no other reference to the 3-bit
constant 5.  `valid()` creates that constant, releases it at once, and then
hands the released handle to `bzla_exp_bv_ult`; no proposition is returned,
with or without assertions. -/
theorem rm_valid_uses_released_bound (a : Bool) (fuel : Nat) :
    (BzlaFPSymRM.ofCode ⟨a, true⟩ 0 >>= fun r => r.valid ⟨a, true⟩ fuel) Bzla.empty
      = .error .useAfterRelease := by
  cases a <;> rfl

/-- C5, evaluation at the failing input: a rounding-mode wrapper is
constructed over a 3-bit node whose reference count is 1, copied, the copy
is destroyed and the original is destroyed.  The sequence returns, and the
count of the node is then 3, not 1: `BzlaFPSymRM` has no destructor. -/
theorem rm_lifecycle_leaks (a : Bool) :
    ∃ s1, (BzlaFPSymRM.ofNode ⟨a, true⟩ (.input 0 (.bv 3)) >>= fun x =>
        x.copy ⟨a, true⟩ >>= fun y => y.destroy >>= fun _ => x.destroy)
        (Bzla.empty.acquireNode (.input 0 (.bv 3))) = .ok ((), s1) ∧
      (Bzla.empty.acquireNode (.input 0 (.bv 3))).nodeRefs (.input 0 (.bv 3)) = 1 ∧
      s1.nodeRefs (.input 0 (.bv 3)) = 3 := by
  refine ⟨_, rm_lifecycle a (.input 0 (.bv 3)) _ rfl (by simp [Bzla.empty]), ?_, ?_⟩ <;>
    simp [Bzla.empty]

/-- C6: memoization of the Word Blaster.  Lowering a term a second time,
from the blaster the first request left, returns the same result and leaves
the blaster unchanged (no further invocation of the encoding routine); and
after lowering any list of root formulas from a new blaster, the encoding
routine has been invoked on no term twice, on every sub-term of the roots
exactly once whatever the number of its occurrences, and on nothing else. -/
theorem word_blaster_memoizes {R : Type} (encode : FpTerm → List R → R)
    (roots : List FpTerm) (t : FpTerm) (wb : BzlaFPWordBlaster R) :
    BzlaFPWordBlaster.lower encode t (BzlaFPWordBlaster.lower encode t wb).2
      = BzlaFPWordBlaster.lower encode t wb ∧
    (BzlaFPWordBlaster.word_blast encode roots BzlaFPWordBlaster.new).encoded.Nodup ∧
    ∀ u, (u ∈ (BzlaFPWordBlaster.word_blast encode roots BzlaFPWordBlaster.new).encoded
          ↔ ∃ r ∈ roots, u ∈ r.subterms) ∧
      ((∃ r ∈ roots, u ∈ r.subterms) →
        (BzlaFPWordBlaster.word_blast encode roots BzlaFPWordBlaster.new).encoded.count u = 1) := by
  have hfind : (BzlaFPWordBlaster.lower encode t wb).2.find t
      = some (BzlaFPWordBlaster.lower encode t wb).1 := by
    cases t <;>
      (unfold BzlaFPWordBlaster.lower
       split
       · rename_i r hf
         exact hf
       · simp [BzlaFPWordBlaster.find, BzlaFPWordBlaster.store, BzlaFPWordBlaster.lookup])
  obtain ⟨hinv, hmem⟩ := BzlaFPWordBlaster.word_blast_post encode roots
    (BzlaFPWordBlaster.new : BzlaFPWordBlaster R) BzlaFPWordBlaster.inv_new
  have hmem2 : ∀ u, u ∈ (BzlaFPWordBlaster.word_blast encode roots
      BzlaFPWordBlaster.new).encoded ↔ ∃ r ∈ roots, u ∈ r.subterms := by
    intro u
    rw [hmem u]
    simp [BzlaFPWordBlaster.new]
  refine ⟨BzlaFPWordBlaster.lower_hit encode hfind, hinv.1, fun u => ⟨hmem2 u, fun h => ?_⟩⟩
  exact List.count_eq_one_of_mem hinv.1 ((hmem2 u).mpr h)

/-- Witness for C6: the formula `op(x, x)` with the leaf `x` occurring twice,
lowered from a new blaster with an encoding routine that returns 0: the
routine is invoked on `x` once. -/
theorem word_blaster_memoizes_witness :
    ((BzlaFPWordBlaster.word_blast (fun _ _ => (0 : Nat))
        [FpTerm.binary 0 (.leaf 1) (.leaf 1)] BzlaFPWordBlaster.new).encoded.count
          (FpTerm.leaf 1) = 1) :=
  ((word_blaster_memoizes (fun _ _ => (0 : Nat)) [FpTerm.binary 0 (.leaf 1) (.leaf 1)]
      (.leaf 1) BzlaFPWordBlaster.new).2.2 (.leaf 1)).2
    ⟨_, List.mem_singleton.mpr rfl, by simp [FpTerm.subterms]⟩

/-- C7: the modular variants are their non-modular counterparts, and these
are arithmetic modulo `2^w`.  For wrappers `x`, `op` of either interpretation
over allocated nodes of one bit-vector sort of width `w`: `modularLeftShift`,
`modularRightShift`, `modularIncrement`, `modularDecrement`, `modularAdd`,
`modularNegate` are the same computations as `<<`, `>>`, `increment`,
`decrement`, `+`, unary `-`; each returns a wrapper of width `w`, whose value
under every assignment is `x + op`, `x + 1`, `x - 1`, `-x`, `x * 2^op`, all
modulo `2^w`, and for the right shift the floor of `x / 2^op` modulo `2^w`,
with `x` read as a two's-complement integer when the interpretation is
signed. -/
theorem modular_variants (cfg : Build) (sgn : Bool) (x op : BzlaFPSymBV sgn) (s : Bzla)
    (hb : BzlaFPSymBV.checkNode x.d_node = true)
    (hs : bzla_node_get_sort_id op.d_node = bzla_node_get_sort_id x.d_node)
    (hlx : s.nodeRefs x.d_node ≠ 0) (hlo : s.nodeRefs op.d_node ≠ 0) :
    (x.modularLeftShift cfg op = x.shl cfg op ∧ x.modularRightShift cfg op = x.shr cfg op ∧
      x.modularIncrement cfg = x.increment cfg ∧ x.modularDecrement cfg = x.decrement cfg ∧
      x.modularAdd cfg op = x.add cfg op ∧ x.modularNegate cfg = x.neg cfg) ∧
    (∃ y s1, x.modularAdd cfg op s = .ok (y, s1) ∧ y.getWidth = x.getWidth ∧
      ∀ σ, (y.d_node.eval σ : Int)
        = ((x.d_node.eval σ : Int) + op.d_node.eval σ) % 2 ^ x.getWidth) ∧
    (∃ y s1, x.modularIncrement cfg s = .ok (y, s1) ∧ y.getWidth = x.getWidth ∧
      ∀ σ, (y.d_node.eval σ : Int) = ((x.d_node.eval σ : Int) + 1) % 2 ^ x.getWidth) ∧
    (∃ y s1, x.modularDecrement cfg s = .ok (y, s1) ∧ y.getWidth = x.getWidth ∧
      ∀ σ, (y.d_node.eval σ : Int) = ((x.d_node.eval σ : Int) - 1) % 2 ^ x.getWidth) ∧
    (∃ y s1, x.modularNegate cfg s = .ok (y, s1) ∧ y.getWidth = x.getWidth ∧
      ∀ σ, (y.d_node.eval σ : Int) = (-(x.d_node.eval σ : Int)) % 2 ^ x.getWidth) ∧
    (∃ y s1, x.modularLeftShift cfg op s = .ok (y, s1) ∧ y.getWidth = x.getWidth ∧
      ∀ σ, (y.d_node.eval σ : Int)
        = ((x.d_node.eval σ : Int) * 2 ^ op.d_node.eval σ) % 2 ^ x.getWidth) ∧
    (∃ y s1, x.modularRightShift cfg op s = .ok (y, s1) ∧ y.getWidth = x.getWidth ∧
      ∀ σ, (y.d_node.eval σ : Int)
        = ((if sgn then bvToInt x.getWidth (x.d_node.eval σ) else (x.d_node.eval σ : Int))
            / 2 ^ op.d_node.eval σ) % 2 ^ x.getWidth) := by
  have hwb : ∀ o : BvBinop, o.isPredicate = false → o ≠ .concat →
      bzla_node_bv_get_width (.binop o x.d_node op.d_node) = x.getWidth := by
    intro o h1 h2
    simp [bzla_node_bv_get_width, bzla_node_get_sort_id, h1, h2, BzlaFPSymBV.getWidth]
  refine ⟨⟨rfl, rfl, rfl, rfl, rfl, rfl⟩, ?_, ?_, ?_, ?_, ?_, ?_⟩
  · refine ⟨_, _, BzlaFPSymBV.binop_wrap_ok cfg sgn .add hb hs hlx hlo,
      hwb .add rfl (by decide), fun σ => ?_⟩
    show (((x.d_node.eval σ + op.d_node.eval σ) % 2 ^ bzla_node_bv_get_width x.d_node : Nat)
      : Int) = _
    push_cast
    rfl
  · refine ⟨_, _, BzlaFPSymBV.unop_wrap_ok cfg sgn .inc hb hlx, rfl, fun σ => ?_⟩
    show (((x.d_node.eval σ + 1) % 2 ^ bzla_node_bv_get_width x.d_node : Nat) : Int) = _
    push_cast
    rfl
  · refine ⟨_, _, BzlaFPSymBV.unop_wrap_ok cfg sgn .dec hb hlx, rfl, fun σ => ?_⟩
    exact dec_int _ _
  · refine ⟨_, _, BzlaFPSymBV.unop_wrap_ok cfg sgn .neg hb hlx, rfl, fun σ => ?_⟩
    exact neg_int _ _ (BzlaNode.eval_lt σ x.d_node)
  · refine ⟨_, _, BzlaFPSymBV.binop_wrap_ok cfg sgn .sll hb hs hlx hlo,
      hwb .sll rfl (by decide), fun σ => ?_⟩
    show (((x.d_node.eval σ * 2 ^ op.d_node.eval σ) % 2 ^ bzla_node_bv_get_width x.d_node : Nat)
      : Int) = _
    push_cast
    rfl
  · cases sgn
    · refine ⟨_, _, BzlaFPSymBV.binop_wrap_ok cfg false .srl hb hs hlx hlo,
        hwb .srl rfl (by decide), fun σ => ?_⟩
      exact srl_int _ _ _
    · refine ⟨_, _, BzlaFPSymBV.binop_wrap_ok cfg true .sra hb hs hlx hlo,
        hwb .sra rfl (by decide), fun σ => ?_⟩
      exact sra_int _ _ _ (BzlaNode.eval_lt σ x.d_node)

/-- Witness for C7: two 8-bit unsigned inputs; the modular sum is returned
and its value is the sum modulo `2^8`. -/
theorem modular_variants_witness :
    ∃ y s1, BzlaFPSymBV.modularAdd ⟨true, true⟩ (⟨.input 0 (.bv 8)⟩ : BzlaFPSymBV false)
        ⟨.input 1 (.bv 8)⟩
        ((Bzla.empty.acquireNode (.input 0 (.bv 8))).acquireNode (.input 1 (.bv 8)))
          = .ok (y, s1) ∧
      y.getWidth = BzlaFPSymBV.getWidth (⟨.input 0 (.bv 8)⟩ : BzlaFPSymBV false) ∧
      ∀ σ, (y.d_node.eval σ : Int)
        = (((BzlaNode.input 0 (.bv 8)).eval σ : Int) + (BzlaNode.input 1 (.bv 8)).eval σ)
            % 2 ^ BzlaFPSymBV.getWidth (⟨.input 0 (.bv 8)⟩ : BzlaFPSymBV false) :=
  (modular_variants ⟨true, true⟩ false ⟨.input 0 (.bv 8)⟩ ⟨.input 1 (.bv 8)⟩
    ((Bzla.empty.acquireNode (.input 0 (.bv 8))).acquireNode (.input 1 (.bv 8)))
    rfl rfl (by simp [Bzla.empty]) (by simp [Bzla.empty])).2.1

/-- C8, evaluation at the failing input: an unsigned wrapper over an
allocated 8-bit node, `toSigned()`, and a signed one, `toUnsigned()`, in any
build.  `toSigned` is `return BzlaFPSymBV<true>(*this)`; for an unsigned
receiver no constructor of `BzlaFPSymBV<true>` accepts the operand, so the
member has no instance, and likewise `toUnsigned` on a signed receiver.
Each of the two round trips contains one conversion to the other
interpretation and returns nothing, whatever the receiver.  The conversion
to the receiver's own interpretation is the copy constructor and returns a
wrapper of the same node. -/
theorem sign_conversion_has_no_instance (cfg : Build) (x : BzlaFPSymBV false)
    (y : BzlaFPSymBV true) (s : Bzla) :
    x.toSigned cfg s = .error .illFormed ∧
    y.toUnsigned cfg s = .error .illFormed ∧
    (∃ e, (x.toSigned cfg >>= fun z => z.toUnsigned cfg) s = .error e) ∧
    (∃ e, (x.toUnsigned cfg >>= fun z => z.toSigned cfg) s = .error e) ∧
    (∃ e, (y.toSigned cfg >>= fun z => z.toUnsigned cfg) s = .error e) ∧
    (∃ e, (y.toUnsigned cfg >>= fun z => z.toSigned cfg) s = .error e) ∧
    BzlaFPSymBV.toSigned cfg (⟨.input 0 (.bv 8)⟩ : BzlaFPSymBV false)
      (Bzla.empty.acquireNode (.input 0 (.bv 8))) = .error .illFormed ∧
    BzlaFPSymBV.toUnsigned cfg (⟨.input 0 (.bv 8)⟩ : BzlaFPSymBV true)
      (Bzla.empty.acquireNode (.input 0 (.bv 8))) = .error .illFormed ∧
    BzlaFPSymBV.toUnsigned cfg (⟨.input 0 (.bv 8)⟩ : BzlaFPSymBV false)
        (Bzla.empty.acquireNode (.input 0 (.bv 8)))
      = .ok (⟨.input 0 (.bv 8)⟩,
          (Bzla.empty.acquireNode (.input 0 (.bv 8))).acquireNode (.input 0 (.bv 8))) := by
  refine ⟨rfl, rfl, ⟨_, Run.bind_error rfl⟩, ?_, ?_, ⟨_, Run.bind_error rfl⟩, rfl, rfl, ?_⟩
  · apply BzlaFPSymBV.bind_stops
    intro z s1
    exact ⟨_, (BzlaFPSymBV.cross_sign_illFormed cfg z y s1).1⟩
  · apply BzlaFPSymBV.bind_stops
    intro z s1
    exact ⟨_, (BzlaFPSymBV.cross_sign_illFormed cfg x z s1).2⟩
  · rw [(BzlaFPSymBV.same_sign_is_copy cfg ⟨.input 0 (.bv 8)⟩ y).1]
    exact BzlaFPSymBV.copy_ok cfg rfl (by simp [Bzla.empty])

/-- C9, behaviour with assertions active: `isAllZeros` and `isAllOnes` return
no proposition, for any wrapper in any context.  Each is `operator==` against
the constant, and `operator==` wraps its result with
`BzlaFPSymProp(BzlaNode *)`, whose `assert(checkNode(node))` calls
`checkNode` again without end.  At the 8-bit constants 0 and 255, the values
the claim names, the run is in that constructor at every call depth. -/
theorem isAllZeros_isAllOnes_asserting (sym sgn : Bool) (fuel : Nat) (x : BzlaFPSymBV sgn)
    (s : Bzla) :
    (∃ e, x.isAllZeros ⟨true, sym⟩ fuel s = .error e) ∧
    (∃ e, x.isAllOnes ⟨true, sym⟩ fuel s = .error e) ∧
    BzlaFPSymBV.isAllZeros ⟨true, sym⟩ fuel (⟨.const 8 0⟩ : BzlaFPSymBV sgn)
      (Bzla.empty.acquireNode (.const 8 0)) = .error .outOfFuel ∧
    BzlaFPSymBV.isAllOnes ⟨true, sym⟩ fuel (⟨.const 8 255⟩ : BzlaFPSymBV sgn)
      (Bzla.empty.acquireNode (.const 8 255)) = .error .outOfFuel := by
  refine ⟨?_, ?_, ?_, ?_⟩
  · unfold BzlaFPSymBV.isAllZeros
    apply BzlaFPSymBV.bind_stops
    intro t s1
    obtain ⟨e, he⟩ := BzlaFPSymBV.eq_asserting sym sgn fuel x t s1
    exact ⟨e, Run.bind_error he⟩
  · unfold BzlaFPSymBV.isAllOnes
    apply BzlaFPSymBV.bind_stops
    intro t s1
    obtain ⟨e, he⟩ := BzlaFPSymBV.eq_asserting sym sgn fuel x t s1
    exact ⟨e, Run.bind_error he⟩
  · exact BzlaFPSymBV.eq_const_asserting sym sgn fuel ⟨.const 8 0⟩ _ 0 _
      (BzlaFPSymBV.zero_ok _ sgn 8 _ (by decide)) rfl (by simp [Bzla.empty])
  · exact BzlaFPSymBV.eq_const_asserting sym sgn fuel ⟨.const 8 255⟩ _ 255 _
      (BzlaFPSymBV.allOnes_ok _ sgn 8 _ (by decide)) rfl (by simp [Bzla.empty])

/-- C10: shifts by interpretation.  For allocated operand nodes `a`, `b` of
one bit-vector sort of width `w ≥ 1`: the signed and the unsigned wrapper of
`a` shifted left by `b` return wrappers of one and the same node, whose bit
`i` is bit `i - b` of `a` (0 below position `b`); the signed wrapper shifted
right returns a value whose bit `i` is bit `i + b` of `a`, and the sign bit
of `a` where `i + b` is past the top; the unsigned wrapper shifted right
returns a value whose bit `i` is bit `i + b` of `a`, and 0 past the top. -/
theorem shifts_by_interpretation (cfg : Build) (a b : BzlaNode) (s : Bzla)
    (hb : BzlaFPSymBV.checkNode a = true)
    (hs : bzla_node_get_sort_id b = bzla_node_get_sort_id a)
    (hw : 1 ≤ bzla_node_bv_get_width a)
    (hla : s.nodeRefs a ≠ 0) (hlb : s.nodeRefs b ≠ 0) :
    (∃ n s1, BzlaFPSymBV.shl cfg (⟨a⟩ : BzlaFPSymBV true) ⟨b⟩ s = .ok (⟨n⟩, s1) ∧
      BzlaFPSymBV.shl cfg (⟨a⟩ : BzlaFPSymBV false) ⟨b⟩ s = .ok (⟨n⟩, s1) ∧
      bzla_node_bv_get_width n = bzla_node_bv_get_width a ∧
      ∀ σ i, i < bzla_node_bv_get_width a →
        (n.eval σ).testBit i = (decide (b.eval σ ≤ i) && (a.eval σ).testBit (i - b.eval σ))) ∧
    (∃ y s1, BzlaFPSymBV.shr cfg (⟨a⟩ : BzlaFPSymBV true) ⟨b⟩ s = .ok (y, s1) ∧
      y.getWidth = bzla_node_bv_get_width a ∧
      ∀ σ i, i < bzla_node_bv_get_width a →
        (y.d_node.eval σ).testBit i
          = if i + b.eval σ < bzla_node_bv_get_width a then (a.eval σ).testBit (i + b.eval σ)
            else (a.eval σ).testBit (bzla_node_bv_get_width a - 1)) ∧
    (∃ y s1, BzlaFPSymBV.shr cfg (⟨a⟩ : BzlaFPSymBV false) ⟨b⟩ s = .ok (y, s1) ∧
      y.getWidth = bzla_node_bv_get_width a ∧
      ∀ σ i, i < bzla_node_bv_get_width a →
        (y.d_node.eval σ).testBit i
          = if i + b.eval σ < bzla_node_bv_get_width a then (a.eval σ).testBit (i + b.eval σ)
            else false) := by
  have hwb : ∀ o : BvBinop, o.isPredicate = false → o ≠ .concat →
      bzla_node_bv_get_width (.binop o a b) = bzla_node_bv_get_width a := by
    intro o h1 h2
    simp [bzla_node_bv_get_width, bzla_node_get_sort_id, h1, h2]
  refine ⟨?_, ?_, ?_⟩
  · refine ⟨.binop .sll a b, _, BzlaFPSymBV.binop_wrap_ok cfg true .sll hb hs hla hlb,
      BzlaFPSymBV.binop_wrap_ok cfg false .sll hb hs hla hlb, hwb .sll rfl (by decide), ?_⟩
    intro σ i hi
    exact sll_bits _ _ _ _ hi
  · refine ⟨_, _, BzlaFPSymBV.binop_wrap_ok cfg true .sra hb hs hla hlb,
      hwb .sra rfl (by decide), ?_⟩
    intro σ i hi
    exact sra_bits _ _ _ _ hw (BzlaNode.eval_lt σ a) hi
  · refine ⟨_, _, BzlaFPSymBV.binop_wrap_ok cfg false .srl hb hs hla hlb,
      hwb .srl rfl (by decide), ?_⟩
    intro σ i hi
    exact srl_bits _ _ _ _ (BzlaNode.eval_lt σ a) hi

/-- Witness for C10: two 8-bit inputs; the signed right shift fills with the
sign bit. -/
theorem shifts_by_interpretation_witness :
    ∃ y s1, BzlaFPSymBV.shr ⟨true, true⟩ (⟨.input 0 (.bv 8)⟩ : BzlaFPSymBV true)
        ⟨.input 1 (.bv 8)⟩
        ((Bzla.empty.acquireNode (.input 0 (.bv 8))).acquireNode (.input 1 (.bv 8)))
          = .ok (y, s1) ∧
      y.getWidth = bzla_node_bv_get_width (.input 0 (.bv 8)) ∧
      ∀ σ i, i < bzla_node_bv_get_width (.input 0 (.bv 8)) →
        (y.d_node.eval σ).testBit i
          = if i + (BzlaNode.input 1 (.bv 8)).eval σ < bzla_node_bv_get_width (.input 0 (.bv 8))
            then ((BzlaNode.input 0 (.bv 8)).eval σ).testBit
              (i + (BzlaNode.input 1 (.bv 8)).eval σ)
            else ((BzlaNode.input 0 (.bv 8)).eval σ).testBit
              (bzla_node_bv_get_width (.input 0 (.bv 8)) - 1) :=
  (shifts_by_interpretation ⟨true, true⟩ (.input 0 (.bv 8)) (.input 1 (.bv 8))
    ((Bzla.empty.acquireNode (.input 0 (.bv 8))).acquireNode (.input 1 (.bv 8)))
    rfl rfl (by decide) (by simp [Bzla.empty]) (by simp [Bzla.empty])).2.1

/-- C11: division and remainder by interpretation.  For wrappers `x`, `op`
of either interpretation over allocated nodes of one bit-vector sort of
width `w`, `x / op` and `x % op` return wrappers of width `w`; under every
assignment that makes `op` non-zero their values are, for the signed
interpretation, the quotient truncated toward zero and the remainder (sign
of the dividend) of the two's-complement integers, modulo `2^w`, and for the
unsigned interpretation the natural quotient and remainder; in both cases
`(x / op) * op + (x % op)` is `x` modulo `2^w`. -/
theorem div_rem_by_interpretation (cfg : Build) (sgn : Bool) (x op : BzlaFPSymBV sgn) (s : Bzla)
    (hb : BzlaFPSymBV.checkNode x.d_node = true)
    (hs : bzla_node_get_sort_id op.d_node = bzla_node_get_sort_id x.d_node)
    (hlx : s.nodeRefs x.d_node ≠ 0) (hlo : s.nodeRefs op.d_node ≠ 0) :
    ∃ q s1 r s2, x.div cfg op s = .ok (q, s1) ∧ x.rem cfg op s = .ok (r, s2) ∧
      q.getWidth = x.getWidth ∧ r.getWidth = x.getWidth ∧
      ∀ σ, op.d_node.eval σ ≠ 0 →
        (sgn = true →
          (q.d_node.eval σ : Int)
            = (bvToInt x.getWidth (x.d_node.eval σ)).tdiv
                (bvToInt x.getWidth (op.d_node.eval σ)) % 2 ^ x.getWidth ∧
          (r.d_node.eval σ : Int)
            = (bvToInt x.getWidth (x.d_node.eval σ)).tmod
                (bvToInt x.getWidth (op.d_node.eval σ)) % 2 ^ x.getWidth) ∧
        (sgn = false →
          q.d_node.eval σ = x.d_node.eval σ / op.d_node.eval σ ∧
          r.d_node.eval σ = x.d_node.eval σ % op.d_node.eval σ) ∧
        (q.d_node.eval σ * op.d_node.eval σ + r.d_node.eval σ) % 2 ^ x.getWidth
          = x.d_node.eval σ := by
  have hwo : bzla_node_bv_get_width op.d_node = bzla_node_bv_get_width x.d_node :=
    BzlaFPSymBV.width_eq_of_sort_eq hs
  have hwb : ∀ o : BvBinop, o.isPredicate = false → o ≠ .concat →
      bzla_node_bv_get_width (.binop o x.d_node op.d_node) = x.getWidth := by
    intro o h1 h2
    simp [bzla_node_bv_get_width, bzla_node_get_sort_id, h1, h2, BzlaFPSymBV.getWidth]
  have hxv : ∀ σ, x.d_node.eval σ < 2 ^ bzla_node_bv_get_width x.d_node :=
    fun σ => BzlaNode.eval_lt σ x.d_node
  have hov : ∀ σ, op.d_node.eval σ < 2 ^ bzla_node_bv_get_width x.d_node := by
    intro σ
    have := BzlaNode.eval_lt σ op.d_node
    rwa [hwo] at this
  cases sgn
  · refine ⟨⟨.binop .udiv x.d_node op.d_node⟩, _, ⟨.binop .urem x.d_node op.d_node⟩, _,
      BzlaFPSymBV.binop_wrap_ok cfg false .udiv hb hs hlx hlo,
      BzlaFPSymBV.binop_wrap_ok cfg false .urem hb hs hlx hlo,
      hwb .udiv rfl (by decide), hwb .urem rfl (by decide), fun σ h0 => ?_⟩
    obtain ⟨h1, h2, h3⟩ := udiv_urem_identity (bzla_node_bv_get_width x.d_node)
      (x.d_node.eval σ) (op.d_node.eval σ) (hxv σ) h0
    exact ⟨fun h => Bool.noConfusion h, fun _ => ⟨h1, h2⟩, h3⟩
  · refine ⟨⟨.binop .sdiv x.d_node op.d_node⟩, _, ⟨.binop .srem x.d_node op.d_node⟩, _,
      BzlaFPSymBV.binop_wrap_ok cfg true .sdiv hb hs hlx hlo,
      BzlaFPSymBV.binop_wrap_ok cfg true .srem hb hs hlx hlo,
      hwb .sdiv rfl (by decide), hwb .srem rfl (by decide), fun σ h0 => ?_⟩
    refine ⟨fun _ => ⟨?_, ?_⟩, fun h => Bool.noConfusion h, ?_⟩
    · exact sdiv_int _ _ _ (hxv σ) (hov σ) h0
    · exact srem_int _ _ _ (hxv σ) (hov σ) h0
    · exact sdiv_srem_identity _ _ _ (hxv σ) (hov σ) h0

/-- Witness for C11: two 8-bit signed inputs. -/
theorem div_rem_by_interpretation_witness :
    ∃ q s1 r s2,
      BzlaFPSymBV.div ⟨true, true⟩ (⟨.input 0 (.bv 8)⟩ : BzlaFPSymBV true) ⟨.input 1 (.bv 8)⟩
        ((Bzla.empty.acquireNode (.input 0 (.bv 8))).acquireNode (.input 1 (.bv 8)))
          = .ok (q, s1) ∧
      BzlaFPSymBV.rem ⟨true, true⟩ (⟨.input 0 (.bv 8)⟩ : BzlaFPSymBV true) ⟨.input 1 (.bv 8)⟩
        ((Bzla.empty.acquireNode (.input 0 (.bv 8))).acquireNode (.input 1 (.bv 8)))
          = .ok (r, s2) ∧
      q.getWidth = 8 ∧ r.getWidth = 8 ∧
      ∀ σ, (BzlaNode.input 1 (.bv 8)).eval σ ≠ 0 →
        (q.d_node.eval σ * (BzlaNode.input 1 (.bv 8)).eval σ + r.d_node.eval σ) % 2 ^ 8
          = (BzlaNode.input 0 (.bv 8)).eval σ := by
  obtain ⟨q, s1, r, s2, h1, h2, h3, h4, h5⟩ :=
    div_rem_by_interpretation ⟨true, true⟩ true ⟨.input 0 (.bv 8)⟩ ⟨.input 1 (.bv 8)⟩
      ((Bzla.empty.acquireNode (.input 0 (.bv 8))).acquireNode (.input 1 (.bv 8)))
      rfl rfl (by simp [Bzla.empty]) (by simp [Bzla.empty])
  exact ⟨q, s1, r, s2, h1, h2, h3, h4, fun σ h0 => (h5 σ h0).2.2⟩

/-- C12, behaviour with assertions active: none of the comparisons `==`,
`<=`, `>=`, `<`, `>` returns a proposition, for any operands of either
interpretation in any context: each wraps the host comparison node with
`BzlaFPSymProp(BzlaNode *)`, whose `assert(checkNode(node))` calls
`checkNode` again without end.  On the 8-bit constants 3 and 5 the host
comparison is built and the run is then in that constructor at every call
depth. -/
theorem comparisons_asserting (sym sgn : Bool) (fuel : Nat) (x op : BzlaFPSymBV sgn)
    (s : Bzla) :
    (∃ e, x.eq ⟨true, sym⟩ fuel op s = .error e) ∧
    (∃ e, x.le ⟨true, sym⟩ fuel op s = .error e) ∧
    (∃ e, x.ge ⟨true, sym⟩ fuel op s = .error e) ∧
    (∃ e, x.lt ⟨true, sym⟩ fuel op s = .error e) ∧
    (∃ e, x.gt ⟨true, sym⟩ fuel op s = .error e) ∧
    BzlaFPSymBV.lt ⟨true, sym⟩ fuel (⟨.const 8 3⟩ : BzlaFPSymBV sgn) ⟨.const 8 5⟩
      ((Bzla.empty.acquireNode (.const 8 3)).acquireNode (.const 8 5)) = .error .outOfFuel := by
  refine ⟨?_, ?_, ?_, ?_, ?_, ?_⟩
  · exact prop_wrap_asserting sym fuel _ s
  · cases sgn <;> exact prop_wrap_asserting sym fuel _ s
  · cases sgn <;> exact prop_wrap_asserting sym fuel _ s
  · cases sgn <;> exact prop_wrap_asserting sym fuel _ s
  · cases sgn <;> exact prop_wrap_asserting sym fuel _ s
  · cases sgn
    · exact prop_wrap_asserting_ok sym fuel _
        (binop_host_ok .ult rfl rfl (by simp [Bzla.empty]) (by simp [Bzla.empty]))
    · exact prop_wrap_asserting_ok sym fuel _
        (binop_host_ok .slt rfl rfl (by simp [Bzla.empty]) (by simp [Bzla.empty]))

/-- C14, evaluation at the failing input: a wrapper over an allocated 8-bit
node, `contract(3)` (reduction below the width) and `contract(8)` (reduction
not below the width), in any build.  The slice's upper index is written
`this->getWidth - 1 - reduction`, the member function without a call, so the
body is rejected when it is instantiated: for no receiver and no reduction
does `contract` return a wrapper, and for a reduction that is not below the
width the outcome is not the failure of `assert(getWidth() > reduction)`
either, since no statement of the member is executed. -/
theorem contract_has_no_instance (cfg : Build) (sgn : Bool) (x : BzlaFPSymBV sgn) (r : Nat)
    (s : Bzla) :
    x.contract cfg r s = .error .illFormed ∧
    (¬ ∃ y s1, x.contract cfg r s = .ok (y, s1)) ∧
    x.contract cfg r s ≠ .error .assertion ∧
    BzlaFPSymBV.getWidth (⟨.input 0 (.bv 8)⟩ : BzlaFPSymBV false) = 8 ∧
    BzlaFPSymBV.contract cfg (⟨.input 0 (.bv 8)⟩ : BzlaFPSymBV false) 3
      (Bzla.empty.acquireNode (.input 0 (.bv 8))) = .error .illFormed ∧
    BzlaFPSymBV.contract ⟨true, cfg.symfpu⟩ (⟨.input 0 (.bv 8)⟩ : BzlaFPSymBV false) 8
      (Bzla.empty.acquireNode (.input 0 (.bv 8))) = .error .illFormed := by
  refine ⟨rfl, ?_, ?_, rfl, rfl, rfl⟩
  · rintro ⟨y, s1, h⟩
    rw [BzlaFPSymBV.contract_illFormed] at h
    cases h
  · rw [BzlaFPSymBV.contract_illFormed]
    intro h
    cases h

/-- C15: `matchWidth`.  For wrappers `x`, `op` of one interpretation, `x`
over an allocated bit-vector node of width at least 1 and `op` of a width
that is a `uint32_t` value: when `x.getWidth() ≤ op.getWidth()`,
`x.matchWidth(op)` is `x.extend(op.getWidth() - x.getWidth())`, it returns a
wrapper of exactly the width of `op`, and the value of `x` is kept (as a
two's-complement integer when signed, as a natural number when unsigned);
when `x.getWidth() > op.getWidth()` it stops at its assertion. -/
theorem matchWidth_spec (cfg : Build) (sgn : Bool) (x op : BzlaFPSymBV sgn) (s : Bzla)
    (hb : BzlaFPSymBV.checkNode x.d_node = true) (hl : s.nodeRefs x.d_node ≠ 0)
    (hw : 1 ≤ x.getWidth) (hwo : op.getWidth < 2 ^ 32) :
    (x.getWidth ≤ op.getWidth →
      x.matchWidth cfg op s = x.extend cfg (op.getWidth - x.getWidth) s ∧
      ∃ y s1, x.matchWidth cfg op s = .ok (y, s1) ∧ y.getWidth = op.getWidth ∧
        ∀ σ, (sgn = true →
            bvToInt op.getWidth (y.d_node.eval σ) = bvToInt x.getWidth (x.d_node.eval σ)) ∧
          (sgn = false → y.d_node.eval σ = x.d_node.eval σ)) ∧
    (op.getWidth < x.getWidth →
      x.matchWidth ⟨true, cfg.symfpu⟩ op s = .error .assertion) := by
  constructor
  · intro hle
    have hm := BzlaFPSymBV.matchWidth_ok cfg x op s hwo hle
    have h1 := BzlaFPSymBV.extend_ok cfg (op.getWidth - x.getWidth) hb hl
    have hsum : bzla_node_bv_get_width x.d_node + (op.getWidth - x.getWidth) = op.getWidth := by
      show x.getWidth + (op.getWidth - x.getWidth) = op.getWidth
      omega
    refine ⟨hm, ⟨.ext sgn x.d_node (op.getWidth - x.getWidth)⟩, _, hm.trans h1, hsum,
      fun σ => ?_⟩
    have hv := ext_value sgn x.d_node (op.getWidth - x.getWidth) hw σ
    rw [hsum] at hv
    exact hv
  · intro hlt
    exact BzlaFPSymBV.matchWidth_assert _ x op s hlt

/-- Witness for C15: an 8-bit signed input matched to a 12-bit one, and a
12-bit one matched to an 8-bit one. -/
theorem matchWidth_spec_witness :
    (∃ y s1, BzlaFPSymBV.matchWidth ⟨true, true⟩ (⟨.input 0 (.bv 8)⟩ : BzlaFPSymBV true)
        ⟨.input 1 (.bv 12)⟩ (Bzla.empty.acquireNode (.input 0 (.bv 8))) = .ok (y, s1) ∧
      y.getWidth = BzlaFPSymBV.getWidth (⟨.input 1 (.bv 12)⟩ : BzlaFPSymBV true)) ∧
    BzlaFPSymBV.matchWidth ⟨true, true⟩ (⟨.input 1 (.bv 12)⟩ : BzlaFPSymBV true)
        ⟨.input 0 (.bv 8)⟩ (Bzla.empty.acquireNode (.input 1 (.bv 12))) = .error .assertion := by
  refine ⟨?_, ?_⟩
  · obtain ⟨_, y, s1, h1, h2, _⟩ :=
      (matchWidth_spec ⟨true, true⟩ true ⟨.input 0 (.bv 8)⟩ ⟨.input 1 (.bv 12)⟩
        (Bzla.empty.acquireNode (.input 0 (.bv 8))) rfl (by simp [Bzla.empty])
        (by decide) (by decide)).1 (by decide)
    exact ⟨y, s1, h1, h2⟩
  · exact (matchWidth_spec ⟨true, true⟩ true ⟨.input 1 (.bv 12)⟩ ⟨.input 0 (.bv 8)⟩
      (Bzla.empty.acquireNode (.input 1 (.bv 12))) rfl (by simp [Bzla.empty])
      (by decide) (by decide)).2 (by decide)

/-- C17, counterexample: on an 8-bit input, `extract(8, 0)` satisfies
`upper >= lower` and returns nothing, in either build: the upper index lies
outside the operand and the host slice operation refuses it. -/
theorem extract_upper_out_of_range :
    BzlaFPSymBV.extract ⟨true, true⟩ (⟨.input 0 (.bv 8)⟩ : BzlaFPSymBV false) 8 0
      (Bzla.empty.acquireNode (.input 0 (.bv 8))) = .error .hostPrecondition ∧
    BzlaFPSymBV.extract ⟨false, true⟩ (⟨.input 0 (.bv 8)⟩ : BzlaFPSymBV false) 8 0
      (Bzla.empty.acquireNode (.input 0 (.bv 8))) = .error .hostPrecondition ∧
    ¬ ∃ y s1, BzlaFPSymBV.extract ⟨true, true⟩ (⟨.input 0 (.bv 8)⟩ : BzlaFPSymBV false) 8 0
      (Bzla.empty.acquireNode (.input 0 (.bv 8))) = .ok (y, s1) := by
  refine ⟨rfl, rfl, ?_⟩
  rintro ⟨y, s1, h⟩
  have h2 : BzlaFPSymBV.extract ⟨true, true⟩ (⟨.input 0 (.bv 8)⟩ : BzlaFPSymBV false) 8 0
      (Bzla.empty.acquireNode (.input 0 (.bv 8))) = .error .hostPrecondition := rfl
  rw [h2] at h
  cases h

/-- C17 as amended: for a wrapper `x` of either interpretation over an
allocated bit-vector node of width `w` and every pair with
`lower ≤ upper < w`, `x.extract(upper, lower)` returns a wrapper of width
`upper - lower + 1` whose bit `i` is bit `lower + i` of `x`; with
`upper ≥ w` it returns nothing in any build, and with `upper < lower` it
stops at the assertion when assertions are active. -/
theorem extract_spec (cfg : Build) (sgn : Bool) (x : BzlaFPSymBV sgn) (s : Bzla)
    (upper lower : Nat)
    (hb : BzlaFPSymBV.checkNode x.d_node = true) (hl : s.nodeRefs x.d_node ≠ 0) :
    (lower ≤ upper → upper < x.getWidth →
      ∃ y s1, x.extract cfg upper lower s = .ok (y, s1) ∧ y.getWidth = upper - lower + 1 ∧
        ∀ σ, y.d_node.eval σ = (x.d_node.eval σ / 2 ^ lower) % 2 ^ (upper - lower + 1) ∧
          ∀ i, i < upper - lower + 1 →
            (y.d_node.eval σ).testBit i = (x.d_node.eval σ).testBit (lower + i)) ∧
    (x.getWidth ≤ upper → ∃ e, x.extract cfg upper lower s = .error e) ∧
    (upper < lower → x.extract ⟨true, cfg.symfpu⟩ upper lower s = .error .assertion) := by
  refine ⟨fun hlu hu => ?_, fun hu => BzlaFPSymBV.extract_out_of_range cfg x s hu,
    fun h => BzlaFPSymBV.extract_assert _ x s h⟩
  exact ⟨⟨.slice x.d_node upper lower⟩, _, BzlaFPSymBV.extract_ok cfg x s hb hl hlu hu, rfl,
    fun σ => ⟨rfl, fun i hi => slice_bits _ _ _ _ hi⟩⟩

/-- Witness for C17 as amended: bits 5 down to 2 of an 8-bit input. -/
theorem extract_spec_witness :
    ∃ y s1, BzlaFPSymBV.extract ⟨true, true⟩ (⟨.input 0 (.bv 8)⟩ : BzlaFPSymBV false) 5 2
        (Bzla.empty.acquireNode (.input 0 (.bv 8))) = .ok (y, s1) ∧
      y.getWidth = 5 - 2 + 1 ∧
      ∀ σ, y.d_node.eval σ = ((BzlaNode.input 0 (.bv 8)).eval σ / 2 ^ 2) % 2 ^ (5 - 2 + 1) ∧
        ∀ i, i < 5 - 2 + 1 →
          (y.d_node.eval σ).testBit i = ((BzlaNode.input 0 (.bv 8)).eval σ).testBit (2 + i) :=
  (extract_spec ⟨true, true⟩ false ⟨.input 0 (.bv 8)⟩
    (Bzla.empty.acquireNode (.input 0 (.bv 8))) 5 2 rfl (by simp [Bzla.empty])).1
    (by decide) (by decide)

/-- C18, behaviour with assertions active: none of the operations `!`,
`&&`, `||`, `==`, `^` on propositions returns a proposition, for any
operands in any context.  The binary ones start with
`assert(checkNode(op.d_node))` and all wrap their result with
`BzlaFPSymProp(BzlaNode *)`; `BzlaFPSymProp::checkNode` begins by asserting
itself and does not return.  On the literal `true`, which is constructed in
every build, `!` builds the host node and is then in that constructor at
every call depth. -/
theorem prop_ops_asserting (sym : Bool) (fuel : Nat) (p q : BzlaFPSymProp) (s : Bzla) :
    (∃ e, p.not ⟨true, sym⟩ fuel s = .error e) ∧
    p.and ⟨true, sym⟩ fuel q s = .error .outOfFuel ∧
    p.or ⟨true, sym⟩ fuel q s = .error .outOfFuel ∧
    p.eq ⟨true, sym⟩ fuel q s = .error .outOfFuel ∧
    p.xor ⟨true, sym⟩ fuel q s = .error .outOfFuel ∧
    (BzlaFPSymProp.ofBool true >>= fun t => t.not ⟨true, sym⟩ fuel) Bzla.empty
      = .error .outOfFuel := by
  refine ⟨prop_wrap_asserting sym fuel _ s, ?_, ?_, ?_, ?_, ?_⟩
  · exact Run.bind_error (assertCall_prop_asserting sym fuel q.d_node s)
  · exact Run.bind_error (assertCall_prop_asserting sym fuel q.d_node s)
  · exact Run.bind_error (assertCall_prop_asserting sym fuel q.d_node s)
  · exact Run.bind_error (assertCall_prop_asserting sym fuel q.d_node s)
  · have h1 : BzlaFPSymProp.ofBool true Bzla.empty
        = .ok (⟨.const 1 1⟩, Bzla.empty.acquireNode (.const 1 1)) := rfl
    rw [Run.bind_ok h1]
    exact prop_wrap_asserting_ok sym fuel _
      (unop_host_ok .not rfl (by simp [Bzla.empty]))

/-- C19, evaluation at the failing input: an allocated handle of width 8.
With assertions active the constructor `BzlaFPSymProp(BzlaNode *)` does not
stop with an assertion failure: it does not return at all; and `&&` with an
operand over that handle does not return either.  Without assertions the
constructor returns a proposition that wraps the width-8 handle. -/
theorem prop_width_not_enforced (sym : Bool) (fuel : Nat) :
    bzla_node_bv_get_width (.const 8 0) = 8 ∧
    BzlaFPSymProp.ofNode ⟨true, sym⟩ fuel (.const 8 0) (Bzla.empty.acquireNode (.const 8 0))
      = .error .outOfFuel ∧
    BzlaFPSymProp.and ⟨true, sym⟩ fuel ⟨.const 1 1⟩ ⟨.const 8 0⟩
        ((Bzla.empty.acquireNode (.const 1 1)).acquireNode (.const 8 0))
      = .error .outOfFuel ∧
    BzlaFPSymProp.ofNode ⟨false, sym⟩ fuel (.const 8 0) (Bzla.empty.acquireNode (.const 8 0))
      = .ok (⟨.const 8 0⟩, (Bzla.empty.acquireNode (.const 8 0)).acquireNode (.const 8 0)) := by
  refine ⟨rfl, prop_ofNode_asserting sym fuel _ _, ?_, ?_⟩
  · exact Run.bind_error (assertCall_prop_asserting sym fuel _ _)
  · exact prop_ofNode_plain sym fuel _ _ (by simp [Bzla.empty])

/-- C20: the contract hooks.  With assertions active `precondition`,
`postcondition` and `invariant` on a plain boolean stop with an assertion
failure exactly when the boolean is false and return, leaving the context
as it was, when it is true; on a proposition the three hooks return and
leave the context as it was, for every proposition and in every build, the
constant-false proposition included. -/
theorem contract_hooks (sym : Bool) (b : Bool) (p : BzlaFPSymProp) (s : Bzla) :
    (BzlaFPSymTraits.precondition ⟨true, sym⟩ b s
      = if b then .ok ((), s) else .error .assertion) ∧
    (BzlaFPSymTraits.postcondition ⟨true, sym⟩ b s
      = if b then .ok ((), s) else .error .assertion) ∧
    (BzlaFPSymTraits.invariant ⟨true, sym⟩ b s
      = if b then .ok ((), s) else .error .assertion) ∧
    BzlaFPSymTraits.preconditionProp p s = .ok ((), s) ∧
    BzlaFPSymTraits.postconditionProp p s = .ok ((), s) ∧
    BzlaFPSymTraits.invariantProp p s = .ok ((), s) ∧
    (∃ f s1, BzlaFPSymProp.ofBool false s = .ok (f, s1) ∧ (∀ σ, f.holds σ = false) ∧
      BzlaFPSymTraits.preconditionProp f s1 = .ok ((), s1) ∧
      BzlaFPSymTraits.postconditionProp f s1 = .ok ((), s1) ∧
      BzlaFPSymTraits.invariantProp f s1 = .ok ((), s1)) := by
  refine ⟨?_, ?_, ?_, rfl, rfl, rfl, ?_⟩
  · cases b <;> rfl
  · cases b <;> rfl
  · cases b <;> rfl
  · obtain ⟨f, s1, h1, _, _, h4⟩ := prop_ofBool_ok false s
    exact ⟨f, s1, h1, h4, rfl, rfl, rfl⟩

/-- C21, counterexample: without the encoding library and with assertions
active, constructing a rounding mode from the legal code 0 stops at the
constructor's assertion on the handle check; no wrapper, valid or invalid,
is returned. -/
theorem rm_code_zero_aborts_without_symfpu :
    BzlaFPSymRM.ofCode ⟨true, false⟩ 0 Bzla.empty = .error .assertion ∧
    ¬ ∃ r s1, BzlaFPSymRM.ofCode ⟨true, false⟩ 0 Bzla.empty = .ok (r, s1) := by
  have h := rm_ofCode_without_symfpu 0 Bzla.empty
  refine ⟨h, ?_⟩
  rintro ⟨r, s1, h2⟩
  rw [h] at h2
  cases h2

/-- C21 as amended: without the encoding library the rounding-mode handle
check answers false for every handle, in both builds; with assertions active
the three constructors (from a handle, from an integer code, by copy) then
stop at an assertion for every argument in every context, the legal codes
0..4 included; and `valid()`, which does not consult the handle check,
behaves as it does with the library. -/
theorem rm_without_symfpu (a : Bool) (fuel : Nat) (node : BzlaNode) (code : Nat)
    (r : BzlaFPSymRM) (s : Bzla) :
    BzlaFPSymRM.checkNode ⟨a, false⟩ node = .ok false ∧
    BzlaFPSymRM.ofNode ⟨true, false⟩ node s = .error .assertion ∧
    BzlaFPSymRM.ofCode ⟨true, false⟩ code s = .error .assertion ∧
    r.copy ⟨true, false⟩ s = .error .assertion ∧
    r.valid ⟨a, false⟩ fuel s = r.valid ⟨a, true⟩ fuel s := by
  refine ⟨rm_checkNode_without_symfpu a node, ?_, rm_ofCode_without_symfpu code s, ?_, ?_⟩
  · exact Run.bind_error (rm_assertCall_without_symfpu node s)
  · exact Run.bind_error (rm_assertCall_without_symfpu r.d_node s)
  · have hc : ∀ n, BzlaFPSymProp.checkNode ⟨a, false⟩ fuel n
        = BzlaFPSymProp.checkNode ⟨a, true⟩ fuel n := by
      intro n
      cases a
      · cases fuel with
        | zero => rfl
        | succ k => rw [prop_checkNode_plain, prop_checkNode_plain]
      · rw [prop_checkNode_asserting, prop_checkNode_asserting]
    have ho : BzlaFPSymProp.ofNode ⟨a, false⟩ fuel = BzlaFPSymProp.ofNode ⟨a, true⟩ fuel := by
      funext n
      unfold BzlaFPSymProp.ofNode
      rw [hc n]
      rfl
    unfold BzlaFPSymRM.valid
    rw [ho]

/-- C22, evaluation at the failing input: the literals `true` and `false`
with assertions active.  None of `!`, `&&`, `||`, `==`, `^` returns a
wrapper, for any operands in any context, so the destruction of the returned
wrapper is never reached and no context after the call exists to compare
with the one before.  Without assertions, on the two literals, each
operation followed by the destruction of its result gives back the context
of the call. -/
theorem prop_ops_frame_unreached (sym : Bool) (fuel : Nat) (p q : BzlaFPSymProp) (s : Bzla) :
    ((∃ e, (p.not ⟨true, sym⟩ fuel >>= fun r => r.destroy) s = .error e) ∧
     (p.and ⟨true, sym⟩ fuel q >>= fun r => r.destroy) s = .error .outOfFuel ∧
     (p.or ⟨true, sym⟩ fuel q >>= fun r => r.destroy) s = .error .outOfFuel ∧
     (p.eq ⟨true, sym⟩ fuel q >>= fun r => r.destroy) s = .error .outOfFuel ∧
     (p.xor ⟨true, sym⟩ fuel q >>= fun r => r.destroy) s = .error .outOfFuel) ∧
    (BzlaFPSymProp.ofBool true >>= fun t => BzlaFPSymProp.ofBool false >>= fun f =>
      t.and ⟨true, sym⟩ fuel f >>= fun r => r.destroy) Bzla.empty = .error .outOfFuel ∧
    ((BzlaFPSymProp.not ⟨false, sym⟩ fuel ⟨.const 1 1⟩ >>= fun r => r.destroy)
        ((Bzla.empty.acquireNode (.const 1 1)).acquireNode (.const 1 0))
      = .ok ((), (Bzla.empty.acquireNode (.const 1 1)).acquireNode (.const 1 0)) ∧
     (BzlaFPSymProp.and ⟨false, sym⟩ fuel ⟨.const 1 1⟩ ⟨.const 1 0⟩ >>= fun r => r.destroy)
        ((Bzla.empty.acquireNode (.const 1 1)).acquireNode (.const 1 0))
      = .ok ((), (Bzla.empty.acquireNode (.const 1 1)).acquireNode (.const 1 0)) ∧
     (BzlaFPSymProp.or ⟨false, sym⟩ fuel ⟨.const 1 1⟩ ⟨.const 1 0⟩ >>= fun r => r.destroy)
        ((Bzla.empty.acquireNode (.const 1 1)).acquireNode (.const 1 0))
      = .ok ((), (Bzla.empty.acquireNode (.const 1 1)).acquireNode (.const 1 0)) ∧
     (BzlaFPSymProp.eq ⟨false, sym⟩ fuel ⟨.const 1 1⟩ ⟨.const 1 0⟩ >>= fun r => r.destroy)
        ((Bzla.empty.acquireNode (.const 1 1)).acquireNode (.const 1 0))
      = .ok ((), (Bzla.empty.acquireNode (.const 1 1)).acquireNode (.const 1 0)) ∧
     (BzlaFPSymProp.xor ⟨false, sym⟩ fuel ⟨.const 1 1⟩ ⟨.const 1 0⟩ >>= fun r => r.destroy)
        ((Bzla.empty.acquireNode (.const 1 1)).acquireNode (.const 1 0))
      = .ok ((), (Bzla.empty.acquireNode (.const 1 1)).acquireNode (.const 1 0))) := by
  refine ⟨prop_ops_frame_asserting sym fuel p q s, ?_, ?_⟩
  · have h1 : BzlaFPSymProp.ofBool true Bzla.empty
        = .ok (⟨.const 1 1⟩, Bzla.empty.acquireNode (.const 1 1)) := rfl
    have h2 : BzlaFPSymProp.ofBool false (Bzla.empty.acquireNode (.const 1 1))
        = .ok (⟨.const 1 0⟩, (Bzla.empty.acquireNode (.const 1 1)).acquireNode (.const 1 0)) :=
      rfl
    rw [Run.bind_ok h1, Run.bind_ok h2]
    exact (prop_ops_frame_asserting sym fuel _ _ _).2.1
  · exact prop_ops_frame_plain sym fuel ⟨.const 1 1⟩ ⟨.const 1 0⟩ _ rfl rfl
      (by simp [Bzla.empty]) (by simp [Bzla.empty])

/-- C23, evaluation at the failing input: any handle, for instance the
single-bit constant 1, with assertions active.  `BzlaFPSymProp::checkNode`
starts with `assert(checkNode(node))`: at every bound on the depth of nested
calls it is still inside that assertion, so it returns neither true nor
false, and constructing a proposition from the width-1 handle does not
return either.  Without assertions the check is the width test. -/
theorem prop_checkNode_does_not_return (sym : Bool) (fuel : Nat) (node : BzlaNode) :
    BzlaFPSymProp.checkNode ⟨true, sym⟩ fuel node = .error .outOfFuel ∧
    (¬ ∃ b, BzlaFPSymProp.checkNode ⟨true, sym⟩ fuel node = .ok b) ∧
    bzla_node_get_sort_id (.const 1 1) = .bv 1 ∧
    BzlaFPSymProp.ofNode ⟨true, sym⟩ fuel (.const 1 1) (Bzla.empty.acquireNode (.const 1 1))
      = .error .outOfFuel ∧
    BzlaFPSymProp.checkNode ⟨false, sym⟩ (fuel + 1) node
      = .ok (bzla_sort_is_bv (bzla_node_get_sort_id node)
          && bzla_node_bv_get_width node == 1) := by
  refine ⟨prop_checkNode_asserting sym fuel node, ?_, rfl, prop_ofNode_asserting sym fuel _ _,
    prop_checkNode_plain sym fuel node⟩
  rintro ⟨b, hb⟩
  rw [prop_checkNode_asserting] at hb
  cases hb

/-- C24, evaluation at the failing input: the unsigned interpretation at
width 8.  `minValue(8)` is the constant 128 and `maxValue(8)` the constant
127, the signed extremes, in every build; without assertions the
propositions `minValue(8) <= zero(8)` and `allOnes(8) <= maxValue(8)` are
returned and are false under every assignment; with assertions active the
comparison `minValue(8) <= zero(8)` returns no proposition, under either
interpretation. -/
theorem unsigned_extremes_are_the_signed_ones (cfg : Build) (sym : Bool) (fuel : Nat)
    (s : Bzla) :
    BzlaFPSymBV.minValue cfg false 8 s
      = .ok (⟨.const 8 128⟩, s.acquireNode (.const 8 128)) ∧
    BzlaFPSymBV.maxValue cfg false 8 s
      = .ok (⟨.const 8 127⟩, s.acquireNode (.const 8 127)) ∧
    (∃ p s1, (BzlaFPSymBV.minValue ⟨false, sym⟩ false 8 >>= fun m =>
        BzlaFPSymBV.zero ⟨false, sym⟩ false 8 >>= fun x => m.le ⟨false, sym⟩ fuel x) Bzla.empty
        = .ok (p, s1) ∧ ∀ σ, p.holds σ = false) ∧
    (∃ p s1, (BzlaFPSymBV.allOnes ⟨false, sym⟩ false 8 >>= fun x =>
        BzlaFPSymBV.maxValue ⟨false, sym⟩ false 8 >>= fun m => x.le ⟨false, sym⟩ fuel m)
        Bzla.empty = .ok (p, s1) ∧ ∀ σ, p.holds σ = false) ∧
    ∀ sgn : Bool, ∃ e, (BzlaFPSymBV.minValue ⟨true, sym⟩ sgn 8 >>= fun m =>
        BzlaFPSymBV.zero ⟨true, sym⟩ sgn 8 >>= fun x => m.le ⟨true, sym⟩ fuel x) Bzla.empty
        = .error e := by
  have hmin : ∀ (c : Build) (t : Bzla), BzlaFPSymBV.minValue c false 8 t
      = .ok (⟨.const 8 128⟩, t.acquireNode (.const 8 128)) :=
    fun c t => BzlaFPSymBV.minValue_ok c false 8 t (by decide)
  have hmax : ∀ (c : Build) (t : Bzla), BzlaFPSymBV.maxValue c false 8 t
      = .ok (⟨.const 8 127⟩, t.acquireNode (.const 8 127)) :=
    fun c t => BzlaFPSymBV.maxValue_ok c false 8 t (by decide)
  refine ⟨hmin cfg s, hmax cfg s, ?_, ?_, ?_⟩
  · obtain ⟨p, s1, hrun, _, hval⟩ :=
      (unsigned_comparisons_plain sym fuel ⟨.const 8 128⟩ ⟨.const 8 0⟩
        ((Bzla.empty.acquireNode (.const 8 128)).acquireNode (.const 8 0)) rfl rfl
        (by simp [Bzla.empty]) (by simp [Bzla.empty])).1
    refine ⟨p, s1, ?_, fun σ => ?_⟩
    · rw [Run.bind_ok (hmin _ _),
        Run.bind_ok (BzlaFPSymBV.zero_ok ⟨false, sym⟩ false 8 _ (by decide))]
      exact hrun
    · simp [BzlaFPSymProp.holds, hval σ, BzlaNode.eval]
  · obtain ⟨p, s1, hrun, _, hval⟩ :=
      (unsigned_comparisons_plain sym fuel ⟨.const 8 255⟩ ⟨.const 8 127⟩
        ((Bzla.empty.acquireNode (.const 8 255)).acquireNode (.const 8 127)) rfl rfl
        (by simp [Bzla.empty]) (by simp [Bzla.empty])).1
    refine ⟨p, s1, ?_, fun σ => ?_⟩
    · rw [Run.bind_ok (BzlaFPSymBV.allOnes_ok ⟨false, sym⟩ false 8 _ (by decide)),
        Run.bind_ok (hmax _ _)]
      exact hrun
    · simp [BzlaFPSymProp.holds, hval σ, BzlaNode.eval]
  · intro sgn
    apply BzlaFPSymBV.bind_stops
    intro m s1
    apply BzlaFPSymBV.bind_stops
    intro x s2
    cases sgn <;> exact prop_wrap_asserting sym fuel _ s2

/-- C25, evaluation at the failing input: a rounding mode over an allocated
3-bit input, in a context with no other reference to the 3-bit constant 5.
In every context the creation of the bound followed by its release gives
back the context of the entry, so `valid()` builds the comparison exactly as
if the bound had never been created: the function holds no reference to the
handle it passes to `bzla_exp_bv_ult`.  In the context of the failing input
the count of the bound is then 0 and the run stops with a use after
release, in every build. -/
theorem rm_valid_bound_not_held (cfg : Build) (fuel : Nat) (s : Bzla) :
    (bzla_exp_bv_unsigned BZLA_RM_MAX (.bv 3) >>= fun max =>
      bzla_node_release max >>= fun _ => pure max) s = .ok (.const 3 5, s) ∧
    BzlaFPSymRM.valid cfg fuel ⟨.input 0 (.bv 3)⟩ s
      = (bzla_exp_bv_ult (.input 0 (.bv 3)) (.const 3 5) >>= fun n =>
          BzlaFPSymProp.ofNode cfg fuel n) s ∧
    (Bzla.empty.acquireNode (.input 0 (.bv 3))).nodeRefs (.const 3 5) = 0 ∧
    BzlaFPSymRM.valid cfg fuel ⟨.input 0 (.bv 3)⟩ (Bzla.empty.acquireNode (.input 0 (.bv 3)))
      = .error .useAfterRelease := by
  refine ⟨?_, rm_valid_after_release cfg fuel ⟨.input 0 (.bv 3)⟩ s rfl, by simp [Bzla.empty], ?_⟩
  · have h1 : bzla_exp_bv_unsigned BZLA_RM_MAX (.bv 3) s
        = .ok (.const 3 5, s.acquireNode (.const 3 5)) :=
      @hostNode_ok [] _ _ s (by simp) rfl
    have h2 : bzla_node_release (.const 3 5) (s.acquireNode (.const 3 5)) = .ok ((), s) := by
      simp [bzla_node_release]
    rw [Run.bind_ok h1, Run.bind_ok h2]
    rfl
  · rw [rm_valid_after_release cfg fuel ⟨.input 0 (.bv 3)⟩ _ rfl]
    exact Run.bind_error (ult_released _ _ _ (by simp [Bzla.empty]))

/-- C26, evaluation at the failing input: two rounding modes over allocated
3-bit inputs, without assertions, in a context where another reference keeps
the 3-bit constant 5 allocated (so that `valid()` returns).  `r.valid()`
followed by the destruction of the returned proposition leaves the
comparison node, which had no reference before the call, with one
reference; `r == s` followed by the destruction of the returned proposition
leaves the equality node with one reference as well.  With assertions
active neither member returns a proposition. -/
theorem rm_propositions_leak (sym : Bool) (fuel : Nat) (r r2 : BzlaFPSymRM) (s : Bzla) :
    (∃ s1, (BzlaFPSymRM.valid ⟨false, sym⟩ fuel ⟨.input 0 (.bv 3)⟩ >>= fun p => p.destroy)
        ((Bzla.empty.acquireNode (.input 0 (.bv 3))).acquireNode (.const 3 5)) = .ok ((), s1) ∧
      ((Bzla.empty.acquireNode (.input 0 (.bv 3))).acquireNode (.const 3 5)).nodeRefs
        (.binop .ult (.input 0 (.bv 3)) (.const 3 5)) = 0 ∧
      s1.nodeRefs (.binop .ult (.input 0 (.bv 3)) (.const 3 5)) = 1) ∧
    (∃ s1, (BzlaFPSymRM.eq ⟨false, sym⟩ fuel ⟨.input 0 (.bv 3)⟩ ⟨.input 1 (.bv 3)⟩ >>=
          fun p => p.destroy)
        ((Bzla.empty.acquireNode (.input 0 (.bv 3))).acquireNode (.input 1 (.bv 3)))
        = .ok ((), s1) ∧
      ((Bzla.empty.acquireNode (.input 0 (.bv 3))).acquireNode (.input 1 (.bv 3))).nodeRefs
        (.binop .eq (.input 0 (.bv 3)) (.input 1 (.bv 3))) = 0 ∧
      s1.nodeRefs (.binop .eq (.input 0 (.bv 3)) (.input 1 (.bv 3))) = 1) ∧
    (∃ e, r.valid ⟨true, sym⟩ fuel s = .error e) ∧
    (∃ e, r.eq ⟨true, sym⟩ fuel r2 s = .error e) := by
  refine ⟨⟨((Bzla.empty.acquireNode (.input 0 (.bv 3))).acquireNode (.const 3 5)).acquireNode
        (.binop .ult (.input 0 (.bv 3)) (.const 3 5)), ?_, by simp [Bzla.empty], ?_⟩,
    ⟨((Bzla.empty.acquireNode (.input 0 (.bv 3))).acquireNode (.input 1 (.bv 3))).acquireNode
        (.binop .eq (.input 0 (.bv 3)) (.input 1 (.bv 3))), ?_, by simp [Bzla.empty], ?_⟩,
    rm_valid_asserting sym fuel r s, rm_eq_asserting sym fuel r r2 s⟩
  · rw [Run.bind_ok (rm_valid_plain sym fuel ⟨.input 0 (.bv 3)⟩ _ rfl
      (by simp [Bzla.empty]) (by simp [Bzla.empty])).1]
    exact prop_destroy_acquired _ _
  · simp [Bzla.empty]
  · rw [Run.bind_ok (rm_eq_plain sym fuel ⟨.input 0 (.bv 3)⟩ ⟨.input 1 (.bv 3)⟩ _ rfl
      (by simp [Bzla.empty]) (by simp [Bzla.empty]))]
    exact prop_destroy_acquired _ _
  · simp [Bzla.empty]

end Bzlafp
